import Mathlib

/-!
# MiniVSFS: bitmap allocator, checksum engine, layout, image builder and file injector

A shallow embedding of `mkfs_builder.c` and `mkfs_adder.c`.

* Memory is a total map from byte offsets to byte values; a C pointer is a
  byte offset into it.  Multi-byte fields are little-endian and packed.
* `uint8_t`, `uint32_t`, `uint64_t` and `size_t` values are natural numbers,
  with an explicit `% 2 ^ w` wherever the C arithmetic can wrap; `int` values
  are integers.
* Loops are structural recursions on the number of iterations left.
-/

namespace MiniVSFS

/-! ## Memory model -/

/-- Byte-addressed memory: offset to byte value. -/
abbrev Mem := Nat → Nat

/-- Every cell holds a `uint8_t`. -/
def Mem.WF (m : Mem) : Prop := ∀ a, m a < 256

/-- Block size, `#define BS 4096u`. -/
def BS : Nat := 4096

/-- Inode record size, `#define INODE_SIZE 128u`. -/
def INODE_SIZE : Nat := 128

/-- Number of direct pointers, `#define DIRECT_MAX 12`. -/
def DIRECT_MAX : Nat := 12

/-- Conversion of a `size_t` value to `int` (reduction modulo `2 ^ 32` into
the signed range), as performed by `return bit_pos;` in `find_free_bit`. -/
def toInt32 (v : Nat) : Int :=
  if v % 2 ^ 32 < 2 ^ 31 then ((v % 2 ^ 32 : Nat) : Int)
  else ((v % 2 ^ 32 : Nat) : Int) - 2 ^ 32

/-! ## Bitmap allocator (`mkfs_adder.c`) -/

/-- Inner loop of `find_free_bit`: `for (bit = ..; bit < 8; bit++)` over the
byte value `b = bitmap[byte]`, with `k` iterations left.  The result is the
`bit_pos` of the `return` statement, if it is reached. -/
def find_free_bit_bits (b byte bitmap_size_bits : Nat) : Nat → Nat → Option Nat
  | _, 0 => none
  | bit, k + 1 =>
    if b &&& (1 <<< bit) = 0 then
      if byte * 8 + bit < bitmap_size_bits then some (byte * 8 + bit)
      else find_free_bit_bits b byte bitmap_size_bits (bit + 1) k
    else find_free_bit_bits b byte bitmap_size_bits (bit + 1) k

/-- Outer loop of `find_free_bit`: `for (byte = ..; byte < (bits + 7) / 8; byte++)`
with `k` iterations left. -/
def find_free_bit_bytes (m : Mem) (bitmap bitmap_size_bits : Nat) : Nat → Nat → Option Nat
  | _, 0 => none
  | byte, k + 1 =>
    if m (bitmap + byte) ≠ 0xFF then
      match find_free_bit_bits (m (bitmap + byte)) byte bitmap_size_bits 0 8 with
      | some bit_pos => some bit_pos
      | none => find_free_bit_bytes m bitmap bitmap_size_bits (byte + 1) k
    else find_free_bit_bytes m bitmap bitmap_size_bits (byte + 1) k

/-- The `size_t` value `bit_pos` that `find_free_bit` returns, or `none` when
the loop falls through to `return -1`.  The loop bound `(bits + 7) / 8` is
computed in `size_t` (64 bits). -/
def find_free_bit_pos (m : Mem) (bitmap bitmap_size_bits : Nat) : Option Nat :=
  find_free_bit_bytes m bitmap bitmap_size_bits 0 ((bitmap_size_bits + 7) % 2 ^ 64 / 8)

/-- The function `static int find_free_bit(uint8_t* bitmap, size_t bitmap_size_bits)`. -/
def find_free_bit (m : Mem) (bitmap bitmap_size_bits : Nat) : Int :=
  match find_free_bit_pos m bitmap bitmap_size_bits with
  | some bit_pos => toInt32 bit_pos
  | none => -1

/-- The function `static void set_bit(uint8_t* bitmap, int bit_pos)`:
`bitmap[bit_pos / 8] |= (1 << (bit_pos % 8))`, the result stored as `uint8_t`.
C leaves a negative `bit_pos` undefined; no caller passes one. -/
def set_bit (m : Mem) (bitmap : Nat) (bit_pos : Int) : Mem :=
  fun a =>
    if a = bitmap + (bit_pos.tdiv 8).toNat then
      (m a ||| (1 <<< (bit_pos.tmod 8).toNat)) % 256
    else m a

/-- Bit `i` of the bitmap at `bitmap` is clear: byte `i / 8`, bit `i % 8`,
least significant bit first. -/
def bit_clear (m : Mem) (bitmap i : Nat) : Prop :=
  m (bitmap + i / 8) &&& (1 <<< (i % 8)) = 0

instance (m : Mem) (bitmap i : Nat) : Decidable (bit_clear m bitmap i) := by
  unfold bit_clear; infer_instance

/-- A candidate position for `find_free_bit`: a clear bit below the bound. -/
def free_below (m : Mem) (bitmap n i : Nat) : Prop := i < n ∧ bit_clear m bitmap i

/-! ## Little-endian packed fields and C library calls -/

/-- Store the low `n` bytes of `v` at `addr`, least significant byte first:
assignment to a packed integer field of width `n`. -/
def store_le (m : Mem) (addr n v : Nat) : Mem :=
  fun a => if addr ≤ a ∧ a < addr + n then (v >>> (8 * (a - addr))) % 256 else m a

/-- Read an `n`-byte little-endian integer field at `addr`. -/
def load_le (m : Mem) (addr : Nat) : Nat → Nat
  | 0 => 0
  | n + 1 => m addr + 256 * load_le m (addr + 1) n

/-- The call `memset(dst, val, n)`. -/
def memset (m : Mem) (dst val n : Nat) : Mem :=
  fun a => if dst ≤ a ∧ a < dst + n then val % 256 else m a

/-- Copy the bytes `bs` to `dst`. -/
def write_bytes (m : Mem) (dst : Nat) (bs : List Nat) : Mem :=
  fun a => if dst ≤ a ∧ a < dst + bs.length then bs.getD (a - dst) 0 else m a

/-- The call `strcpy(dst, s)` for a C string with characters `s` (no NUL
inside): the characters followed by the terminating NUL. -/
def strcpy (m : Mem) (dst : Nat) (s : List Nat) : Mem :=
  write_bytes m dst (s ++ [0])

/-- The statement `p[0] |= v` on a `uint8_t` cell at address `a`. -/
def or_byte (m : Mem) (a v : Nat) : Mem :=
  fun x => if x = a then (m x ||| v) % 256 else m x

/-- Byte offset of block `b` from the start of the image, `b * BS` in 64 bits. -/
def blk (b : Nat) : Nat := b * BS % 2 ^ 64

/-! ## Checksum engine -/

/-- One round of the inner loop of `crc32_init`:
`c = (c&1) ? (0xEDB88320u ^ (c>>1)) : (c>>1)`. -/
def crc32_init_round (c : Nat) : Nat :=
  if c &&& 1 ≠ 0 then 0xEDB88320 ^^^ (c >>> 1) else c >>> 1

/-- The table written by `crc32_init`. -/
def crc32_init : List Nat :=
  (List.range 256).map (fun i => crc32_init_round^[8] i)

/-- The global `CRC32_TAB` once `crc32_init()` has run; both programs call it
first thing in `main`. -/
def CRC32_TAB : List Nat := crc32_init

/-- The loop of `crc32`: `for (i = ..; i < n; i++) c = CRC32_TAB[(c^p[i])&0xFF] ^ (c>>8)`,
with `k` iterations left. -/
def crc32_loop (m : Mem) (data : Nat) : Nat → Nat → Nat → Nat
  | c, _, 0 => c
  | c, i, k + 1 =>
    crc32_loop m data (CRC32_TAB.getD ((c ^^^ m (data + i)) &&& 0xFF) 0 ^^^ (c >>> 8)) (i + 1) k

/-- The function `uint32_t crc32(const void* data, size_t n)`. -/
def crc32 (m : Mem) (data n : Nat) : Nat :=
  crc32_loop m data 0xFFFFFFFF 0 n ^^^ 0xFFFFFFFF

/-- Offset of `checksum` in the packed `superblock_t`: three `uint32_t`, then
twelve `uint64_t`, then `flags`. -/
def SB_CHECKSUM_OFF : Nat := 3 * 4 + 12 * 8 + 4

/-- The function `superblock_crc_finalize`: the memory afterwards and the
returned checksum. -/
def superblock_crc_finalize (m : Mem) (sb : Nat) : Mem × Nat :=
  let m1 := store_le m (sb + SB_CHECKSUM_OFF) 4 0
  let s := crc32 m1 sb (BS - 4)
  (store_le m1 (sb + SB_CHECKSUM_OFF) 4 s, s)

/-- The function `inode_crc_finalize`; `tmp` is the local 128-byte buffer. -/
def inode_crc_finalize (m : Mem) (ino : Nat) : Mem :=
  let tmp : Mem := fun i => if i < INODE_SIZE then m (ino + i) else 0
  let tmp := memset tmp 120 0 8
  let c := crc32 tmp 0 120
  store_le m (ino + 120) 8 c

/-- The loop of `dirent_checksum_finalize`: `for (i = ..; i < 63; i++) x ^= p[i]`
on a `uint8_t x`, with `k` iterations left. -/
def dirent_xor_loop (m : Mem) (de : Nat) : Nat → Nat → Nat → Nat
  | x, _, 0 => x
  | x, i, k + 1 => dirent_xor_loop m de ((x ^^^ m (de + i)) % 256) (i + 1) k

/-- The function `dirent_checksum_finalize`. -/
def dirent_checksum_finalize (m : Mem) (de : Nat) : Mem :=
  store_le m (de + 63) 1 (dirent_xor_loop m de 0 0 63)

/-! ### Reference checksums, written from the specification -/

/-- One bit of the standard reflected CRC-32: shift right, and XOR with the
polynomial `0xEDB88320` when the bit shifted out is 1. -/
def crc32_ref_bit (c : Nat) : Nat :=
  if c % 2 = 1 then (c / 2) ^^^ 0xEDB88320 else c / 2

/-- One byte of the bit-by-bit CRC-32: XOR the byte into the low bits, then
eight bit steps. -/
def crc32_ref_byte (c b : Nat) : Nat :=
  crc32_ref_bit^[8] (c ^^^ b)

/-- Standard reflected CRC-32 of a byte sequence, bit by bit: initial value
`0xFFFFFFFF`, final XOR `0xFFFFFFFF`. -/
def crc32_ref (bytes : List Nat) : Nat :=
  bytes.foldl crc32_ref_byte 0xFFFFFFFF ^^^ 0xFFFFFFFF

/-- XOR of the `n` bytes starting at `p`. -/
def xor_bytes (m : Mem) (p : Nat) : Nat → Nat
  | 0 => 0
  | n + 1 => xor_bytes m p n ^^^ m (p + n)

/-- Memory with bit `k` of the byte at `a` flipped. -/
def flip_bit (m : Mem) (a k : Nat) : Mem :=
  fun x => if x = a then m x ^^^ (1 <<< k) else m x

/-! ## Layout calculator and image builder (`mkfs_builder.c`) -/

/-- The local variables of `main` that describe the layout. -/
structure Layout where
  total_blocks : Nat
  inode_count : Nat
  inode_bitmap_start : Nat
  data_bitmap_start : Nat
  inode_table_start : Nat
  inode_table_blocks : Nat
  data_region_start : Nat
  data_region_blocks : Nat
deriving DecidableEq, Repr

/-- The failures of `main` in `mkfs_builder.c` that depend on the two numeric
arguments, in source order. -/
inductive FormatError where
  | args_required
  | size_kib_range
  | inodes_range
  | no_data_space
deriving DecidableEq, Repr

/-- Argument validation and layout calculation of `main` in `mkfs_builder.c`;
`size_kib` and `inode_count` are the `uint64_t` values parsed from the
command line. -/
def format_layout (size_kib inode_count : Nat) : Except FormatError Layout :=
  if size_kib = 0 ∨ inode_count = 0 then .error .args_required
  else if size_kib < 180 ∨ size_kib > 4096 ∨ size_kib % 4 ≠ 0 then .error .size_kib_range
  else if inode_count < 128 ∨ inode_count > 512 then .error .inodes_range
  else
    let total_blocks := size_kib * 1024 % 2 ^ 64 / BS
    let inode_bitmap_start := 1
    let data_bitmap_start := 2
    let inode_table_start := 3
    let inode_table_bytes := inode_count * INODE_SIZE % 2 ^ 64
    let inode_table_blocks := (inode_table_bytes + BS - 1) % 2 ^ 64 / BS
    let data_region_start := (inode_table_start + inode_table_blocks) % 2 ^ 64
    let data_region_blocks := (total_blocks + 2 ^ 64 - data_region_start) % 2 ^ 64
    if data_region_blocks < 1 then .error .no_data_space
    else .ok {
      total_blocks := total_blocks
      inode_count := inode_count
      inode_bitmap_start := inode_bitmap_start
      data_bitmap_start := data_bitmap_start
      inode_table_start := inode_table_start
      inode_table_blocks := inode_table_blocks
      data_region_start := data_region_start
      data_region_blocks := data_region_blocks }

/-- The five regions of the layout as (first block, block count), in block
order: superblock, inode bitmap, data bitmap, inode table, data region; the
superblock and the two bitmaps have one block each. -/
def layout_regions (L : Layout) : List (Nat × Nat) :=
  [(0, 1), (L.inode_bitmap_start, 1), (L.data_bitmap_start, 1),
    (L.inode_table_start, L.inode_table_blocks), (L.data_region_start, L.data_region_blocks)]

/-- Block `b` lies in the region `r`. -/
def in_region (r : Nat × Nat) (b : Nat) : Prop := r.1 ≤ b ∧ b < r.1 + r.2

/-- An image file: its length in bytes and its contents. -/
structure Image where
  size : Nat
  mem : Mem

/-- Superblock population in `main` of `mkfs_builder.c`; `sb` is at offset 0
of the zero-filled image. -/
def format_superblock (image : Mem) (L : Layout) (now : Nat) : Mem :=
  let image := store_le image 0 4 0x4653564D
  let image := store_le image 4 4 1
  let image := store_le image 8 4 BS
  let image := store_le image 12 8 L.total_blocks
  let image := store_le image 20 8 L.inode_count
  let image := store_le image 28 8 L.inode_bitmap_start
  let image := store_le image 36 8 1
  let image := store_le image 44 8 L.data_bitmap_start
  let image := store_le image 52 8 1
  let image := store_le image 60 8 L.inode_table_start
  let image := store_le image 68 8 L.inode_table_blocks
  let image := store_le image 76 8 L.data_region_start
  let image := store_le image 84 8 L.data_region_blocks
  let image := store_le image 92 8 1
  let image := store_le image 100 8 now
  store_le image 108 4 0

/-- The loop `for (int i = 1; i < 12; i++) root_inode->direct[i] = 0;`, from
index `i` with `k` iterations left. -/
def format_clear_direct (image : Mem) (root_inode : Nat) : Nat → Nat → Mem
  | _, 0 => image
  | i, k + 1 => format_clear_direct (store_le image (root_inode + 44 + 4 * i) 4 0) root_inode (i + 1) k

/-- Root inode creation in `main` of `mkfs_builder.c`; `root_inode` is the
byte offset of inode slot 0. -/
def format_root_inode (image : Mem) (root_inode : Nat) (L : Layout) (now : Nat) : Mem :=
  let image := store_le image (root_inode + 0) 2 0o040000
  let image := store_le image (root_inode + 2) 2 2
  let image := store_le image (root_inode + 4) 4 0
  let image := store_le image (root_inode + 8) 4 0
  let image := store_le image (root_inode + 12) 8 128
  let image := store_le image (root_inode + 20) 8 now
  let image := store_le image (root_inode + 28) 8 now
  let image := store_le image (root_inode + 36) 8 now
  let image := store_le image (root_inode + 44) 4 L.data_region_start
  let image := format_clear_direct image root_inode 1 11
  let image := store_le image (root_inode + 92) 4 0
  let image := store_le image (root_inode + 96) 4 0
  let image := store_le image (root_inode + 100) 4 0
  let image := store_le image (root_inode + 104) 4 5
  let image := store_le image (root_inode + 108) 4 0
  store_le image (root_inode + 112) 8 0

/-- One root directory entry of `main` in `mkfs_builder.c`: inode 1, type 2,
zeroed name, then `strcpy` of the name. -/
def format_dirent (image : Mem) (de : Nat) (name : List Nat) : Mem :=
  let image := store_le image (de + 0) 4 1
  let image := store_le image (de + 4) 1 2
  let image := memset image (de + 5) 0 58
  strcpy image (de + 5) name

/-- Image construction in `main` of `mkfs_builder.c`, from `calloc` to the
buffer handed to `fwrite`; `now` is `(uint64_t)time(NULL)`. -/
def format_image (L : Layout) (now : Nat) : Image :=
  let image_size := L.total_blocks * BS % 2 ^ 64
  let image : Mem := fun _ => 0
  let image := format_superblock image L now
  let inode_bitmap := blk L.inode_bitmap_start
  let data_bitmap := blk L.data_bitmap_start
  let image := or_byte image (inode_bitmap + 0) 0x01
  let image := or_byte image (data_bitmap + 0) 0x01
  let root_inode := blk L.inode_table_start
  let image := format_root_inode image root_inode L now
  let root_dir_block := blk L.data_region_start
  let dot_entry := root_dir_block
  let image := format_dirent image dot_entry [46]
  let dotdot_entry := root_dir_block + 64
  let image := format_dirent image dotdot_entry [46, 46]
  let image := dirent_checksum_finalize image dot_entry
  let image := dirent_checksum_finalize image dotdot_entry
  let image := inode_crc_finalize image root_inode
  let image := (superblock_crc_finalize image 0).1
  { size := image_size, mem := image }

/-- The function `main` of `mkfs_builder.c` on parsed arguments: the image
written to the output file, or the failure. -/
def mkfs_builder_main (size_kib inode_count now : Nat) : Except FormatError Image :=
  match format_layout size_kib inode_count with
  | .error e => .error e
  | .ok L => .ok (format_image L now)

/-- The fields of `superblock_t`. -/
structure Superblock where
  magic : Nat
  version : Nat
  block_size : Nat
  total_blocks : Nat
  inode_count : Nat
  inode_bitmap_start : Nat
  inode_bitmap_blocks : Nat
  data_bitmap_start : Nat
  data_bitmap_blocks : Nat
  inode_table_start : Nat
  inode_table_blocks : Nat
  data_region_start : Nat
  data_region_blocks : Nat
  root_inode : Nat
  mtime_epoch : Nat
  flags : Nat
  checksum : Nat
deriving DecidableEq, Repr

/-- The view `superblock_t* sb = (superblock_t*)image` of `mkfs_adder.c`:
every field read at its packed offset. -/
def read_superblock (m : Mem) (sb : Nat) : Superblock :=
  { magic := load_le m (sb + 0) 4
    version := load_le m (sb + 4) 4
    block_size := load_le m (sb + 8) 4
    total_blocks := load_le m (sb + 12) 8
    inode_count := load_le m (sb + 20) 8
    inode_bitmap_start := load_le m (sb + 28) 8
    inode_bitmap_blocks := load_le m (sb + 36) 8
    data_bitmap_start := load_le m (sb + 44) 8
    data_bitmap_blocks := load_le m (sb + 52) 8
    inode_table_start := load_le m (sb + 60) 8
    inode_table_blocks := load_le m (sb + 68) 8
    data_region_start := load_le m (sb + 76) 8
    data_region_blocks := load_le m (sb + 84) 8
    root_inode := load_le m (sb + 92) 8
    mtime_epoch := load_le m (sb + 100) 8
    flags := load_le m (sb + 108) 4
    checksum := load_le m (sb + 112) 4 }

/-- The magic check of `main` in `mkfs_adder.c`: `sb->magic != 0x4653564D`
rejects the image. -/
def magic_ok (m : Mem) : Bool := (read_superblock m 0).magic = 0x4653564D

/-- The fields of `inode_t`. -/
structure Inode where
  mode : Nat
  links : Nat
  uid : Nat
  gid : Nat
  size_bytes : Nat
  atime : Nat
  mtime : Nat
  ctime : Nat
  direct : List Nat
  reserved_0 : Nat
  reserved_1 : Nat
  reserved_2 : Nat
  proj_id : Nat
  uid16_gid16 : Nat
  xattr_ptr : Nat
  inode_crc : Nat
deriving DecidableEq, Repr

/-- The view `(inode_t*)ino`: every field read at its packed offset. -/
def read_inode (m : Mem) (ino : Nat) : Inode :=
  { mode := load_le m (ino + 0) 2
    links := load_le m (ino + 2) 2
    uid := load_le m (ino + 4) 4
    gid := load_le m (ino + 8) 4
    size_bytes := load_le m (ino + 12) 8
    atime := load_le m (ino + 20) 8
    mtime := load_le m (ino + 28) 8
    ctime := load_le m (ino + 36) 8
    direct := (List.range 12).map (fun i => load_le m (ino + 44 + 4 * i) 4)
    reserved_0 := load_le m (ino + 92) 4
    reserved_1 := load_le m (ino + 96) 4
    reserved_2 := load_le m (ino + 100) 4
    proj_id := load_le m (ino + 104) 4
    uid16_gid16 := load_le m (ino + 108) 4
    xattr_ptr := load_le m (ino + 112) 8
    inode_crc := load_le m (ino + 120) 8 }

/-- The fields of `dirent64_t`; `name` is the whole 58-byte buffer. -/
structure Dirent where
  inode_no : Nat
  type : Nat
  name : List Nat
  checksum : Nat
deriving DecidableEq, Repr

/-- The view `(dirent64_t*)de`: every field read at its packed offset. -/
def read_dirent (m : Mem) (de : Nat) : Dirent :=
  { inode_no := load_le m (de + 0) 4
    type := load_le m (de + 4) 1
    name := (List.range 58).map (fun i => m (de + 5 + i))
    checksum := load_le m (de + 63) 1 }

/-! ## File injector (`mkfs_adder.c`) -/

/-- The file named by `--file`, as `main` of `mkfs_adder.c` observes it:
`name` holds the characters of the C string `add_file` (no NUL inside),
`found` is `stat(add_file, ..) == 0`, `regular` is `S_ISREG`, `st_size` is
`file_stat.st_size` and `content` is the byte stream `fread` delivers. -/
structure AddFile where
  name : List Nat
  found : Bool
  regular : Bool
  st_size : Nat
  content : List Nat

/-- The failures of `main` in `mkfs_adder.c` that depend on the file and on
the image contents, in source order. -/
inductive InjectError where
  | file_not_found
  | not_regular
  | name_too_long
  | file_too_large
  | bad_magic
  | no_free_inodes
  | too_many_blocks
  | no_free_data_blocks
  | read_error
  | already_exists
  | root_full
deriving DecidableEq, Repr

/-- The computation of `blocks_needed` in `main` of `mkfs_adder.c`:
0 for an empty file, else `(file_size + BS - 1) / BS` in `size_t`. -/
def blocks_needed_of (file_size : Nat) : Nat :=
  if file_size > 0 then (file_size + BS - 1) % 2 ^ 64 / BS else 0

/-- The allocation loop of `main` in `mkfs_adder.c`, from index `i` with `k`
iterations left; `data_blocks` is the local `uint32_t data_blocks[12]` and
`data_bitmap` the pointer computed before the loop.  Each iteration reads
`sb->data_region_blocks` and `sb->data_region_start` from the buffer.  The
sum `sb->data_region_start + free_block` is formed in 64 bits and stored in a
`uint32_t`. -/
def inject_alloc_loop (data_bitmap : Nat) :
    Nat → Nat → Mem → (Nat → Nat) → Except InjectError (Mem × (Nat → Nat))
  | 0, _, image, data_blocks => .ok (image, data_blocks)
  | k + 1, i, image, data_blocks =>
    if find_free_bit image data_bitmap (read_superblock image 0).data_region_blocks = -1 then
      .error .no_free_data_blocks
    else
      inject_alloc_loop data_bitmap k (i + 1)
        (set_bit image data_bitmap
          (find_free_bit image data_bitmap (read_superblock image 0).data_region_blocks))
        (fun j => if j = i then
            ((((read_superblock image 0).data_region_start : Int) +
                find_free_bit image data_bitmap (read_superblock image 0).data_region_blocks)
              % 2 ^ 32).toNat
          else data_blocks j)

/-- The value `bytes_to_read` of iteration `i` of the copy loop:
`(i == blocks_needed - 1) ? (file_size - i * BS) : BS`, in `size_t`. -/
def inject_bytes_to_read (file_size blocks_needed i : Nat) : Nat :=
  if i = blocks_needed - 1 then (file_size + 2 ^ 64 - i * BS % 2 ^ 64) % 2 ^ 64 else BS

/-- The copy loop of `main` in `mkfs_adder.c`, from index `i` with `k`
iterations left; `pos` is the read position of `add_fp`.  The block offset
`data_blocks[i] * BS` is a 32-bit product.  A short `fread` is the failure
"Error reading file data". -/
def inject_copy_loop (content : List Nat) (file_size blocks_needed : Nat)
    (data_blocks : Nat → Nat) : Nat → Nat → Nat → Mem → Except InjectError Mem
  | 0, _, _, image => .ok image
  | k + 1, i, pos, image =>
    let block_ptr := data_blocks i * BS % 2 ^ 32
    let bytes_to_read := inject_bytes_to_read file_size blocks_needed i
    let chunk := (content.drop pos).take bytes_to_read
    if chunk.length ≠ bytes_to_read then .error .read_error
    else
      let image := write_bytes image block_ptr chunk
      let image :=
        if bytes_to_read < BS then memset image (block_ptr + bytes_to_read) 0 (BS - bytes_to_read)
        else image
      inject_copy_loop content file_size blocks_needed data_blocks k (i + 1)
        (pos + bytes_to_read) image

/-- The loop `for (i = ..; i < blocks_needed; i++) new_inode->direct[i] =
data_blocks[i];`, from index `i` with `k` iterations left. -/
def inject_set_direct (new_inode : Nat) (data_blocks : Nat → Nat) : Nat → Nat → Mem → Mem
  | 0, _, image => image
  | k + 1, i, image =>
    inject_set_direct new_inode data_blocks k (i + 1)
      (store_le image (new_inode + 44 + 4 * i) 4 (data_blocks i))

/-- Creation of the new inode in `main` of `mkfs_adder.c`; `new_inode` is the
byte offset of `&inode_table[free_inode]`. -/
def inject_new_inode (image : Mem) (new_inode file_size now : Nat) (data_blocks : Nat → Nat)
    (blocks_needed : Nat) : Mem :=
  let image := memset image new_inode 0 128
  let image := store_le image (new_inode + 0) 2 0o100000
  let image := store_le image (new_inode + 2) 2 1
  let image := store_le image (new_inode + 4) 4 0
  let image := store_le image (new_inode + 8) 4 0
  let image := store_le image (new_inode + 12) 8 file_size
  let image := store_le image (new_inode + 20) 8 now
  let image := store_le image (new_inode + 28) 8 now
  let image := store_le image (new_inode + 36) 8 now
  let image := inject_set_direct new_inode data_blocks blocks_needed 0 image
  store_le image (new_inode + 104) 4 5

/-- The test `strcmp(p, s) == 0` for a C string `s` (no NUL inside) against
the NUL-terminated string at address `p`. -/
def strcmp_eq (m : Mem) : Nat → List Nat → Bool
  | p, [] => m p = 0
  | p, c :: cs => m p = c && strcmp_eq m (p + 1) cs

/-- The directory scan of `main` in `mkfs_adder.c`, from index `i` with `k`
iterations left: the final `(free_entry, used_entries)`, or the duplicate
name failure. -/
def inject_scan_loop (image : Mem) (entries : Nat) (add_file : List Nat) :
    Nat → Nat → Int → Int → Except InjectError (Int × Int)
  | 0, _, free_entry, used_entries => .ok (free_entry, used_entries)
  | k + 1, i, free_entry, used_entries =>
    if load_le image (entries + 64 * i + 0) 4 ≠ 0 then
      if strcmp_eq image (entries + 64 * i + 5) add_file then .error .already_exists
      else inject_scan_loop image entries add_file k (i + 1) free_entry (used_entries + 1)
    else if free_entry = -1 then
      inject_scan_loop image entries add_file k (i + 1) (i : Int) used_entries
    else inject_scan_loop image entries add_file k (i + 1) free_entry used_entries

/-- The call `strncpy(dst, s, n)`: the first `n` characters of `s`, padded
with NUL up to `n` bytes when `s` is shorter. -/
def strncpy (m : Mem) (dst : Nat) (s : List Nat) (n : Nat) : Mem :=
  fun a => if dst ≤ a ∧ a < dst + n then s.getD (a - dst) 0 else m a

/-- Creation of the directory entry in `main` of `mkfs_adder.c`; `new_entry`
is the byte offset of `&entries[free_entry]`. -/
def inject_new_entry (image : Mem) (new_entry : Nat) (free_inode : Int) (add_file : List Nat) :
    Mem :=
  let image := store_le image (new_entry + 0) 4 (free_inode + 1).toNat
  let image := store_le image (new_entry + 4) 1 1
  let image := memset image (new_entry + 5) 0 58
  let image := strncpy image (new_entry + 5) add_file 57
  store_le image (new_entry + 5 + 57) 1 0

/-- The end of `main` in `mkfs_adder.c`, from "Create directory entry" to the
last finalize call; `root_inode`, `new_inode` and `new_entry` are byte offsets. -/
def inject_write_entry (image : Mem) (root_inode new_inode new_entry : Nat)
    (free_inode used_entries : Int) (add_file : List Nat) (now : Nat) : Mem :=
  let image := inject_new_entry image new_entry free_inode add_file
  let image := store_le image (root_inode + 12) 8 ((used_entries + 1).toNat * 64)
  let image := store_le image (root_inode + 28) 8 now
  let image := dirent_checksum_finalize image new_entry
  let image := inode_crc_finalize image new_inode
  let image := inode_crc_finalize image root_inode
  (superblock_crc_finalize image 0).1

/-- The part of `main` in `mkfs_adder.c` after the magic check: allocation,
data copy, new inode, directory scan, directory entry, root update and
checksums.  The result is the buffer written to the output file.  Indexing
with a negative `free_inode` or `free_entry` is undefined in C and never
happens after the `-1` tests for bitmaps and directories that fit `int`. -/
def inject_image (f : AddFile) (input : Image) (now : Nat) : Except InjectError Image :=
  let image := input.mem
  let sb := read_superblock image 0
  let inode_bitmap := blk sb.inode_bitmap_start
  let data_bitmap := blk sb.data_bitmap_start
  let inode_table := blk sb.inode_table_start
  let free_inode := find_free_bit image inode_bitmap sb.inode_count
  if free_inode = -1 then .error .no_free_inodes
  else
    let blocks_needed := blocks_needed_of f.st_size
    if blocks_needed > 12 then .error .too_many_blocks
    else
      match inject_alloc_loop data_bitmap blocks_needed 0 image (fun _ => 0) with
      | .error e => .error e
      | .ok (image, data_blocks) =>
        match inject_copy_loop f.content f.st_size blocks_needed data_blocks
            blocks_needed 0 0 image with
        | .error e => .error e
        | .ok image =>
          let new_inode := inode_table + 128 * free_inode.toNat
          let image := inject_new_inode image new_inode f.st_size now data_blocks blocks_needed
          let image := set_bit image inode_bitmap free_inode
          let root_inode := inode_table
          let root_data := load_le image (root_inode + 44) 4 * BS % 2 ^ 32
          match inject_scan_loop image root_data f.name 64 0 (-1) 0 with
          | .error e => .error e
          | .ok (free_entry, used_entries) =>
            if free_entry = -1 then .error .root_full
            else
              .ok { size := input.size
                    mem := inject_write_entry image root_inode new_inode
                      (root_data + 64 * free_entry.toNat) free_inode used_entries f.name now }

/-- The buffer written by a run of `main` of `mkfs_adder.c` that puts the new
inode in slot `n + 1` and the new entry in slot `n + 2` of the directory block
`drs`, as a function of the buffer `image` after the copy loop. -/
def inject_result (image : Mem) (drs n : Nat) (f : AddFile) (now : Nat)
    (data_blocks : Nat → Nat) : Mem :=
  inject_write_entry
    (set_bit
      (inject_new_inode image (12288 + 128 * (n + 1)) f.st_size now data_blocks
        (blocks_needed_of f.st_size))
      4096 ((n + 1 : Nat) : Int))
    12288 (12288 + 128 * (n + 1)) (drs * 4096 + 64 * (n + 2))
    ((n + 1 : Nat) : Int) ((n + 2 : Nat) : Int) f.name now

/-- The function `main` of `mkfs_adder.c` on parsed arguments: the image
written to the output file, or the failure (no output is written then);
`input` is the image read from `--input` and `now` is `time(NULL)`. -/
def mkfs_adder_main (f : AddFile) (input : Image) (now : Nat) : Except InjectError Image :=
  if f.found = false then .error .file_not_found
  else if f.regular = false then .error .not_regular
  else if f.name.length > 57 then .error .name_too_long
  else if f.st_size > 12 * BS then .error .file_too_large
  else if (read_superblock input.mem 0).magic ≠ 0x4653564D then .error .bad_magic
  else inject_image f input now

/-- A well-formed file: the name is a C string of bytes, the content is a
byte sequence, and `stat` reports the length of the content. -/
def AddFile.WF (f : AddFile) : Prop :=
  (∀ c, c ∈ f.name → 0 < c ∧ c < 256) ∧ (∀ b, b ∈ f.content → b < 256) ∧
    f.st_size = f.content.length

/-- Images reachable from format by successful injections of well-formed
files. -/
inductive Reachable : Image → Prop where
  | format (size_kib inode_count now : Nat) (img : Image) :
      now < 2 ^ 64 → mkfs_builder_main size_kib inode_count now = .ok img → Reachable img
  | inject (f : AddFile) (img img2 : Image) (now : Nat) :
      Reachable img → f.WF → now < 2 ^ 64 → mkfs_adder_main f img now = .ok img2 →
      Reachable img2

/-- Shape of an image that holds the root directory and `n` injected files:
`tb`, `ic`, `itb`, `drs`, `drb` are the layout values, `d` is the number of
allocated data blocks, `nm s` is the name in directory slot `s` and `e j` is
the index of the first data bit of inode slot `j` (`e (j + 1) - e j` blocks
belong to it). -/
structure Inv (tb ic itb drs drb n d : Nat) (nm : Nat → List Nat) (e : Nat → Nat)
    (img : Image) : Prop where
  ic_lo : 128 ≤ ic
  ic_hi : ic ≤ 512
  drs_eq : drs = 3 + itb
  itb_lo : ic ≤ 32 * itb
  itb_hi : itb ≤ 16
  drb_lo : 26 ≤ drb
  tb_eq : tb = drs + drb
  tb_hi : tb ≤ 1024
  size_eq : img.size = tb * 4096
  wf : Mem.WF img.mem
  sb_magic : (read_superblock img.mem 0).magic = 0x4653564D
  sb_tb : (read_superblock img.mem 0).total_blocks = tb
  sb_ic : (read_superblock img.mem 0).inode_count = ic
  sb_ibs : (read_superblock img.mem 0).inode_bitmap_start = 1
  sb_dbs : (read_superblock img.mem 0).data_bitmap_start = 2
  sb_its : (read_superblock img.mem 0).inode_table_start = 3
  sb_itb : (read_superblock img.mem 0).inode_table_blocks = itb
  sb_drs : (read_superblock img.mem 0).data_region_start = drs
  sb_drb : (read_superblock img.mem 0).data_region_blocks = drb
  sb_sum : (read_superblock img.mem 0).checksum = crc32 (store_le img.mem (0 + 112) 4 0) 0 (BS - 4)
  n_hi : n ≤ 62
  d_lo : 1 ≤ d
  d_hi : d ≤ drb
  ibm : ∀ i, i < 32768 → (bit_clear img.mem 4096 i ↔ n < i)
  dbm : ∀ i, i < 32768 → (bit_clear img.mem 8192 i ↔ d ≤ i)
  e_zero : e 0 = 0
  e_one : e 1 = 1
  e_step : ∀ j, j ≤ n → e j ≤ e (j + 1) ∧ e (j + 1) ≤ e j + 12
  e_top : e (n + 1) = d
  direct : ∀ j t, j ≤ n → t < 12 →
    load_le img.mem (12288 + 128 * j + 44 + 4 * t) 4 =
      if t < e (j + 1) - e j then drs + e j + t else 0
  root_size : load_le img.mem (12288 + 12) 8 = 64 * (n + 2)
  ent_ino : ∀ s, s < n + 2 → load_le img.mem (drs * 4096 + 64 * s + 0) 4 = if s < 2 then 1 else s
  ent_type : ∀ s, s < n + 2 → img.mem (drs * 4096 + 64 * s + 4) = if s < 2 then 2 else 1
  ent_name : ∀ s t, s < n + 2 → t < 58 → img.mem (drs * 4096 + 64 * s + 5 + t) = (nm s).getD t 0
  ent_free : ∀ s, n + 2 ≤ s → s < 64 → load_le img.mem (drs * 4096 + 64 * s + 0) 4 = 0
  nm_len : ∀ s, s < n + 2 → (nm s).length ≤ 57
  nm_pos : ∀ s c, s < n + 2 → c ∈ nm s → 0 < c
  nm_inj : ∀ s s2, s < n + 2 → s2 < n + 2 → nm s = nm s2 → s = s2
  nm_dot : nm 0 = [46]
  nm_dotdot : nm 1 = [46, 46]

/-- Successive runs of `mkfs_adder`, each with its own file and its own time:
`--input` of a run is `--output` of the one before; the first failure ends
the sequence. -/
def inject_runs : List (AddFile × Nat) → Image → Except InjectError Image
  | [], img => .ok img
  | (f, now) :: rest, img =>
    match mkfs_adder_main f img now with
    | .error e => .error e
    | .ok img2 => inject_runs rest img2

/-- Number of clear bits among the first `n` bits of the bitmap at `bitmap`. -/
def free_count (m : Mem) (bitmap : Nat) : Nat → Nat
  | 0 => 0
  | n + 1 => free_count m bitmap n + if bit_clear m bitmap n then 1 else 0

/-! ## Bitmap allocator: lemmas -/

theorem toInt32_of_lt {v : Nat} (h : v < 2 ^ 31) : toInt32 v = (v : Int) := by
  have h1 : v % 2 ^ 32 = v := Nat.mod_eq_of_lt (by omega)
  unfold toInt32
  rw [h1, if_pos h]

theorem full_byte_bit (j : Nat) (hj : j < 8) : (0xFF : Nat) &&& (1 <<< j) ≠ 0 := by
  interval_cases j <;> decide

theorem find_free_bit_bits_some (b byte n : Nat) :
    ∀ k bit p, find_free_bit_bits b byte n bit k = some p →
      ∃ j, bit ≤ j ∧ j < bit + k ∧ p = byte * 8 + j ∧ b &&& (1 <<< j) = 0 ∧ p < n ∧
        ∀ j2, bit ≤ j2 → j2 < j → ¬ (b &&& (1 <<< j2) = 0 ∧ byte * 8 + j2 < n) := by
  intro k
  induction k with
  | zero => intro bit p h; simp [find_free_bit_bits] at h
  | succ k ih =>
    intro bit p h
    unfold find_free_bit_bits at h
    by_cases hc : b &&& (1 <<< bit) = 0
    · by_cases hn : byte * 8 + bit < n
      · rw [if_pos hc, if_pos hn] at h
        have hp : byte * 8 + bit = p := Option.some.inj h
        exact ⟨bit, le_refl _, by omega, hp.symm, hc, by omega, fun j2 h1 h2 => by omega⟩
      · rw [if_pos hc, if_neg hn] at h
        obtain ⟨j, h1, h2, h3, h4, h5, h6⟩ := ih (bit + 1) p h
        refine ⟨j, by omega, by omega, h3, h4, h5, ?_⟩
        intro j2 hj2 hj2lt
        by_cases he : j2 = bit
        · subst he; exact fun hh => hn hh.2
        · exact h6 j2 (by omega) hj2lt
    · rw [if_neg hc] at h
      obtain ⟨j, h1, h2, h3, h4, h5, h6⟩ := ih (bit + 1) p h
      refine ⟨j, by omega, by omega, h3, h4, h5, ?_⟩
      intro j2 hj2 hj2lt
      by_cases he : j2 = bit
      · subst he; exact fun hh => hc hh.1
      · exact h6 j2 (by omega) hj2lt

theorem find_free_bit_bits_none (b byte n : Nat) :
    ∀ k bit, find_free_bit_bits b byte n bit k = none →
      ∀ j, bit ≤ j → j < bit + k → ¬ (b &&& (1 <<< j) = 0 ∧ byte * 8 + j < n) := by
  intro k
  induction k with
  | zero => intro bit _ j h1 h2; omega
  | succ k ih =>
    intro bit h j h1 h2
    unfold find_free_bit_bits at h
    by_cases hc : b &&& (1 <<< bit) = 0
    · by_cases hn : byte * 8 + bit < n
      · rw [if_pos hc, if_pos hn] at h; exact absurd h (by simp)
      · rw [if_pos hc, if_neg hn] at h
        by_cases he : j = bit
        · subst he; exact fun hh => hn hh.2
        · exact ih (bit + 1) h j (by omega) (by omega)
    · rw [if_neg hc] at h
      by_cases he : j = bit
      · subst he; exact fun hh => hc hh.1
      · exact ih (bit + 1) h j (by omega) (by omega)

theorem free_below_split (m : Mem) (bitmap n byte j : Nat) (hj : j < 8) :
    free_below m bitmap n (byte * 8 + j) ↔
      (m (bitmap + byte) &&& (1 <<< j) = 0 ∧ byte * 8 + j < n) := by
  have h1 : (byte * 8 + j) / 8 = byte := by omega
  have h2 : (byte * 8 + j) % 8 = j := by omega
  unfold free_below bit_clear
  rw [h1, h2]
  exact And.comm

theorem not_free_in_byte_of_none (m : Mem) (bitmap n byte : Nat)
    (h : ∀ j, j < 8 → ¬ (m (bitmap + byte) &&& (1 <<< j) = 0 ∧ byte * 8 + j < n)) :
    ∀ q, byte * 8 ≤ q → q < (byte + 1) * 8 → ¬ free_below m bitmap n q := by
  intro q h1 h2
  have hq : q = byte * 8 + (q - byte * 8) := by omega
  rw [hq, free_below_split m bitmap n byte _ (by omega)]
  exact h _ (by omega)

theorem find_free_bit_bytes_none (m : Mem) (bitmap n : Nat) :
    ∀ k byte, find_free_bit_bytes m bitmap n byte k = none →
      ∀ q, byte * 8 ≤ q → q < (byte + k) * 8 → ¬ free_below m bitmap n q := by
  intro k
  induction k with
  | zero => intro byte _ q h1 h2; omega
  | succ k ih =>
    intro byte h q h1 h2
    unfold find_free_bit_bytes at h
    have hbyte : ∀ j, j < 8 → ¬ (m (bitmap + byte) &&& (1 <<< j) = 0 ∧ byte * 8 + j < n) ∧
        find_free_bit_bytes m bitmap n (byte + 1) k = none := by
      by_cases hff : m (bitmap + byte) ≠ 0xFF
      · rw [if_pos hff] at h
        cases hin : find_free_bit_bits (m (bitmap + byte)) byte n 0 8 with
        | some p => rw [hin] at h; exact absurd h (by simp)
        | none =>
          rw [hin] at h
          intro j hj
          exact ⟨find_free_bit_bits_none _ _ _ 8 0 hin j (Nat.zero_le _) (by omega), h⟩
      · rw [if_neg hff] at h
        have hv : m (bitmap + byte) = 0xFF := not_not.mp hff
        intro j hj
        refine ⟨fun hh => ?_, h⟩
        rw [hv] at hh
        exact full_byte_bit j hj hh.1
    by_cases hlt : q < (byte + 1) * 8
    · exact not_free_in_byte_of_none m bitmap n byte (fun j hj => (hbyte j hj).1) q h1 hlt
    · exact ih (byte + 1) (hbyte 0 (by omega)).2 q (by omega) (by omega)

theorem find_free_bit_bytes_some (m : Mem) (bitmap n : Nat) :
    ∀ k byte p, find_free_bit_bytes m bitmap n byte k = some p →
      free_below m bitmap n p ∧ byte * 8 ≤ p ∧ p < (byte + k) * 8 ∧
        ∀ q, byte * 8 ≤ q → q < p → ¬ free_below m bitmap n q := by
  intro k
  induction k with
  | zero => intro byte p h; simp [find_free_bit_bytes] at h
  | succ k ih =>
    intro byte p h
    unfold find_free_bit_bytes at h
    have hnext : find_free_bit_bytes m bitmap n (byte + 1) k = some p →
        (∀ j, j < 8 → ¬ (m (bitmap + byte) &&& (1 <<< j) = 0 ∧ byte * 8 + j < n)) →
        free_below m bitmap n p ∧ byte * 8 ≤ p ∧ p < (byte + (k + 1)) * 8 ∧
          ∀ q, byte * 8 ≤ q → q < p → ¬ free_below m bitmap n q := by
      intro hr hb
      obtain ⟨h1, h2, h3, h4⟩ := ih (byte + 1) p hr
      refine ⟨h1, by omega, by omega, ?_⟩
      intro q hq1 hq2
      by_cases hlt : q < (byte + 1) * 8
      · exact not_free_in_byte_of_none m bitmap n byte hb q hq1 hlt
      · exact h4 q (by omega) hq2
    by_cases hff : m (bitmap + byte) ≠ 0xFF
    · rw [if_pos hff] at h
      cases hin : find_free_bit_bits (m (bitmap + byte)) byte n 0 8 with
      | some p2 =>
        rw [hin] at h
        have hp : p2 = p := Option.some.inj h
        subst hp
        obtain ⟨j, _, h2, h3, h4, h5, h6⟩ := find_free_bit_bits_some _ _ _ 8 0 p2 hin
        have hj8 : j < 8 := by omega
        refine ⟨?_, by omega, by omega, ?_⟩
        · rw [h3, free_below_split m bitmap n byte j hj8]
          exact ⟨h4, by omega⟩
        · intro q hq1 hq2
          have hq : q = byte * 8 + (q - byte * 8) := by omega
          rw [hq, free_below_split m bitmap n byte _ (by omega)]
          exact h6 _ (Nat.zero_le _) (by omega)
      | none =>
        rw [hin] at h
        exact hnext h (fun j hj =>
          find_free_bit_bits_none _ _ _ 8 0 hin j (Nat.zero_le _) (by omega))
    · rw [if_neg hff] at h
      have hv : m (bitmap + byte) = 0xFF := not_not.mp hff
      refine hnext h (fun j hj hh => ?_)
      rw [hv] at hh
      exact full_byte_bit j hj hh.1

/-- When the scanned byte range covers the bound, `find_free_bit_pos` is `none`
exactly when no bit below the bound is clear. -/
theorem find_free_bit_pos_none (m : Mem) (bitmap n : Nat) (hn : n + 7 < 2 ^ 64)
    (h : find_free_bit_pos m bitmap n = none) : ∀ q, ¬ free_below m bitmap n q := by
  intro q hq
  unfold find_free_bit_pos at h
  rw [Nat.mod_eq_of_lt hn] at h
  refine find_free_bit_bytes_none m bitmap n _ 0 h q (Nat.zero_le _) ?_ hq
  have := hq.1
  omega

/-- A returned position is the least clear bit below the bound. -/
theorem find_free_bit_pos_some (m : Mem) (bitmap n p : Nat)
    (h : find_free_bit_pos m bitmap n = some p) :
    free_below m bitmap n p ∧ ∀ q, q < p → ¬ free_below m bitmap n q := by
  obtain ⟨h1, _, _, h4⟩ := find_free_bit_bytes_some m bitmap n _ 0 p h
  exact ⟨h1, fun q hq => h4 q (Nat.zero_le _) hq⟩

/-- The least clear bit below the bound is the returned position. -/
theorem find_free_bit_pos_eq (m : Mem) (bitmap n i : Nat) (hn : n + 7 < 2 ^ 64)
    (hi : free_below m bitmap n i) (hmin : ∀ q, q < i → ¬ free_below m bitmap n q) :
    find_free_bit_pos m bitmap n = some i := by
  cases h : find_free_bit_pos m bitmap n with
  | none => exact absurd hi (find_free_bit_pos_none m bitmap n hn h i)
  | some p =>
    obtain ⟨h1, h2⟩ := find_free_bit_pos_some m bitmap n p h
    have : p = i := by
      rcases Nat.lt_trichotomy p i with hlt | heq | hgt
      · exact absurd h1 (hmin p hlt)
      · exact heq
      · exact absurd hi (h2 i hgt)
    rw [this]

theorem and_shift_eq_zero_iff (x j : Nat) : x &&& (1 <<< j) = 0 ↔ x.testBit j = false := by
  rw [Nat.one_shiftLeft, Nat.and_two_pow]
  cases x.testBit j <;> simp

theorem set_bit_nat (m : Mem) (bitmap i a : Nat) :
    set_bit m bitmap (i : Int) a =
      if a = bitmap + i / 8 then (m a ||| (1 <<< (i % 8))) % 256 else m a := by
  have h1 : ((i : Int).tdiv 8).toNat = i / 8 := by
    have : (i : Int).tdiv 8 = ((i / 8 : Nat) : Int) := rfl
    rw [this, Int.toNat_ofNat]
  have h2 : ((i : Int).tmod 8).toNat = i % 8 := by
    have : (i : Int).tmod 8 = ((i % 8 : Nat) : Int) := rfl
    rw [this, Int.toNat_ofNat]
  unfold set_bit
  rw [h1, h2]

/-- After `set_bit`, exactly the bits that were clear and differ from the
allocated one are clear. -/
theorem bit_clear_set_bit (m : Mem) (bitmap i j : Nat) :
    bit_clear (set_bit m bitmap (i : Int)) bitmap j ↔ (j ≠ i ∧ bit_clear m bitmap j) := by
  unfold bit_clear
  rw [set_bit_nat, and_shift_eq_zero_iff, and_shift_eq_zero_iff]
  by_cases hb : bitmap + j / 8 = bitmap + i / 8
  · rw [if_pos hb, show (256 : Nat) = 2 ^ 8 from rfl, Nat.testBit_mod_two_pow, Nat.testBit_or,
      Nat.one_shiftLeft, Nat.testBit_two_pow]
    have hj8 : j % 8 < 8 := Nat.mod_lt _ (by decide)
    by_cases hk : i % 8 = j % 8
    · have hji : j = i := by omega
      simp [hj8, hk, hji]
    · have hji : j ≠ i := fun h => hk (by rw [h])
      simp [hj8, hk, hji]
  · rw [if_neg hb]
    have hji : j ≠ i := fun h => hb (by rw [h])
    simp [hji]

theorem find_free_bit_of_pos_some (m : Mem) (bitmap n p : Nat) (hn : n ≤ 2 ^ 31)
    (h : find_free_bit_pos m bitmap n = some p) : find_free_bit m bitmap n = (p : Int) := by
  have hp := (find_free_bit_pos_some m bitmap n p h).1.1
  unfold find_free_bit
  rw [h]
  exact toInt32_of_lt (by omega)

theorem find_free_bit_of_pos_none (m : Mem) (bitmap n : Nat)
    (h : find_free_bit_pos m bitmap n = none) : find_free_bit m bitmap n = -1 := by
  unfold find_free_bit
  rw [h]

/-- For a bound that fits `int`, the result of `find_free_bit` is either `-1`
with no clear bit below the bound, or the least clear bit below the bound. -/
theorem find_free_bit_cases (m : Mem) (bitmap n : Nat) (hn : n ≤ 2 ^ 31) :
    (find_free_bit m bitmap n = -1 ∧ ∀ q, ¬ free_below m bitmap n q) ∨
    (∃ p : Nat, find_free_bit m bitmap n = (p : Int) ∧ free_below m bitmap n p ∧
      ∀ q, q < p → ¬ free_below m bitmap n q) := by
  have hn2 : (2 : Nat) ^ 31 + 7 < 2 ^ 64 := by decide
  cases h : find_free_bit_pos m bitmap n with
  | none =>
    exact Or.inl ⟨find_free_bit_of_pos_none m bitmap n h,
      find_free_bit_pos_none m bitmap n (by omega) h⟩
  | some p =>
    obtain ⟨h1, h2⟩ := find_free_bit_pos_some m bitmap n p h
    exact Or.inr ⟨p, find_free_bit_of_pos_some m bitmap n p hn h, h1, h2⟩

/-- The result of `find_free_bit` depends only on which bits below the bound
are clear. -/
theorem find_free_bit_pos_congr (m m2 : Mem) (bitmap n : Nat) (hn : n + 7 < 2 ^ 64)
    (h : ∀ i, i < n → (bit_clear m2 bitmap i ↔ bit_clear m bitmap i)) :
    find_free_bit_pos m2 bitmap n = find_free_bit_pos m bitmap n := by
  have hfree : ∀ q, free_below m2 bitmap n q ↔ free_below m bitmap n q := by
    intro q
    unfold free_below
    constructor
    · exact fun hq => ⟨hq.1, (h q hq.1).mp hq.2⟩
    · exact fun hq => ⟨hq.1, (h q hq.1).mpr hq.2⟩
  cases hm : find_free_bit_pos m bitmap n with
  | none =>
    cases hm2 : find_free_bit_pos m2 bitmap n with
    | none => rfl
    | some p =>
      have hp := (find_free_bit_pos_some m2 bitmap n p hm2).1
      exact absurd ((hfree p).mp hp) (find_free_bit_pos_none m bitmap n hn hm p)
  | some p =>
    obtain ⟨h1, h2⟩ := find_free_bit_pos_some m bitmap n p hm
    exact find_free_bit_pos_eq m2 bitmap n p hn ((hfree p).mpr h1)
      (fun q hq hf => h2 q hq ((hfree q).mp hf))

/-! ## C1: `find_free_bit` returns the lowest clear bit -/

/-- C1 (as stated, refuted): with `bit_count = 2 ^ 64 - 1` the byte count
`(bit_count + 7) / 8` wraps to 0 in `size_t`, so `find_free_bit` returns `-1`
on an all-clear bitmap although bit 0 is clear and below `bit_count`. -/
theorem find_free_bit_wraps_at_size_max :
    find_free_bit (fun _ => 0) 0 (2 ^ 64 - 1) = -1 ∧
      0 < 2 ^ 64 - 1 ∧ bit_clear (fun _ => 0) 0 0 := by
  decide

/-- C1 (amended): for every bitmap and every `bit_count ≤ 2 ^ 31`,
`find_free_bit` returns either `-1` or the smallest index `i < bit_count`
whose bit (byte `i / 8`, bit `i % 8`, LSB first) is clear; it returns `-1`
exactly when every bit below `bit_count` is set; and bitmaps that agree on
the bits below `bit_count` give the same result, so bits at indices
`≥ bit_count` never influence it. -/
theorem find_free_bit_lowest_clear (m : Mem) (bitmap n : Nat) (hn : n ≤ 2 ^ 31) :
    (find_free_bit m bitmap n = -1 ∨
      ∃ i : Nat, find_free_bit m bitmap n = (i : Int) ∧ i < n ∧ bit_clear m bitmap i ∧
        ∀ j, j < i → ¬ bit_clear m bitmap j) ∧
    (find_free_bit m bitmap n = -1 ↔ ∀ i, i < n → ¬ bit_clear m bitmap i) ∧
    (∀ m2 : Mem, (∀ i, i < n → (bit_clear m2 bitmap i ↔ bit_clear m bitmap i)) →
      find_free_bit m2 bitmap n = find_free_bit m bitmap n) := by
  have hn2 : (2 : Nat) ^ 31 + 7 < 2 ^ 64 := by decide
  refine ⟨?_, ?_, ?_⟩
  · rcases find_free_bit_cases m bitmap n hn with h | ⟨p, h1, h2, h3⟩
    · exact Or.inl h.1
    · refine Or.inr ⟨p, h1, h2.1, h2.2, fun j hj hc => h3 j hj ⟨by have := h2.1; omega, hc⟩⟩
  · rcases find_free_bit_cases m bitmap n hn with h | ⟨p, h1, h2, _⟩
    · exact ⟨fun _ i hi hc => h.2 i ⟨hi, hc⟩, fun _ => h.1⟩
    · constructor
      · intro h; rw [h1] at h; omega
      · intro h; exact absurd h2.2 (h p h2.1)
  · intro m2 h
    unfold find_free_bit
    rw [find_free_bit_pos_congr m m2 bitmap n (by omega) h]

/-- C1 witness: bound 16 on a bitmap whose first byte is full and whose second
byte is `0x01`. -/
theorem find_free_bit_lowest_clear_witness :
    (16 : Nat) ≤ 2 ^ 31 ∧
      find_free_bit (fun a => if a = 0 then 0xFF else 0x01) 0 16 = 9 ∧
      (find_free_bit (fun a => if a = 0 then 0xFF else 0x01) 0 16 = -1 ↔
        ∀ i, i < 16 → ¬ bit_clear (fun a => if a = 0 then 0xFF else 0x01) 0 i) :=
  ⟨by decide, by decide,
    (find_free_bit_lowest_clear (fun a => if a = 0 then 0xFF else 0x01) 0 16 (by decide)).2.1⟩

/-! ## C2: `set_bit` after `find_free_bit` -/

/-- C2 (as stated, refuted): on a bitmap whose first `2 ^ 29` bytes are full,
with `bit_count = 2 ^ 32 + 1`, the free position `2 ^ 32` is returned as the
`int` 0; `set_bit` of index 0 changes nothing that is clear, and the next
call returns 0 again. -/
theorem find_free_bit_repeats_beyond_int :
    find_free_bit (fun a => if a < 2 ^ 29 then 0xFF else 0) 0 (2 ^ 32 + 1) = ((0 : Nat) : Int) ∧
    find_free_bit (set_bit (fun a => if a < 2 ^ 29 then 0xFF else 0) 0 ((0 : Nat) : Int)) 0
      (2 ^ 32 + 1) = ((0 : Nat) : Int) := by
  have key : ∀ m : Mem, (∀ a, m a = if a < 2 ^ 29 then 0xFF else 0) →
      find_free_bit m 0 (2 ^ 32 + 1) = ((0 : Nat) : Int) := by
    intro m hm
    have hpos : find_free_bit_pos m 0 (2 ^ 32 + 1) = some (2 ^ 32) := by
      apply find_free_bit_pos_eq m 0 (2 ^ 32 + 1) (2 ^ 32) (by decide)
      · refine ⟨by decide, ?_⟩
        unfold bit_clear
        rw [hm]
        decide
      · intro q hq hf
        have hc := hf.2
        unfold bit_clear at hc
        rw [hm, if_pos (by omega)] at hc
        exact full_byte_bit (q % 8) (Nat.mod_lt _ (by decide)) hc
    unfold find_free_bit
    rw [hpos]
    decide
  refine ⟨key _ (fun _ => rfl), key _ (fun a => ?_)⟩
  rw [set_bit_nat]
  by_cases ha : a = 0 + 0 / 8
  · rw [if_pos ha, ha]; decide
  · rw [if_neg ha]

/-- C2 (amended): for every bitmap, every `bit_count ≤ 2 ^ 31` and every
index `i` returned by `find_free_bit`, after `set_bit(bitmap, i)` bit `i`
reads as set; every later `find_free_bit` call with a bound `≤ 2 ^ 31` on a
bitmap in which no set bit has been cleared returns a value different from
`i`; and the next allocation returns a strictly larger index. -/
theorem set_bit_then_find_free_bit (m : Mem) (bitmap n i : Nat) (hn : n ≤ 2 ^ 31)
    (hi : find_free_bit m bitmap n = (i : Int)) :
    ¬ bit_clear (set_bit m bitmap (i : Int)) bitmap i ∧
    (∀ (m2 : Mem) (n2 : Nat), n2 ≤ 2 ^ 31 →
      (∀ j, ¬ bit_clear (set_bit m bitmap (i : Int)) bitmap j → ¬ bit_clear m2 bitmap j) →
      find_free_bit m2 bitmap n2 ≠ (i : Int)) ∧
    (∀ i2 : Nat, find_free_bit (set_bit m bitmap (i : Int)) bitmap n = (i2 : Int) → i < i2) := by
  have hset : ¬ bit_clear (set_bit m bitmap (i : Int)) bitmap i := by
    rw [bit_clear_set_bit]; exact fun h => h.1 rfl
  refine ⟨hset, ?_, ?_⟩
  · intro m2 n2 hn2 hmono hr
    rcases find_free_bit_cases m2 bitmap n2 hn2 with h | ⟨p, h1, h2, _⟩
    · rw [h.1] at hr; omega
    · rw [h1] at hr
      have hpi : p = i := by exact_mod_cast hr
      subst hpi
      exact hmono p hset h2.2
  · intro i2 hr
    rcases find_free_bit_cases m bitmap n hn with h | ⟨p, h1, _, h3⟩
    · rw [h.1] at hi; omega
    · rw [h1] at hi
      have hpi : p = i := by exact_mod_cast hi
      subst hpi
      rcases find_free_bit_cases (set_bit m bitmap (p : Int)) bitmap n hn with h | ⟨p2, g1, g2, _⟩
      · rw [h.1] at hr; omega
      · rw [g1] at hr
        have hpi2 : p2 = i2 := by exact_mod_cast hr
        subst hpi2
        have hc := (bit_clear_set_bit m bitmap p p2).mp g2.2
        rcases Nat.lt_trichotomy p2 p with hlt | heq | hgt
        · exact absurd ⟨g2.1, hc.2⟩ (h3 p2 hlt)
        · exact absurd heq hc.1
        · exact hgt

/-- C2 witness: on the bitmap `0x03, 0, ...` with bound 16 the allocator
returns 2, and after `set_bit` the next allocation returns 3. -/
theorem set_bit_then_find_free_bit_witness :
    find_free_bit (fun a => if a = 0 then 0x03 else 0) 0 16 = ((2 : Nat) : Int) ∧
    ¬ bit_clear (set_bit (fun a => if a = 0 then 0x03 else 0) 0 ((2 : Nat) : Int)) 0 2 ∧
    find_free_bit (set_bit (fun a => if a = 0 then 0x03 else 0) 0 ((2 : Nat) : Int)) 0 16
      = ((3 : Nat) : Int) ∧ 2 < 3 :=
  ⟨by decide,
    (set_bit_then_find_free_bit (fun a => if a = 0 then 0x03 else 0) 0 16 2
      (by decide) (by decide)).1,
    by decide,
    (set_bit_then_find_free_bit (fun a => if a = 0 then 0x03 else 0) 0 16 2
      (by decide) (by decide)).2.2 3 (by decide)⟩

/-! ## Checksum engine: CRC-32 lemmas -/

theorem crc32_init_round_eq_ref (c : Nat) : crc32_init_round c = crc32_ref_bit c := by
  unfold crc32_init_round crc32_ref_bit
  rw [Nat.and_one_is_mod, Nat.shiftRight_eq_div_pow, Nat.pow_one]
  by_cases h : c % 2 = 1
  · rw [if_pos h, if_pos (by omega), Nat.xor_comm]
  · rw [if_neg h, if_neg (by omega)]

theorem crc32_init_round_testBit (x i : Nat) :
    (crc32_init_round x).testBit i =
      (x.testBit (i + 1) ^^ (x.testBit 0 && (0xEDB88320 : Nat).testBit i)) := by
  unfold crc32_init_round
  rw [Nat.and_one_is_mod, Nat.testBit_zero]
  by_cases h : x % 2 = 1
  · rw [if_pos (by omega), Nat.testBit_xor, Nat.testBit_shiftRight, Nat.add_comm 1 i]
    simp [h, Bool.xor_comm]
  · rw [if_neg (by omega), Nat.testBit_shiftRight, Nat.add_comm 1 i]
    simp [h]

/-- The bit step is linear over XOR. -/
theorem crc32_init_round_xor (x y : Nat) :
    crc32_init_round (x ^^^ y) = crc32_init_round x ^^^ crc32_init_round y := by
  apply Nat.eq_of_testBit_eq
  intro i
  simp only [crc32_init_round_testBit, Nat.testBit_xor]
  cases x.testBit (i + 1) <;> cases y.testBit (i + 1) <;> cases x.testBit 0 <;>
    cases y.testBit 0 <;> cases (0xEDB88320 : Nat).testBit i <;> rfl

theorem crc32_init_rounds_xor (k x y : Nat) :
    crc32_init_round^[k] (x ^^^ y) = crc32_init_round^[k] x ^^^ crc32_init_round^[k] y := by
  induction k generalizing x y with
  | zero => rfl
  | succ k ih =>
    rw [Function.iterate_succ_apply, Function.iterate_succ_apply, Function.iterate_succ_apply,
      crc32_init_round_xor, ih]

/-- On a value whose low `k` bits are zero, `k` bit steps are a plain shift. -/
theorem crc32_init_rounds_shift (k x : Nat) (h : x % 2 ^ k = 0) :
    crc32_init_round^[k] x = x >>> k := by
  induction k generalizing x with
  | zero => rfl
  | succ k ih =>
    have h2 : x % 2 = 0 := by
      have hd : (2 : Nat) ∣ 2 ^ (k + 1) := Dvd.intro_left _ rfl
      have := Nat.mod_mod_of_dvd x hd
      rw [h] at this
      omega
    have hstep : crc32_init_round x = x >>> 1 := by
      unfold crc32_init_round
      rw [Nat.and_one_is_mod, if_neg (by omega)]
    have hdiv : (x >>> 1) % 2 ^ k = 0 := by
      rw [Nat.shiftRight_eq_div_pow, Nat.pow_one]
      have hx : x = 2 ^ (k + 1) * (x / 2 ^ (k + 1)) := by
        have := Nat.div_add_mod x (2 ^ (k + 1))
        omega
      have hx2 : x / 2 = 2 ^ k * (x / 2 ^ (k + 1)) := by
        conv_lhs => rw [hx]
        rw [Nat.pow_succ, Nat.mul_comm (2 ^ k) 2, Nat.mul_assoc,
          Nat.mul_div_cancel_left _ (by decide : 0 < 2)]
      rw [hx2, Nat.mul_mod_right]
    rw [Function.iterate_succ_apply, hstep, ih _ hdiv, ← Nat.shiftRight_add, Nat.add_comm]

theorem split_low_byte (x : Nat) : x = (x % 256) ^^^ ((x >>> 8) <<< 8) := by
  apply Nat.eq_of_testBit_eq
  intro i
  rw [Nat.testBit_xor, show (256 : Nat) = 2 ^ 8 from rfl, Nat.testBit_mod_two_pow,
    Nat.testBit_shiftLeft, Nat.testBit_shiftRight]
  by_cases h : i < 8
  · have h2 : ¬ i ≥ 8 := by omega
    simp [h, h2]
  · have h2 : i ≥ 8 := by omega
    have h3 : 8 + (i - 8) = i := by omega
    simp [h, h2, h3]

theorem shiftRight_xor_byte (c b : Nat) (hb : b < 256) : (c ^^^ b) >>> 8 = c >>> 8 := by
  apply Nat.eq_of_testBit_eq
  intro i
  rw [Nat.testBit_shiftRight, Nat.testBit_shiftRight, Nat.testBit_xor]
  have hle : (2 : Nat) ^ 8 ≤ 2 ^ (8 + i) := Nat.pow_le_pow_right (by decide) (by omega)
  have : b.testBit (8 + i) = false := Nat.testBit_lt_two_pow (Nat.lt_of_lt_of_le hb hle)
  rw [this, Bool.xor_false]

theorem CRC32_TAB_getD (i : Nat) (h : i < 256) :
    CRC32_TAB.getD i 0 = crc32_init_round^[8] i := by
  unfold CRC32_TAB crc32_init
  rw [List.getD_eq_getElem?_getD, List.getElem?_map, List.getElem?_range h]
  rfl

/-- The table lookup of `crc32` equals eight bit steps on `c ^ byte`. -/
theorem crc32_table_step (c b : Nat) (hb : b < 256) :
    CRC32_TAB.getD ((c ^^^ b) &&& 0xFF) 0 ^^^ (c >>> 8) = crc32_ref_byte c b := by
  have hlow : (c ^^^ b) &&& 0xFF = (c ^^^ b) % 256 := Nat.and_pow_two_sub_one_eq_mod _ 8
  have hfun : crc32_ref_bit = crc32_init_round := by
    funext x; exact (crc32_init_round_eq_ref x).symm
  unfold crc32_ref_byte
  rw [hfun, hlow, CRC32_TAB_getD _ (Nat.mod_lt _ (by decide))]
  conv_rhs => rw [split_low_byte (c ^^^ b)]
  rw [crc32_init_rounds_xor, crc32_init_rounds_shift 8 (((c ^^^ b) >>> 8) <<< 8)]
  · rw [shiftRight_xor_byte c b hb]
    congr 1
    rw [Nat.shiftLeft_eq, Nat.shiftRight_eq_div_pow (c >>> 8 * 2 ^ 8),
      Nat.mul_div_cancel _ (by decide : 0 < 2 ^ 8)]
  · rw [Nat.shiftLeft_eq, Nat.mul_mod_left]

theorem crc32_loop_eq_foldl (m : Mem) (data : Nat) (bytes : List Nat) :
    ∀ c i, (∀ b, b ∈ bytes → b < 256) →
      (∀ j, j < bytes.length → m (data + i + j) = bytes.getD j 0) →
      crc32_loop m data c i bytes.length = bytes.foldl crc32_ref_byte c := by
  induction bytes with
  | nil => intro c i _ _; rfl
  | cons b bs ih =>
    intro c i hb hm
    have h0 : m (data + i) = b := by
      have := hm 0 (by simp)
      simpa using this
    have hb0 : b < 256 := hb b (by simp)
    rw [List.length_cons, List.foldl_cons]
    unfold crc32_loop
    rw [h0, crc32_table_step c b hb0]
    apply ih
    · intro x hx; exact hb x (List.mem_cons_of_mem _ hx)
    · intro j hj
      have := hm (j + 1) (by simp; omega)
      rw [List.getD_cons_succ] at this
      rw [← this]
      congr 1
      omega

/-- The result of `crc32` depends only on the bytes it reads. -/
theorem crc32_loop_congr (m m2 : Mem) (data data2 : Nat) :
    ∀ k c i, (∀ j, i ≤ j → j < i + k → m (data + j) = m2 (data2 + j)) →
      crc32_loop m data c i k = crc32_loop m2 data2 c i k := by
  intro k
  induction k with
  | zero => intro c i _; rfl
  | succ k ih =>
    intro c i h
    unfold crc32_loop
    rw [h i (le_refl _) (by omega)]
    exact ih _ _ (fun j h1 h2 => h j (by omega) (by omega))

theorem crc32_congr (m m2 : Mem) (data data2 n : Nat)
    (h : ∀ j, j < n → m (data + j) = m2 (data2 + j)) : crc32 m data n = crc32 m2 data2 n := by
  unfold crc32
  rw [crc32_loop_congr m m2 data data2 n _ 0 (fun j _ hj => h j (by omega))]

theorem crc32_loop_succ (m : Mem) (data c i k : Nat) :
    crc32_loop m data c i (k + 1) =
      crc32_loop m data (CRC32_TAB.getD ((c ^^^ m (data + i)) &&& 0xFF) 0 ^^^ (c >>> 8))
        (i + 1) k := rfl

theorem crc32_loop_add (m : Mem) (data : Nat) :
    ∀ a b c i, crc32_loop m data c i (a + b) =
      crc32_loop m data (crc32_loop m data c i a) (i + a) b := by
  intro a
  induction a with
  | zero => intro b c i; rw [Nat.zero_add]; rfl
  | succ a ih =>
    intro b c i
    have h1 : crc32_loop m data c i (a + 1 + b) = crc32_loop m data c i ((a + b) + 1) := by
      rw [show a + 1 + b = (a + b) + 1 from by omega]
    rw [h1, crc32_loop_succ, ih, crc32_loop_succ m data c i a,
      show i + 1 + a = i + (a + 1) from by omega]

theorem crc32_init_round_lt (x : Nat) (h : x < 2 ^ 32) : crc32_init_round x < 2 ^ 32 := by
  have h1 : x >>> 1 < 2 ^ 32 := by
    rw [Nat.shiftRight_eq_div_pow]; exact Nat.lt_of_le_of_lt (Nat.div_le_self _ _) h
  unfold crc32_init_round
  split
  · exact Nat.xor_lt_two_pow (by decide) h1
  · exact h1

theorem crc32_init_rounds_lt (k x : Nat) (h : x < 2 ^ 32) : crc32_init_round^[k] x < 2 ^ 32 := by
  induction k generalizing x with
  | zero => exact h
  | succ k ih =>
    rw [Function.iterate_succ_apply]
    exact ih _ (crc32_init_round_lt x h)

theorem crc32_loop_lt (m : Mem) (data : Nat) :
    ∀ k c i, c < 2 ^ 32 → crc32_loop m data c i k < 2 ^ 32 := by
  intro k
  induction k with
  | zero => intro c i h; exact h
  | succ k ih =>
    intro c i h
    unfold crc32_loop
    apply ih
    have hidx : (c ^^^ m (data + i)) &&& 0xFF < 256 :=
      Nat.and_lt_two_pow _ (by decide : (0xFF : Nat) < 2 ^ 8)
    rw [CRC32_TAB_getD _ hidx]
    apply Nat.xor_lt_two_pow
    · exact crc32_init_rounds_lt 8 _ (by omega)
    · rw [Nat.shiftRight_eq_div_pow]; exact Nat.lt_of_le_of_lt (Nat.div_le_self _ _) h

/-- The result of `crc32` is a `uint32_t`. -/
theorem crc32_lt (m : Mem) (data n : Nat) : crc32 m data n < 2 ^ 32 := by
  unfold crc32
  exact Nat.xor_lt_two_pow (crc32_loop_lt m data n _ 0 (by decide)) (by decide)

/-! ## Packed fields: store and load -/

theorem store_le_out (m : Mem) (addr n v a : Nat) (h : a < addr ∨ addr + n ≤ a) :
    store_le m addr n v a = m a := by
  unfold store_le
  rw [if_neg (by omega)]

theorem store_le_in (m : Mem) (addr n v a : Nat) (h1 : addr ≤ a) (h2 : a < addr + n) :
    store_le m addr n v a = (v >>> (8 * (a - addr))) % 256 := by
  unfold store_le
  rw [if_pos ⟨h1, h2⟩]

theorem load_le_congr (m m2 : Mem) :
    ∀ n addr addr2, (∀ j, j < n → m (addr + j) = m2 (addr2 + j)) →
      load_le m addr n = load_le m2 addr2 n := by
  intro n
  induction n with
  | zero => intro _ _ _; rfl
  | succ n ih =>
    intro addr addr2 h
    unfold load_le
    have h0 : m addr = m2 addr2 := h 0 (by omega)
    rw [h0, ih (addr + 1) (addr2 + 1) (fun j hj => by
      have := h (j + 1) (by omega)
      rw [show addr + 1 + j = addr + (j + 1) from by omega,
        show addr2 + 1 + j = addr2 + (j + 1) from by omega]
      exact this)]

theorem load_le_store_le_aux (m : Mem) (addr v : Nat) :
    ∀ k i n, i + k = n →
      load_le (store_le m addr n v) (addr + i) k = (v >>> (8 * i)) % 2 ^ (8 * k) := by
  intro k
  induction k with
  | zero => intro i n _; simp [load_le, Nat.mod_one]
  | succ k ih =>
    intro i n h
    unfold load_le
    rw [store_le_in m addr n v (addr + i) (by omega) (by omega),
      show addr + i + 1 = addr + (i + 1) from by omega, ih (i + 1) n (by omega),
      show addr + i - addr = i from by omega,
      show 8 * (i + 1) = 8 * i + 8 from by omega, Nat.shiftRight_add,
      show 8 * (k + 1) = 8 + 8 * k from by omega, Nat.pow_add, Nat.mod_mul,
      Nat.shiftRight_eq_div_pow (v >>> (8 * i)) 8]

/-- Reading back a field just stored gives the value truncated to the width. -/
theorem load_le_store_le (m : Mem) (addr n v : Nat) :
    load_le (store_le m addr n v) addr n = v % 2 ^ (8 * n) := by
  have := load_le_store_le_aux m addr v n 0 n (by omega)
  simpa using this

/-- A load is not affected by a store to a disjoint range. -/
theorem load_le_store_le_disj (m : Mem) (addr n v addr2 n2 : Nat)
    (h : addr2 + n2 ≤ addr ∨ addr + n ≤ addr2) :
    load_le (store_le m addr n v) addr2 n2 = load_le m addr2 n2 := by
  apply load_le_congr
  intro j hj
  exact store_le_out m addr n v _ (by omega)

theorem load_le_lt (m : Mem) (hm : Mem.WF m) : ∀ n addr, load_le m addr n < 2 ^ (8 * n) := by
  intro n
  induction n with
  | zero => intro _; simp [load_le]
  | succ n ih =>
    intro addr
    unfold load_le
    have h1 := hm addr
    have h2 := ih (addr + 1)
    rw [show 8 * (n + 1) = 8 + 8 * n from by omega, Nat.pow_add]
    have : (2 : Nat) ^ 8 = 256 := rfl
    rw [this]
    nlinarith

/-! ## C3: table-driven `crc32` against the bit-by-bit CRC-32 -/

set_option maxRecDepth 100000 in
/-- The standard check value of CRC-32. -/
theorem crc32_ref_check_value :
    crc32_ref [0x31, 0x32, 0x33, 0x34, 0x35, 0x36, 0x37, 0x38, 0x39] = 0xCBF43926 := by
  decide

theorem crc32_zero_length (m : Mem) (data : Nat) : crc32 m data 0 = 0 := by
  unfold crc32 crc32_loop
  decide

/-- C3: for every byte sequence (held in memory at `data`), the table-driven
`crc32`, with the table produced by `crc32_init`, equals the standard
reflected CRC-32 computed bit by bit (polynomial `0xEDB88320`, initial value
and final XOR `0xFFFFFFFF`); `crc32` of the empty sequence is 0 and `crc32`
of the ASCII bytes "123456789" is `0xCBF43926`. -/
theorem crc32_eq_bitwise_reference (m : Mem) (data : Nat) (bytes : List Nat)
    (hb : ∀ b, b ∈ bytes → b < 256)
    (hm : ∀ j, j < bytes.length → m (data + j) = bytes.getD j 0) :
    crc32 m data bytes.length = crc32_ref bytes ∧
    crc32 m data 0 = 0 ∧
    crc32 (write_bytes m data [0x31, 0x32, 0x33, 0x34, 0x35, 0x36, 0x37, 0x38, 0x39]) data 9
      = 0xCBF43926 := by
  refine ⟨?_, crc32_zero_length m data, ?_⟩
  · unfold crc32 crc32_ref
    rw [crc32_loop_eq_foldl m data bytes _ 0 hb (fun j hj => by rw [Nat.add_zero]; exact hm j hj)]
  · have h9 : ([0x31, 0x32, 0x33, 0x34, 0x35, 0x36, 0x37, 0x38, 0x39] : List Nat).length = 9 := rfl
    unfold crc32
    rw [← h9, crc32_loop_eq_foldl _ data _ _ 0 (by decide) (fun j hj => by
      rw [Nat.add_zero]
      unfold write_bytes
      rw [if_pos ⟨by omega, by omega⟩, show data + j - data = j from by omega])]
    exact crc32_ref_check_value

/-- C3 witness: the bytes 1, 2, 3 at offset 0. -/
theorem crc32_eq_bitwise_reference_witness :
    crc32 (write_bytes (fun _ => 0) 0 [1, 2, 3]) 0 3 = crc32_ref [1, 2, 3] ∧
    crc32 (write_bytes (fun _ => 0) 0 [1, 2, 3]) 0 3 = 0x55BC801D :=
  ⟨(crc32_eq_bitwise_reference (write_bytes (fun _ => 0) 0 [1, 2, 3]) 0 [1, 2, 3]
      (by decide) (by decide)).1, by decide⟩


/-! ## Superblock checksum: runs of zero bytes -/

theorem crc32_table_step_rounds (c b : Nat) (hb : b < 256) :
    CRC32_TAB.getD ((c ^^^ b) &&& 0xFF) 0 ^^^ (c >>> 8) = crc32_init_round^[8] (c ^^^ b) := by
  have hfun : crc32_ref_bit = crc32_init_round := by
    funext x; exact (crc32_init_round_eq_ref x).symm
  rw [crc32_table_step c b hb, crc32_ref_byte, hfun]

theorem xor_eq_zero_imp (a b : Nat) (h : a ^^^ b = 0) : a = b := by
  have h2 : a ^^^ (a ^^^ b) = a ^^^ 0 := by rw [h]
  rw [← Nat.xor_assoc, Nat.xor_self, Nat.zero_xor, Nat.xor_zero] at h2
  exact h2.symm

theorem xor_eq_right_imp (a b : Nat) (h : a ^^^ b = b) : a = 0 := by
  have h2 : (a ^^^ b) ^^^ b = b ^^^ b := by rw [h]
  rw [Nat.xor_assoc, Nat.xor_self, Nat.xor_zero] at h2
  exact h2

theorem crc32_init_round_ne_zero (x : Nat) (hx : x < 2 ^ 32) (h0 : x ≠ 0) :
    crc32_init_round x ≠ 0 := by
  unfold crc32_init_round
  rw [Nat.and_one_is_mod, Nat.shiftRight_eq_div_pow, Nat.pow_one]
  split
  · intro h
    have := xor_eq_zero_imp _ _ h
    omega
  · omega

theorem crc32_init_rounds_ne_zero (k x : Nat) (hx : x < 2 ^ 32) (h0 : x ≠ 0) :
    crc32_init_round^[k] x ≠ 0 := by
  induction k generalizing x with
  | zero => exact h0
  | succ k ih =>
    rw [Function.iterate_succ_apply]
    exact ih _ (crc32_init_round_lt x hx) (crc32_init_round_ne_zero x hx h0)

/-- Over zero bytes the state 0 of the `crc32` loop is kept. -/
theorem crc32_loop_zero_run (m : Mem) (data : Nat) :
    ∀ k i, (∀ j, i ≤ j → j < i + k → m (data + j) = 0) → crc32_loop m data 0 i k = 0 := by
  intro k
  induction k with
  | zero => intro i _; rfl
  | succ k ih =>
    intro i h
    rw [crc32_loop_succ, h i (le_refl _) (by omega)]
    exact ih (i + 1) (fun j h1 h2 => h j (by omega) (by omega))

/-- Over zero bytes a non-zero state of the `crc32` loop stays non-zero. -/
theorem crc32_loop_zero_run_ne (m : Mem) (data : Nat) :
    ∀ k i c, (∀ j, i ≤ j → j < i + k → m (data + j) = 0) → c < 2 ^ 32 → c ≠ 0 →
      crc32_loop m data c i k ≠ 0 := by
  intro k
  induction k with
  | zero => intro i c _ _ h0; exact h0
  | succ k ih =>
    intro i c h hc h0
    rw [crc32_loop_succ, h i (le_refl _) (by omega),
      crc32_table_step_rounds c 0 (by decide), Nat.xor_zero]
    exact ih (i + 1) _ (fun j h1 h2 => h j (by omega) (by omega))
      (crc32_init_rounds_lt 8 c hc) (crc32_init_rounds_ne_zero 8 c hc h0)

theorem store_le_store_le (m : Mem) (addr n v w : Nat) :
    store_le (store_le m addr n v) addr n w = store_le m addr n w := by
  funext a
  unfold store_le
  by_cases h : addr ≤ a ∧ a < addr + n
  · rw [if_pos h, if_pos h]
  · rw [if_neg h, if_neg h, if_neg h]

theorem SB_CHECKSUM_OFF_eq : SB_CHECKSUM_OFF = 112 := by decide

theorem superblock_crc_finalize_snd (m : Mem) (sb : Nat) :
    (superblock_crc_finalize m sb).2 = crc32 (store_le m (sb + 112) 4 0) sb (BS - 4) := by
  unfold superblock_crc_finalize
  rw [SB_CHECKSUM_OFF_eq]

theorem superblock_crc_finalize_fst (m : Mem) (sb : Nat) :
    (superblock_crc_finalize m sb).1 =
      store_le m (sb + 112) 4 (crc32 (store_le m (sb + 112) 4 0) sb (BS - 4)) := by
  unfold superblock_crc_finalize
  rw [SB_CHECKSUM_OFF_eq]
  exact store_le_store_le m (sb + 112) 4 0 _

theorem superblock_checksum_read (m : Mem) (sb : Nat) :
    (read_superblock (superblock_crc_finalize m sb).1 sb).checksum =
      crc32 (store_le m (sb + 112) 4 0) sb (BS - 4) := by
  unfold read_superblock
  rw [superblock_crc_finalize_fst]
  dsimp only
  rw [load_le_store_le]
  exact Nat.mod_eq_of_lt (crc32_lt _ _ _)

/-! ## C4: superblock checksum -/

/-- C4 (as stated, refuted): the checksum field (offset 112, 4 bytes) lies
inside the covered range `[0, 4092)`, and on the block whose first four bytes
are `0xFF` and whose other bytes are zero the stored checksum is `0xFFFFFFFF`
while the CRC-32 recomputed over bytes `[0, 4092)` of the finalized block
differs from it. -/
theorem superblock_checksum_not_reproduced :
    SB_CHECKSUM_OFF + 4 ≤ BS - 4 ∧
    (read_superblock (superblock_crc_finalize (fun a => if a < 4 then 0xFF else 0) 0).1
      0).checksum = 0xFFFFFFFF ∧
    crc32 (superblock_crc_finalize (fun a => if a < 4 then 0xFF else 0) 0).1 0 (BS - 4) ≠
      (read_superblock (superblock_crc_finalize (fun a => if a < 4 then 0xFF else 0) 0).1
        0).checksum := by
  have hBS : BS - 4 = 4 + 4088 := by decide
  have hBS2 : BS - 4 = 4 + (108 + (4 + 3976)) := by decide
  have hV : crc32 (store_le (fun a => if a < 4 then 0xFF else 0) (0 + 112) 4 0) 0 (BS - 4)
      = 0xFFFFFFFF := by
    have e0 : crc32_loop (store_le (fun a => if a < 4 then 0xFF else 0) (0 + 112) 4 0) 0
        0xFFFFFFFF 0 4 = 0 := by decide
    rw [hBS, crc32, crc32_loop_add, e0, crc32_loop_zero_run _ _ _ _ (fun j h1 h2 => by
      rw [Nat.zero_add]
      by_cases hj : 112 ≤ j ∧ j < 116
      · rw [store_le_in _ _ _ _ _ (by omega) (by omega), Nat.zero_shiftRight]
      · rw [store_le_out _ _ _ _ _ (by omega), if_neg (by omega)])]
    decide
  have hR : (read_superblock (superblock_crc_finalize (fun a => if a < 4 then 0xFF else 0)
      0).1 0).checksum = 0xFFFFFFFF := by
    rw [superblock_checksum_read, hV]
  refine ⟨by decide, hR, ?_⟩
  rw [hR, superblock_crc_finalize_fst, hV, hBS2, crc32, crc32_loop_add, crc32_loop_add,
    crc32_loop_add]
  have e0 : crc32_loop (store_le (fun a => if a < 4 then 0xFF else 0) (0 + 112) 4 0xFFFFFFFF) 0
      0xFFFFFFFF 0 4 = 0 := by decide
  have e1 : crc32_loop (store_le (fun a => if a < 4 then 0xFF else 0) (0 + 112) 4 0xFFFFFFFF) 0
      0 (0 + 4 + 108) 4 = 0xDEBB20E3 := by decide
  rw [e0, crc32_loop_zero_run _ _ _ _ (fun j h1 h2 => by
      rw [Nat.zero_add, store_le_out _ _ _ _ _ (by omega), if_neg (by omega)]), e1]
  have hne := crc32_loop_zero_run_ne
    (store_le (fun a => if a < 4 then 0xFF else 0) (0 + 112) 4 0xFFFFFFFF) 0 3976
    (0 + 4 + 108 + 4) 0xDEBB20E3 (fun j h1 h2 => by
      rw [Nat.zero_add, store_le_out _ _ _ _ _ (by omega), if_neg (by omega)])
    (by decide) (by decide)
  exact fun h => hne (xor_eq_right_imp _ _ h)

/-- C4 (amended): for every 4096-byte block, after superblock finalize the
checksum field occupies bytes 112..115, inside the covered byte range
`[0, 4092)`; the stored value is the CRC-32 of bytes `[0, 4092)` of the block
with the checksum field zeroed, so recomputing the CRC-32 over `[0, 4092)` of
the finalized block with bytes 112..115 zeroed reproduces the stored value. -/
theorem superblock_crc_finalize_checksum (m : Mem) (sb : Nat) :
    SB_CHECKSUM_OFF = 112 ∧ SB_CHECKSUM_OFF + 4 ≤ BS - 4 ∧
    (read_superblock (superblock_crc_finalize m sb).1 sb).checksum =
      crc32 (store_le m (sb + 112) 4 0) sb (BS - 4) ∧
    crc32 (store_le (superblock_crc_finalize m sb).1 (sb + 112) 4 0) sb (BS - 4) =
      (read_superblock (superblock_crc_finalize m sb).1 sb).checksum := by
  refine ⟨by decide, by decide, superblock_checksum_read m sb, ?_⟩
  rw [superblock_checksum_read, superblock_crc_finalize_fst, store_le_store_le]

/-! ## C5: inode checksum -/

theorem inode_crc_finalize_eq (m : Mem) (ino : Nat) :
    inode_crc_finalize m ino = store_le m (ino + 120) 8 (crc32 m ino 120) := by
  have h : crc32 (memset (fun i => if i < INODE_SIZE then m (ino + i) else 0) 120 0 8) 0 120
      = crc32 m ino 120 := by
    apply crc32_congr
    intro j hj
    show (if 120 ≤ 0 + j ∧ 0 + j < 120 + 8 then 0 % 256
      else (if 0 + j < INODE_SIZE then m (ino + (0 + j)) else 0)) = m (ino + j)
    rw [if_neg (by omega), if_pos (by unfold INODE_SIZE; omega), Nat.zero_add]
  exact congrArg (store_le m (ino + 120) 8) h

/-- C5: for every 128-byte inode record, after `inode_crc_finalize` the
64-bit checksum field (bytes 120..127, little-endian) holds the CRC-32 of
bytes `[0, 120)` of the record, a value below `2 ^ 32`, so its upper four
bytes are 0, whatever the field held before; recomputing the CRC-32 over the
first 120 bytes of the finalized record reproduces the stored value, and
finalizing twice gives the same record as finalizing once. -/
theorem inode_crc_finalize_checksum (m : Mem) (ino : Nat) :
    (read_inode (inode_crc_finalize m ino) ino).inode_crc = crc32 m ino 120 ∧
    crc32 m ino 120 < 2 ^ 32 ∧
    load_le (inode_crc_finalize m ino) (ino + 124) 4 = 0 ∧
    crc32 (inode_crc_finalize m ino) ino 120 =
      (read_inode (inode_crc_finalize m ino) ino).inode_crc ∧
    inode_crc_finalize (inode_crc_finalize m ino) ino = inode_crc_finalize m ino := by
  have hlt := crc32_lt m ino 120
  have hread : (read_inode (inode_crc_finalize m ino) ino).inode_crc = crc32 m ino 120 := by
    unfold read_inode
    dsimp only
    rw [inode_crc_finalize_eq, load_le_store_le]
    exact Nat.mod_eq_of_lt (Nat.lt_of_lt_of_le hlt (by decide))
  have hcov : crc32 (inode_crc_finalize m ino) ino 120 = crc32 m ino 120 := by
    apply crc32_congr
    intro j hj
    rw [inode_crc_finalize_eq, store_le_out _ _ _ _ _ (by omega)]
  refine ⟨hread, hlt, ?_, ?_, ?_⟩
  · rw [inode_crc_finalize_eq]
    have := load_le_store_le_aux m (ino + 120) (crc32 m ino 120) 4 4 8 rfl
    rw [show ino + 120 + 4 = ino + 124 from by omega] at this
    rw [this, Nat.shiftRight_eq_div_pow, Nat.div_eq_of_lt hlt]
    rfl
  · rw [hcov, hread]
  · rw [inode_crc_finalize_eq (inode_crc_finalize m ino), hcov, inode_crc_finalize_eq,
      store_le_store_le]

/-! ## C6: directory entry checksum -/

theorem xor_bytes_lt (m : Mem) (hm : Mem.WF m) (p : Nat) : ∀ n, xor_bytes m p n < 256 := by
  intro n
  induction n with
  | zero => exact (by decide : (0 : Nat) < 256)
  | succ n ih =>
    unfold xor_bytes
    exact Nat.xor_lt_two_pow (n := 8) ih (hm _)

theorem xor_bytes_congr (m m2 : Mem) (p : Nat) :
    ∀ n, (∀ j, j < n → m (p + j) = m2 (p + j)) → xor_bytes m p n = xor_bytes m2 p n := by
  intro n
  induction n with
  | zero => intro _; rfl
  | succ n ih =>
    intro h
    unfold xor_bytes
    rw [ih (fun j hj => h j (by omega)), h n (by omega)]

theorem dirent_xor_loop_eq (m : Mem) (hm : Mem.WF m) (de : Nat) :
    ∀ k i, dirent_xor_loop m de (xor_bytes m de i) i k = xor_bytes m de (i + k) := by
  intro k
  induction k with
  | zero => intro i; rfl
  | succ k ih =>
    intro i
    have hstep : (xor_bytes m de i ^^^ m (de + i)) % 256 = xor_bytes m de (i + 1) :=
      Nat.mod_eq_of_lt (xor_bytes_lt m hm de (i + 1))
    unfold dirent_xor_loop
    rw [hstep, ih (i + 1), show i + 1 + k = i + (k + 1) from by omega]

theorem xor_bytes_flip_bit (m : Mem) (p j k : Nat) :
    ∀ n, j < n → xor_bytes (flip_bit m (p + j) k) p n = xor_bytes m p n ^^^ (1 <<< k) := by
  intro n
  induction n with
  | zero => intro h; omega
  | succ n ih =>
    intro h
    unfold xor_bytes
    by_cases hj : j = n
    · subst hj
      rw [xor_bytes_congr (flip_bit m (p + j) k) m p j (fun i hi => by
        unfold flip_bit; rw [if_neg (by omega)])]
      unfold flip_bit
      rw [if_pos rfl, Nat.xor_assoc]
    · rw [ih (by omega)]
      unfold flip_bit
      rw [if_neg (by omega), Nat.xor_assoc, Nat.xor_comm (1 <<< k), ← Nat.xor_assoc]

theorem xor_ne_self (a k : Nat) : a ^^^ (1 <<< k) ≠ a := by
  intro h
  have h2 : a ^^^ (a ^^^ (1 <<< k)) = a ^^^ a := by rw [h]
  rw [← Nat.xor_assoc, Nat.xor_self, Nat.zero_xor, Nat.one_shiftLeft] at h2
  exact absurd h2 (Nat.pos_iff_ne_zero.mp (Nat.pow_pos (by decide)))

/-- C6: for every 64-byte directory entry, after `dirent_checksum_finalize`
byte 63 equals the XOR of bytes 0..62, so the XOR of all 64 bytes is 0, and
flipping any single bit among bytes 0..62 of the finalized entry makes the
recomputed XOR differ from the stored checksum byte. -/
theorem dirent_checksum_finalize_xor (m : Mem) (de : Nat) (hm : Mem.WF m) :
    dirent_checksum_finalize m de (de + 63) =
      xor_bytes (dirent_checksum_finalize m de) de 63 ∧
    xor_bytes (dirent_checksum_finalize m de) de 64 = 0 ∧
    ∀ j k, j < 63 → k < 8 →
      xor_bytes (flip_bit (dirent_checksum_finalize m de) (de + j) k) de 63 ≠
        flip_bit (dirent_checksum_finalize m de) (de + j) k (de + 63) := by
  have hcov : xor_bytes (dirent_checksum_finalize m de) de 63 = xor_bytes m de 63 := by
    apply xor_bytes_congr
    intro j hj
    unfold dirent_checksum_finalize
    rw [store_le_out _ _ _ _ _ (by omega)]
  have hloop : dirent_xor_loop m de 0 0 63 = xor_bytes m de 63 := by
    have := dirent_xor_loop_eq m hm de 63 0
    rw [Nat.zero_add] at this
    exact this
  have hbyte : dirent_checksum_finalize m de (de + 63) = xor_bytes m de 63 := by
    unfold dirent_checksum_finalize
    rw [store_le_in _ _ _ _ _ (le_refl _) (by omega), hloop, Nat.sub_self, Nat.mul_zero,
      Nat.shiftRight_zero]
    exact Nat.mod_eq_of_lt (xor_bytes_lt m hm de 63)
  refine ⟨by rw [hbyte, hcov], ?_, ?_⟩
  · show xor_bytes (dirent_checksum_finalize m de) de 63 ^^^
      dirent_checksum_finalize m de (de + 63) = 0
    rw [hbyte, hcov, Nat.xor_self]
  · intro j k hj _
    rw [xor_bytes_flip_bit _ de j k 63 hj, hcov]
    have hst : flip_bit (dirent_checksum_finalize m de) (de + j) k (de + 63) =
        xor_bytes m de 63 := by
      unfold flip_bit
      rw [if_neg (by omega), hbyte]
    rw [hst]
    exact xor_ne_self _ k

/-- C6 witness: the all-zero entry at offset 0. -/
theorem dirent_checksum_finalize_xor_witness :
    Mem.WF (fun _ => 0) ∧
    dirent_checksum_finalize (fun _ => 0) 0 (0 + 63) =
      xor_bytes (dirent_checksum_finalize (fun _ => 0) 0) 0 63 ∧
    xor_bytes (flip_bit (dirent_checksum_finalize (fun _ => 0) 0) (0 + 5) 3) 0 63 ≠
      flip_bit (dirent_checksum_finalize (fun _ => 0) 0) (0 + 5) 3 (0 + 63) :=
  ⟨fun _ => (by decide : (0 : Nat) < 256),
    (dirent_checksum_finalize_xor (fun _ => 0) 0 (fun _ => (by decide : (0 : Nat) < 256))).1,
    (dirent_checksum_finalize_xor (fun _ => 0) 0 (fun _ => (by decide : (0 : Nat) < 256))).2.2
      5 3 (by decide) (by decide)⟩

/-! ## C7, C8: layout calculation and validation -/

/-- On validated arguments `format_layout` succeeds with the closed-form layout. -/
theorem format_layout_ok (size_kib inode_count : Nat)
    (h1 : 180 ≤ size_kib) (h2 : size_kib ≤ 4096) (h3 : size_kib % 4 = 0)
    (h4 : 128 ≤ inode_count) (h5 : inode_count ≤ 512) :
    format_layout size_kib inode_count = .ok {
      total_blocks := size_kib / 4
      inode_count := inode_count
      inode_bitmap_start := 1
      data_bitmap_start := 2
      inode_table_start := 3
      inode_table_blocks := (inode_count * 128 + 4095) / 4096
      data_region_start := 3 + (inode_count * 128 + 4095) / 4096
      data_region_blocks := size_kib / 4 - (3 + (inode_count * 128 + 4095) / 4096) } := by
  have e1 : size_kib * 1024 % 2 ^ 64 / 4096 = size_kib / 4 := by omega
  have e2 : (inode_count * 128 % 2 ^ 64 + 4096 - 1) % 2 ^ 64 / 4096
      = (inode_count * 128 + 4095) / 4096 := by omega
  have e3 : (3 + (inode_count * 128 + 4095) / 4096) % 2 ^ 64
      = 3 + (inode_count * 128 + 4095) / 4096 := by omega
  have e4 : (size_kib / 4 + 2 ^ 64 - (3 + (inode_count * 128 + 4095) / 4096)) % 2 ^ 64
      = size_kib / 4 - (3 + (inode_count * 128 + 4095) / 4096) := by omega
  have e5 : ¬ size_kib / 4 - (3 + (inode_count * 128 + 4095) / 4096) < 1 := by omega
  unfold format_layout
  rw [if_neg (by omega), if_neg (by omega), if_neg (by omega)]
  simp only [BS, INODE_SIZE]
  rw [e1, e2, e3, e4, if_neg e5]

/-- C7: for every `size_kib` in 180..4096 that is a multiple of 4 and every
`inode_count` in 128..512 the layout is `total_blocks = size_kib*1024/4096 =
size_kib/4`, inode bitmap at block 1, data bitmap at block 2, inode table at
block 3 spanning `ceil(inode_count*128/4096)` blocks, `data_region_start =
3 + inode_table_blocks`, `data_region_blocks = total_blocks -
data_region_start`; the five regions are contiguous, pairwise disjoint, cover
every block and their block counts sum to `total_blocks`. -/
theorem format_layout_regions (size_kib inode_count : Nat)
    (h1 : 180 ≤ size_kib) (h2 : size_kib ≤ 4096) (h3 : size_kib % 4 = 0)
    (h4 : 128 ≤ inode_count) (h5 : inode_count ≤ 512) :
    ∃ L, format_layout size_kib inode_count = .ok L ∧
      L.total_blocks = size_kib * 1024 / 4096 ∧ L.total_blocks = size_kib / 4 ∧
      L.inode_bitmap_start = 1 ∧ L.data_bitmap_start = 2 ∧ L.inode_table_start = 3 ∧
      L.inode_table_blocks * 4096 ≥ inode_count * 128 ∧
      (L.inode_table_blocks - 1) * 4096 < inode_count * 128 ∧
      L.data_region_start = 3 + L.inode_table_blocks ∧
      L.data_region_start ≤ L.total_blocks ∧
      L.data_region_blocks = L.total_blocks - L.data_region_start ∧
      L.inode_bitmap_start = 0 + 1 ∧
      L.data_bitmap_start = L.inode_bitmap_start + 1 ∧
      L.inode_table_start = L.data_bitmap_start + 1 ∧
      L.data_region_start = L.inode_table_start + L.inode_table_blocks ∧
      L.total_blocks = L.data_region_start + L.data_region_blocks ∧
      1 + 1 + 1 + L.inode_table_blocks + L.data_region_blocks = L.total_blocks ∧
      (layout_regions L).Pairwise (fun r s => ∀ b, ¬ (in_region r b ∧ in_region s b)) ∧
      (∀ b, b < L.total_blocks → ∃ r, r ∈ layout_regions L ∧ in_region r b) := by
  refine ⟨_, format_layout_ok size_kib inode_count h1 h2 h3 h4 h5,
    ?_, ?_, ?_, ?_, ?_, ?_, ?_, ?_, ?_, ?_, ?_, ?_, ?_, ?_, ?_, ?_, ?_, ?_⟩
  case refine_17 =>
    simp only [layout_regions, in_region, List.pairwise_cons, List.mem_cons, List.mem_singleton,
      List.not_mem_nil, List.Pairwise.nil, forall_eq_or_imp, forall_eq, and_true,
      IsEmpty.forall_iff, implies_true]
    refine ⟨⟨?_, ?_, ?_, ?_⟩, ⟨?_, ?_, ?_⟩, ⟨?_, ?_⟩, ?_⟩ <;> intro b <;> omega
  case refine_18 =>
    intro b hb
    simp only [layout_regions, in_region, List.mem_cons, List.mem_singleton, List.not_mem_nil,
      exists_eq_or_imp, exists_eq_left, or_false, exists_false]
    dsimp only at hb
    omega
  all_goals first | rfl | (dsimp only; omega)

/-- C7 witness: `(180, 128)` gives 45 blocks, 4 inode table blocks, data region
at block 7 with 38 blocks. -/
theorem format_layout_regions_witness :
    format_layout 180 128 = .ok {
      total_blocks := 45, inode_count := 128, inode_bitmap_start := 1, data_bitmap_start := 2,
      inode_table_start := 3, inode_table_blocks := 4, data_region_start := 7,
      data_region_blocks := 38 } ∧
    ∃ L, format_layout 180 128 = .ok L ∧ L.total_blocks = 180 * 1024 / 4096 :=
  ⟨rfl,
    (format_layout_regions 180 128 (by decide) (by decide) (by decide) (by decide)
      (by decide)).imp (fun _ h => ⟨h.1, h.2.1⟩)⟩

/-- Only validated arguments pass `format_layout`. -/
theorem format_layout_valid_of_ok (size_kib inode_count : Nat) (L : Layout)
    (h : format_layout size_kib inode_count = .ok L) :
    180 ≤ size_kib ∧ size_kib ≤ 4096 ∧ size_kib % 4 = 0 ∧
      128 ≤ inode_count ∧ inode_count ≤ 512 := by
  unfold format_layout at h
  split at h
  · exact absurd h (by simp)
  · split at h
    · exact absurd h (by simp)
    · split at h
      · exact absurd h (by simp)
      · omega

/-- C8: the validation and layout step accepts `(size_kib, inode_count)`
exactly when `180 ≤ size_kib ≤ 4096`, `size_kib` is a multiple of 4 and
`128 ≤ inode_count ≤ 512`; for every accepted pair the subtraction
`total_blocks - data_region_start` does not wrap and yields at least 26, the
"no space for data blocks" failure is never returned, and the one-block data
bitmap (32768 bits), the one-block inode bitmap and the inode table (32 slots
per block) are large enough for `data_region_blocks` and `inode_count`. -/
theorem format_layout_accepts_iff (size_kib inode_count : Nat) :
    ((∃ L, format_layout size_kib inode_count = .ok L) ↔
      (180 ≤ size_kib ∧ size_kib ≤ 4096 ∧ size_kib % 4 = 0 ∧
        128 ≤ inode_count ∧ inode_count ≤ 512)) ∧
    format_layout size_kib inode_count ≠ .error .no_data_space ∧
    (∀ L, format_layout size_kib inode_count = .ok L →
      L.data_region_start ≤ L.total_blocks ∧
      L.data_region_blocks = L.total_blocks - L.data_region_start ∧
      26 ≤ L.data_region_blocks ∧
      L.data_region_blocks ≤ 8 * BS ∧
      L.inode_count ≤ 8 * BS ∧
      L.inode_count ≤ (BS / INODE_SIZE) * L.inode_table_blocks) := by
  refine ⟨⟨?_, ?_⟩, ?_, ?_⟩
  · rintro ⟨L, hL⟩
    exact format_layout_valid_of_ok size_kib inode_count L hL
  · rintro ⟨h1, h2, h3, h4, h5⟩
    exact ⟨_, format_layout_ok size_kib inode_count h1 h2 h3 h4 h5⟩
  · by_cases hv : 180 ≤ size_kib ∧ size_kib ≤ 4096 ∧ size_kib % 4 = 0 ∧
        128 ≤ inode_count ∧ inode_count ≤ 512
    · obtain ⟨h1, h2, h3, h4, h5⟩ := hv
      rw [format_layout_ok size_kib inode_count h1 h2 h3 h4 h5]
      exact fun h => by cases h
    · unfold format_layout
      split
      · exact fun h => by cases h
      · split
        · exact fun h => by cases h
        · split
          · exact fun h => by cases h
          · exact absurd (by omega) hv
  · intro L hL
    obtain ⟨h1, h2, h3, h4, h5⟩ := format_layout_valid_of_ok size_kib inode_count L hL
    rw [format_layout_ok size_kib inode_count h1 h2 h3 h4 h5] at hL
    have hL2 := (Except.ok.inj hL).symm
    subst hL2
    refine ⟨?_, rfl, ?_, ?_, ?_, ?_⟩ <;> simp only [BS, INODE_SIZE] <;> omega

/-- C8 witness: `(180, 128)` is accepted and leaves 38 data blocks. -/
theorem format_layout_accepts_iff_witness :
    (∃ L, format_layout 180 128 = .ok L) ∧
    ∀ L, format_layout 180 128 = .ok L → 26 ≤ L.data_region_blocks :=
  ⟨(format_layout_accepts_iff 180 128).1.mpr (by decide),
    fun L hL => ((format_layout_accepts_iff 180 128).2.2 L hL).2.2.1⟩

/-! ## Image builder: frame lemmas -/

theorem load_le_frame (m m2 : Mem) (addr n : Nat)
    (h : ∀ a, addr ≤ a → a < addr + n → m a = m2 a) : load_le m addr n = load_le m2 addr n :=
  load_le_congr m m2 n addr addr (fun j hj => h (addr + j) (by omega) (by omega))

theorem or_byte_out (m : Mem) (addr v a : Nat) (h : a ≠ addr) : or_byte m addr v a = m a := by
  unfold or_byte
  rw [if_neg h]

theorem memset_out (m : Mem) (dst val n a : Nat) (h : a < dst ∨ dst + n ≤ a) :
    memset m dst val n a = m a := by
  unfold memset
  rw [if_neg (by omega)]

theorem write_bytes_out (m : Mem) (dst : Nat) (bs : List Nat) (a : Nat)
    (h : a < dst ∨ dst + bs.length ≤ a) : write_bytes m dst bs a = m a := by
  unfold write_bytes
  rw [if_neg (by omega)]

theorem dirent_checksum_finalize_out (m : Mem) (de a : Nat) (h : a ≠ de + 63) :
    dirent_checksum_finalize m de a = m a := by
  unfold dirent_checksum_finalize
  exact store_le_out _ _ _ _ _ (by omega)

theorem inode_crc_finalize_out (m : Mem) (ino a : Nat) (h : a < ino + 120 ∨ ino + 128 ≤ a) :
    inode_crc_finalize m ino a = m a := by
  rw [inode_crc_finalize_eq]
  exact store_le_out _ _ _ _ _ (by omega)

theorem superblock_crc_finalize_out (m : Mem) (sb a : Nat) (h : a < sb + 112 ∨ sb + 116 ≤ a) :
    (superblock_crc_finalize m sb).1 a = m a := by
  rw [superblock_crc_finalize_fst]
  exact store_le_out _ _ _ _ _ (by omega)

theorem format_superblock_out (m : Mem) (L : Layout) (now a : Nat) (h : 112 ≤ a) :
    format_superblock m L now a = m a := by
  unfold format_superblock
  simp (disch := omega) only [store_le_out]

theorem format_clear_direct_out (root_inode a : Nat) :
    ∀ k i (m : Mem), (a < root_inode + 44 + 4 * i ∨ root_inode + 44 + 4 * (i + k) ≤ a) →
      format_clear_direct m root_inode i k a = m a := by
  intro k
  induction k with
  | zero => intro i m _; rfl
  | succ k ih =>
    intro i m h
    unfold format_clear_direct
    rw [ih (i + 1) _ (by omega), store_le_out _ _ _ _ _ (by omega)]

theorem format_root_inode_out (m : Mem) (ri : Nat) (L : Layout) (now a : Nat)
    (h : a < ri ∨ ri + 120 ≤ a) : format_root_inode m ri L now a = m a := by
  unfold format_root_inode
  simp (disch := omega) only [store_le_out, format_clear_direct_out ri a 11 1]

theorem format_dirent_out (m : Mem) (de : Nat) (name : List Nat) (a : Nat)
    (hn : name.length ≤ 57) (h : a < de ∨ de + 63 ≤ a) : format_dirent m de name a = m a := by
  unfold format_dirent strcpy
  rw [write_bytes_out _ _ _ _ (by rw [List.length_append, List.length_singleton]; omega),
    memset_out _ _ _ _ _ (by omega), store_le_out _ _ _ _ _ (by omega),
    store_le_out _ _ _ _ _ (by omega)]

theorem load_le_or_byte_disj (m : Mem) (addr v addr2 n2 : Nat)
    (h : addr < addr2 ∨ addr2 + n2 ≤ addr) :
    load_le (or_byte m addr v) addr2 n2 = load_le m addr2 n2 :=
  load_le_frame _ _ _ _ (fun a h1 h2 => or_byte_out m addr v a (by omega))

theorem load_le_format_superblock_disj (m : Mem) (L : Layout) (now addr2 n2 : Nat)
    (h : 112 ≤ addr2) :
    load_le (format_superblock m L now) addr2 n2 = load_le m addr2 n2 :=
  load_le_frame _ _ _ _ (fun a h1 h2 => format_superblock_out m L now a (by omega))

theorem load_le_format_root_inode_disj (m : Mem) (ri : Nat) (L : Layout) (now addr2 n2 : Nat)
    (h : addr2 + n2 ≤ ri ∨ ri + 120 ≤ addr2) :
    load_le (format_root_inode m ri L now) addr2 n2 = load_le m addr2 n2 :=
  load_le_frame _ _ _ _ (fun a h1 h2 => format_root_inode_out m ri L now a (by omega))

theorem load_le_format_dirent_disj (m : Mem) (de : Nat) (name : List Nat) (addr2 n2 : Nat)
    (hn : name.length ≤ 57) (h : addr2 + n2 ≤ de ∨ de + 63 ≤ addr2) :
    load_le (format_dirent m de name) addr2 n2 = load_le m addr2 n2 :=
  load_le_frame _ _ _ _ (fun a h1 h2 => format_dirent_out m de name a hn (by omega))

theorem load_le_dirent_checksum_finalize_disj (m : Mem) (de addr2 n2 : Nat)
    (h : addr2 + n2 ≤ de + 63 ∨ de + 64 ≤ addr2) :
    load_le (dirent_checksum_finalize m de) addr2 n2 = load_le m addr2 n2 :=
  load_le_frame _ _ _ _ (fun a h1 h2 => dirent_checksum_finalize_out m de a (by omega))

theorem load_le_inode_crc_finalize_disj (m : Mem) (ino addr2 n2 : Nat)
    (h : addr2 + n2 ≤ ino + 120 ∨ ino + 128 ≤ addr2) :
    load_le (inode_crc_finalize m ino) addr2 n2 = load_le m addr2 n2 :=
  load_le_frame _ _ _ _ (fun a h1 h2 => inode_crc_finalize_out m ino a (by omega))

theorem load_le_superblock_crc_finalize_disj (m : Mem) (sb addr2 n2 : Nat)
    (h : addr2 + n2 ≤ sb + 112 ∨ sb + 116 ≤ addr2) :
    load_le (superblock_crc_finalize m sb).1 addr2 n2 = load_le m addr2 n2 :=
  load_le_frame _ _ _ _ (fun a h1 h2 => superblock_crc_finalize_out m sb a (by omega))

/-- The image memory built for a layout with the bitmaps at blocks 1 and 2 and
the inode table at block 3, with every offset in closed form. -/
theorem format_image_mem (tb ic itb drs drb now : Nat) (h5 : drs < 2 ^ 32) :
    (format_image ⟨tb, ic, 1, 2, 3, itb, drs, drb⟩ now).mem =
      (superblock_crc_finalize
        (inode_crc_finalize
          (dirent_checksum_finalize
            (dirent_checksum_finalize
              (format_dirent
                (format_dirent
                  (format_root_inode
                    (or_byte
                      (or_byte
                        (format_superblock (fun _ => 0) ⟨tb, ic, 1, 2, 3, itb, drs, drb⟩ now)
                        4096 0x01)
                      8192 0x01)
                    12288 ⟨tb, ic, 1, 2, 3, itb, drs, drb⟩ now)
                  (drs * 4096) [46])
                (drs * 4096 + 64) [46, 46])
              (drs * 4096))
            (drs * 4096 + 64))
          12288)
        0).1 := by
  have hb1 : blk 1 + 0 = 4096 := by decide
  have hb2 : blk 2 + 0 = 8192 := by decide
  have hb3 : blk 3 = 12288 := by decide
  have hbd : blk drs = drs * 4096 := by
    unfold blk BS
    omega
  unfold format_image
  simp only [hb1, hb2, hb3, hbd]

/-- Superblock fields of the built image are those written by `format_superblock`. -/
theorem format_image_load_sb (tb ic itb drs drb now addr n : Nat)
    (h4 : 4 ≤ drs) (h5 : drs < 2 ^ 32) (h : addr + n ≤ 112) :
    load_le (format_image ⟨tb, ic, 1, 2, 3, itb, drs, drb⟩ now).mem addr n =
      load_le (format_superblock (fun _ => 0) ⟨tb, ic, 1, 2, 3, itb, drs, drb⟩ now) addr n := by
  rw [format_image_mem tb ic itb drs drb now h5]
  rw [load_le_superblock_crc_finalize_disj _ _ _ _ (by omega),
    load_le_inode_crc_finalize_disj _ _ _ _ (by omega),
    load_le_dirent_checksum_finalize_disj _ _ _ _ (by omega),
    load_le_dirent_checksum_finalize_disj _ _ _ _ (by omega),
    load_le_format_dirent_disj _ _ _ _ _ (by decide) (by omega),
    load_le_format_dirent_disj _ _ _ _ _ (by decide) (by omega),
    load_le_format_root_inode_disj _ _ _ _ _ _ (by omega),
    load_le_or_byte_disj _ _ _ _ _ (by omega),
    load_le_or_byte_disj _ _ _ _ _ (by omega)]

/-- The fields written by `format_superblock`, read back. -/
theorem read_format_superblock (m : Mem) (L : Layout) (now : Nat) :
    read_superblock (format_superblock m L now) 0 =
      { magic := 0x4653564D
        version := 1
        block_size := 4096
        total_blocks := L.total_blocks % 2 ^ 64
        inode_count := L.inode_count % 2 ^ 64
        inode_bitmap_start := L.inode_bitmap_start % 2 ^ 64
        inode_bitmap_blocks := 1
        data_bitmap_start := L.data_bitmap_start % 2 ^ 64
        data_bitmap_blocks := 1
        inode_table_start := L.inode_table_start % 2 ^ 64
        inode_table_blocks := L.inode_table_blocks % 2 ^ 64
        data_region_start := L.data_region_start % 2 ^ 64
        data_region_blocks := L.data_region_blocks % 2 ^ 64
        root_inode := 1
        mtime_epoch := now % 2 ^ 64
        flags := 0
        checksum := load_le m 112 4 } := by
  unfold read_superblock format_superblock
  simp (disch := omega) only [Nat.zero_add, load_le_store_le_disj, load_le_store_le, BS]
  rfl

theorem format_image_size (L : Layout) (now : Nat) :
    (format_image L now).size = L.total_blocks * BS % 2 ^ 64 := rfl

theorem read_superblock_congr (m m2 : Mem)
    (h : ∀ addr n, addr + n ≤ 112 → load_le m addr n = load_le m2 addr n) :
    read_superblock m 0 =
      { read_superblock m2 0 with checksum := (read_superblock m 0).checksum } := by
  unfold read_superblock
  rw [h (0 + 0) 4 (by omega), h (0 + 4) 4 (by omega), h (0 + 8) 4 (by omega),
    h (0 + 12) 8 (by omega), h (0 + 20) 8 (by omega), h (0 + 28) 8 (by omega),
    h (0 + 36) 8 (by omega), h (0 + 44) 8 (by omega), h (0 + 52) 8 (by omega),
    h (0 + 60) 8 (by omega), h (0 + 68) 8 (by omega), h (0 + 76) 8 (by omega),
    h (0 + 84) 8 (by omega), h (0 + 92) 8 (by omega), h (0 + 100) 8 (by omega),
    h (0 + 108) 4 (by omega)]

/-- The superblock of the built image, read back field by field. -/
theorem read_superblock_format_image (tb ic itb drs drb now : Nat)
    (htb : tb < 2 ^ 64) (hic : ic < 2 ^ 64) (hitb : itb < 2 ^ 64) (h4 : 4 ≤ drs)
    (h5 : drs < 2 ^ 32) (hdrb : drb < 2 ^ 64) (hnow : now < 2 ^ 64) :
    read_superblock (format_image ⟨tb, ic, 1, 2, 3, itb, drs, drb⟩ now).mem 0 =
      { magic := 0x4653564D
        version := 1
        block_size := 4096
        total_blocks := tb
        inode_count := ic
        inode_bitmap_start := 1
        inode_bitmap_blocks := 1
        data_bitmap_start := 2
        data_bitmap_blocks := 1
        inode_table_start := 3
        inode_table_blocks := itb
        data_region_start := drs
        data_region_blocks := drb
        root_inode := 1
        mtime_epoch := now
        flags := 0
        checksum :=
          (read_superblock (format_image ⟨tb, ic, 1, 2, 3, itb, drs, drb⟩ now).mem 0).checksum } := by
  rw [read_superblock_congr _ (format_superblock (fun _ => 0) ⟨tb, ic, 1, 2, 3, itb, drs, drb⟩ now)
    (fun addr n h => format_image_load_sb tb ic itb drs drb now addr n h4 h5 h),
    read_format_superblock]
  simp only [Nat.mod_eq_of_lt htb, Nat.mod_eq_of_lt hic, Nat.mod_eq_of_lt hitb,
    Nat.mod_eq_of_lt (Nat.lt_of_lt_of_le h5 (by decide : (2 : Nat) ^ 32 ≤ 2 ^ 64)),
    Nat.mod_eq_of_lt hdrb, Nat.mod_eq_of_lt hnow]
  rfl

theorem mkfs_builder_main_ok (size_kib inode_count now : Nat)
    (h1 : 180 ≤ size_kib) (h2 : size_kib ≤ 4096) (h3 : size_kib % 4 = 0)
    (h4 : 128 ≤ inode_count) (h5 : inode_count ≤ 512) :
    mkfs_builder_main size_kib inode_count now = .ok (format_image {
      total_blocks := size_kib / 4
      inode_count := inode_count
      inode_bitmap_start := 1
      data_bitmap_start := 2
      inode_table_start := 3
      inode_table_blocks := (inode_count * 128 + 4095) / 4096
      data_region_start := 3 + (inode_count * 128 + 4095) / 4096
      data_region_blocks := size_kib / 4 - (3 + (inode_count * 128 + 4095) / 4096) } now) := by
  unfold mkfs_builder_main
  rw [format_layout_ok size_kib inode_count h1 h2 h3 h4 h5]

/-! ## C9: superblock round trip -/

/-- C9: for every valid `(size_kib, inode_count)` the image produced by
format has length `total_blocks * 4096`, and reading its block 0 at the packed
little-endian `superblock_t` offsets, as inject does, passes inject's magic
check and gives version 1, block size 4096, `total_blocks`, `inode_count`,
inode bitmap (start 1, 1 block), data bitmap (start 2, 1 block), inode table
(start 3, `inode_table_blocks`), data region (`data_region_start`,
`data_region_blocks`), root inode 1 and flags 0: the values of the layout
calculation. -/
theorem format_superblock_round_trip (size_kib inode_count now : Nat)
    (h1 : 180 ≤ size_kib) (h2 : size_kib ≤ 4096) (h3 : size_kib % 4 = 0)
    (h4 : 128 ≤ inode_count) (h5 : inode_count ≤ 512) (hnow : now < 2 ^ 64) :
    ∃ L img, format_layout size_kib inode_count = .ok L ∧
      mkfs_builder_main size_kib inode_count now = .ok img ∧
      img.size = L.total_blocks * 4096 ∧
      magic_ok img.mem = true ∧
      (read_superblock img.mem 0).version = 1 ∧
      (read_superblock img.mem 0).block_size = 4096 ∧
      (read_superblock img.mem 0).total_blocks = L.total_blocks ∧
      (read_superblock img.mem 0).inode_count = L.inode_count ∧
      L.inode_count = inode_count ∧
      (read_superblock img.mem 0).inode_bitmap_start = L.inode_bitmap_start ∧
      L.inode_bitmap_start = 1 ∧
      (read_superblock img.mem 0).inode_bitmap_blocks = 1 ∧
      (read_superblock img.mem 0).data_bitmap_start = L.data_bitmap_start ∧
      L.data_bitmap_start = 2 ∧
      (read_superblock img.mem 0).data_bitmap_blocks = 1 ∧
      (read_superblock img.mem 0).inode_table_start = L.inode_table_start ∧
      L.inode_table_start = 3 ∧
      (read_superblock img.mem 0).inode_table_blocks = L.inode_table_blocks ∧
      (read_superblock img.mem 0).data_region_start = L.data_region_start ∧
      (read_superblock img.mem 0).data_region_blocks = L.data_region_blocks ∧
      (read_superblock img.mem 0).root_inode = 1 ∧
      (read_superblock img.mem 0).mtime_epoch = now ∧
      (read_superblock img.mem 0).flags = 0 := by
  have hR := read_superblock_format_image (size_kib / 4) inode_count
    ((inode_count * 128 + 4095) / 4096) (3 + (inode_count * 128 + 4095) / 4096)
    (size_kib / 4 - (3 + (inode_count * 128 + 4095) / 4096)) now
    (by omega) (by omega) (by omega) (by omega) (by omega) (by omega) hnow
  refine ⟨_, _, format_layout_ok size_kib inode_count h1 h2 h3 h4 h5,
    mkfs_builder_main_ok size_kib inode_count now h1 h2 h3 h4 h5, ?_,
    ?_,
    congrArg Superblock.version hR,
    congrArg Superblock.block_size hR,
    congrArg Superblock.total_blocks hR,
    congrArg Superblock.inode_count hR, rfl,
    congrArg Superblock.inode_bitmap_start hR, rfl,
    congrArg Superblock.inode_bitmap_blocks hR,
    congrArg Superblock.data_bitmap_start hR, rfl,
    congrArg Superblock.data_bitmap_blocks hR,
    congrArg Superblock.inode_table_start hR, rfl,
    congrArg Superblock.inode_table_blocks hR,
    congrArg Superblock.data_region_start hR,
    congrArg Superblock.data_region_blocks hR,
    congrArg Superblock.root_inode hR,
    congrArg Superblock.mtime_epoch hR,
    congrArg Superblock.flags hR⟩
  · rw [format_image_size]
    dsimp only
    unfold BS
    omega
  · unfold magic_ok
    rw [decide_eq_true_eq]
    exact congrArg Superblock.magic hR

/-- C9 witness: `format(180, 128)` at build time 0. -/
theorem format_superblock_round_trip_witness :
    ∃ L img, format_layout 180 128 = .ok L ∧ mkfs_builder_main 180 128 0 = .ok img ∧
      img.size = L.total_blocks * 4096 ∧ magic_ok img.mem = true ∧
      (read_superblock img.mem 0).data_region_start = L.data_region_start :=
  (format_superblock_round_trip 180 128 0 (by decide) (by decide) (by decide) (by decide)
    (by decide) (by decide)).imp (fun _ h => h.imp (fun _ h =>
      ⟨h.1, h.2.1, h.2.2.1, h.2.2.2.1,
        h.2.2.2.2.2.2.2.2.2.2.2.2.2.2.2.2.2.2.1⟩))

/-! ## Image builder: contents outside the superblock -/

theorem memset_in (m : Mem) (dst val n a : Nat) (h1 : dst ≤ a) (h2 : a < dst + n) :
    memset m dst val n a = val % 256 := by
  unfold memset
  rw [if_pos ⟨h1, h2⟩]

theorem write_bytes_in (m : Mem) (dst : Nat) (bs : List Nat) (a : Nat) (h1 : dst ≤ a)
    (h2 : a < dst + bs.length) : write_bytes m dst bs a = bs.getD (a - dst) 0 := by
  unfold write_bytes
  rw [if_pos ⟨h1, h2⟩]

theorem load_le_memset_disj (m : Mem) (dst val n addr2 n2 : Nat)
    (h : addr2 + n2 ≤ dst ∨ dst + n ≤ addr2) :
    load_le (memset m dst val n) addr2 n2 = load_le m addr2 n2 :=
  load_le_frame _ _ _ _ (fun a h1 h2 => memset_out m dst val n a (by omega))

theorem load_le_write_bytes_disj (m : Mem) (dst : Nat) (bs : List Nat) (addr2 n2 : Nat)
    (h : addr2 + n2 ≤ dst ∨ dst + bs.length ≤ addr2) :
    load_le (write_bytes m dst bs) addr2 n2 = load_le m addr2 n2 :=
  load_le_frame _ _ _ _ (fun a h1 h2 => write_bytes_out m dst bs a (by omega))

/-- Every byte of the built image outside the superblock fields, the two
bitmap bytes, inode slot 0 and the first two directory entries is zero. -/
theorem format_image_zero (tb ic itb drs drb now a : Nat) (h4 : 4 ≤ drs) (h5 : drs < 2 ^ 32)
    (ha : 116 ≤ a) (h1 : a ≠ 4096) (h2 : a ≠ 8192) (h3 : a < 12288 ∨ 12288 + 128 ≤ a)
    (h6 : a < drs * 4096 ∨ drs * 4096 + 128 ≤ a) :
    (format_image ⟨tb, ic, 1, 2, 3, itb, drs, drb⟩ now).mem a = 0 := by
  rw [format_image_mem tb ic itb drs drb now h5,
    superblock_crc_finalize_out _ _ _ (by omega),
    inode_crc_finalize_out _ _ _ (by omega),
    dirent_checksum_finalize_out _ _ _ (by omega),
    dirent_checksum_finalize_out _ _ _ (by omega),
    format_dirent_out _ _ _ _ (by decide) (by omega),
    format_dirent_out _ _ _ _ (by decide) (by omega),
    format_root_inode_out _ _ _ _ _ (by omega),
    or_byte_out _ _ _ _ h2, or_byte_out _ _ _ _ h1,
    format_superblock_out _ _ _ _ (by omega)]

/-- The first byte of each bitmap block of the built image is `0x01`. -/
theorem format_image_bitmap_byte (tb ic itb drs drb now : Nat) (h4 : 4 ≤ drs)
    (h5 : drs < 2 ^ 32) :
    (format_image ⟨tb, ic, 1, 2, 3, itb, drs, drb⟩ now).mem 4096 = 1 ∧
    (format_image ⟨tb, ic, 1, 2, 3, itb, drs, drb⟩ now).mem 8192 = 1 := by
  constructor
  · rw [format_image_mem tb ic itb drs drb now h5,
      superblock_crc_finalize_out _ _ _ (by omega),
      inode_crc_finalize_out _ _ _ (by omega),
      dirent_checksum_finalize_out _ _ _ (by omega),
      dirent_checksum_finalize_out _ _ _ (by omega),
      format_dirent_out _ _ _ _ (by decide) (by omega),
      format_dirent_out _ _ _ _ (by decide) (by omega),
      format_root_inode_out _ _ _ _ _ (by omega),
      or_byte_out _ _ _ _ (by omega)]
    unfold or_byte
    rw [if_pos rfl, format_superblock_out _ _ _ _ (by omega)]
    decide
  · rw [format_image_mem tb ic itb drs drb now h5,
      superblock_crc_finalize_out _ _ _ (by omega),
      inode_crc_finalize_out _ _ _ (by omega),
      dirent_checksum_finalize_out _ _ _ (by omega),
      dirent_checksum_finalize_out _ _ _ (by omega),
      format_dirent_out _ _ _ _ (by decide) (by omega),
      format_dirent_out _ _ _ _ (by decide) (by omega),
      format_root_inode_out _ _ _ _ _ (by omega)]
    unfold or_byte
    rw [if_pos rfl, if_neg (by decide), format_superblock_out _ _ _ _ (by omega)]
    decide

/-- In a block whose first byte is `0x01` and whose other bytes are zero,
exactly bit 0 is set. -/
theorem only_bit_zero_set (m : Mem) (bitmap : Nat) (h0 : m bitmap = 1)
    (hrest : ∀ k, 0 < k → k < 4096 → m (bitmap + k) = 0) (i : Nat) (hi : i < 8 * 4096) :
    ¬ bit_clear m bitmap i ↔ i = 0 := by
  unfold bit_clear
  by_cases hb : i / 8 = 0
  · have hi8 : i < 8 := by omega
    rw [hb, Nat.add_zero, h0, Nat.mod_eq_of_lt hi8]
    interval_cases i <;> decide
  · rw [hrest (i / 8) (by omega) (by omega), Nat.zero_and]
    constructor
    · intro h; exact absurd rfl h
    · intro h; omega

theorem load_le_zero (m : Mem) : ∀ n addr, (∀ a, addr ≤ a → a < addr + n → m a = 0) →
    load_le m addr n = 0 := by
  intro n
  induction n with
  | zero => intro _ _; rfl
  | succ n ih =>
    intro addr h
    unfold load_le
    rw [h addr (le_refl _) (by omega), ih (addr + 1) (fun a h1 h2 => h a (by omega) (by omega))]

theorem load_le_format_clear_direct_disj (m : Mem) (ri i k addr2 n2 : Nat)
    (h : addr2 + n2 ≤ ri + 44 + 4 * i ∨ ri + 44 + 4 * (i + k) ≤ addr2) :
    load_le (format_clear_direct m ri i k) addr2 n2 = load_le m addr2 n2 :=
  load_le_frame _ _ _ _ (fun a h1 h2 => format_clear_direct_out ri a k i m (by omega))

/-- The fields written by `format_root_inode`, read back. -/
theorem read_format_root_inode (m : Mem) (ri : Nat) (L : Layout) (now : Nat) :
    read_inode (format_root_inode m ri L now) ri =
      { mode := 0o040000
        links := 2
        uid := 0
        gid := 0
        size_bytes := 128
        atime := now % 2 ^ 64
        mtime := now % 2 ^ 64
        ctime := now % 2 ^ 64
        direct := [L.data_region_start % 2 ^ 32, 0, 0, 0, 0, 0, 0, 0, 0, 0, 0, 0]
        reserved_0 := 0
        reserved_1 := 0
        reserved_2 := 0
        proj_id := 5
        uid16_gid16 := 0
        xattr_ptr := 0
        inode_crc := load_le m (ri + 120) 8 } := by
  have hr : List.range 12 = [0, 1, 2, 3, 4, 5, 6, 7, 8, 9, 10, 11] := rfl
  unfold read_inode format_root_inode
  rw [hr]
  simp (disch := omega) only [List.map, format_clear_direct, Nat.add_zero, Nat.reduceAdd,
    Nat.reduceMul, load_le_store_le_disj, load_le_store_le, Nat.reducePow, Nat.reduceMod]

theorem read_inode_congr (m m2 : Mem) (ri : Nat)
    (h : ∀ addr n, ri ≤ addr → addr + n ≤ ri + 120 → load_le m addr n = load_le m2 addr n) :
    read_inode m ri = { read_inode m2 ri with inode_crc := (read_inode m ri).inode_crc } := by
  have hd : (List.range 12).map (fun i => load_le m (ri + 44 + 4 * i) 4) =
      (List.range 12).map (fun i => load_le m2 (ri + 44 + 4 * i) 4) :=
    List.map_congr_left (fun i hi => by
      have := List.mem_range.mp hi
      exact h _ _ (by omega) (by omega))
  unfold read_inode
  rw [hd, h (ri + 0) 2 (by omega) (by omega), h (ri + 2) 2 (by omega) (by omega),
    h (ri + 4) 4 (by omega) (by omega), h (ri + 8) 4 (by omega) (by omega),
    h (ri + 12) 8 (by omega) (by omega), h (ri + 20) 8 (by omega) (by omega),
    h (ri + 28) 8 (by omega) (by omega), h (ri + 36) 8 (by omega) (by omega),
    h (ri + 92) 4 (by omega) (by omega), h (ri + 96) 4 (by omega) (by omega),
    h (ri + 100) 4 (by omega) (by omega), h (ri + 104) 4 (by omega) (by omega),
    h (ri + 108) 4 (by omega) (by omega), h (ri + 112) 8 (by omega) (by omega)]

/-- Inode slot 0 of the built image, read back field by field. -/
theorem read_inode_format_image (tb ic itb drs drb now : Nat) (h4 : 4 ≤ drs)
    (h5 : drs < 2 ^ 32) (hnow : now < 2 ^ 64) :
    read_inode (format_image ⟨tb, ic, 1, 2, 3, itb, drs, drb⟩ now).mem 12288 =
      { mode := 0o040000
        links := 2
        uid := 0
        gid := 0
        size_bytes := 128
        atime := now
        mtime := now
        ctime := now
        direct := [drs, 0, 0, 0, 0, 0, 0, 0, 0, 0, 0, 0]
        reserved_0 := 0
        reserved_1 := 0
        reserved_2 := 0
        proj_id := 5
        uid16_gid16 := 0
        xattr_ptr := 0
        inode_crc :=
          (read_inode (format_image ⟨tb, ic, 1, 2, 3, itb, drs, drb⟩ now).mem 12288).inode_crc } := by
  rw [read_inode_congr _
    (format_root_inode
      (or_byte (or_byte (format_superblock (fun _ => 0) ⟨tb, ic, 1, 2, 3, itb, drs, drb⟩ now)
        4096 0x01) 8192 0x01) 12288 ⟨tb, ic, 1, 2, 3, itb, drs, drb⟩ now) 12288
    (fun addr n ha hb => by
      rw [format_image_mem tb ic itb drs drb now h5,
        load_le_superblock_crc_finalize_disj _ _ _ _ (by omega),
        load_le_inode_crc_finalize_disj _ _ _ _ (by omega),
        load_le_dirent_checksum_finalize_disj _ _ _ _ (by omega),
        load_le_dirent_checksum_finalize_disj _ _ _ _ (by omega),
        load_le_format_dirent_disj _ _ _ _ _ (by decide) (by omega),
        load_le_format_dirent_disj _ _ _ _ _ (by decide) (by omega)]),
    read_format_root_inode]
  simp only [Nat.mod_eq_of_lt hnow, Nat.mod_eq_of_lt h5]

theorem format_dirent_name_byte (m : Mem) (de : Nat) (name : List Nat) (i : Nat)
    (hi : i < 58) :
    format_dirent m de name (de + 5 + i) = (name ++ [0]).getD i 0 := by
  unfold format_dirent strcpy
  by_cases h : i < (name ++ [0]).length
  · rw [write_bytes_in _ _ _ _ (by omega) (by omega), show de + 5 + i - (de + 5) = i from by omega]
  · rw [write_bytes_out _ _ _ _ (by omega), memset_in _ _ _ _ _ (by omega) (by omega),
      List.getD_eq_default _ _ (by omega)]

/-- The fields written by `format_dirent`, read back. -/
theorem read_format_dirent (m : Mem) (de : Nat) (name : List Nat) (hn : name.length ≤ 57) :
    read_dirent (format_dirent m de name) de =
      { inode_no := 1
        type := 2
        name := (List.range 58).map (fun i => (name ++ [0]).getD i 0)
        checksum := load_le m (de + 63) 1 } := by
  have hname : (List.range 58).map (fun i => format_dirent m de name (de + 5 + i)) =
      (List.range 58).map (fun i => (name ++ [0]).getD i 0) :=
    List.map_congr_left (fun i hi =>
      format_dirent_name_byte m de name i (List.mem_range.mp hi))
  have hlen : (name ++ [0]).length = name.length + 1 := by
    rw [List.length_append, List.length_singleton]
  unfold read_dirent
  rw [hname]
  unfold format_dirent strcpy
  simp (disch := omega) only [load_le_write_bytes_disj, load_le_memset_disj,
    load_le_store_le_disj, load_le_store_le, hlen, Nat.reduceMul, Nat.reducePow, Nat.reduceMod]

theorem read_dirent_congr (m m2 : Mem) (de : Nat)
    (h : ∀ a, de ≤ a → a < de + 63 → m a = m2 a) :
    read_dirent m de = { read_dirent m2 de with checksum := (read_dirent m de).checksum } := by
  have hname : (List.range 58).map (fun i => m (de + 5 + i)) =
      (List.range 58).map (fun i => m2 (de + 5 + i)) :=
    List.map_congr_left (fun i hi => by
      have := List.mem_range.mp hi
      exact h _ (by omega) (by omega))
  unfold read_dirent
  rw [hname, load_le_frame m m2 (de + 0) 4 (fun a h1 h2 => h a (by omega) (by omega)),
    load_le_frame m m2 (de + 4) 1 (fun a h1 h2 => h a (by omega) (by omega))]

/-- The first two directory entries of the built image, read back. -/
theorem read_dirent_format_image (tb ic itb drs drb now : Nat) (h4 : 4 ≤ drs)
    (h5 : drs < 2 ^ 32) :
    read_dirent (format_image ⟨tb, ic, 1, 2, 3, itb, drs, drb⟩ now).mem (drs * 4096) =
      { inode_no := 1
        type := 2
        name := 46 :: List.replicate 57 0
        checksum :=
          (read_dirent (format_image ⟨tb, ic, 1, 2, 3, itb, drs, drb⟩ now).mem
            (drs * 4096)).checksum } ∧
    read_dirent (format_image ⟨tb, ic, 1, 2, 3, itb, drs, drb⟩ now).mem (drs * 4096 + 64) =
      { inode_no := 1
        type := 2
        name := 46 :: 46 :: List.replicate 56 0
        checksum :=
          (read_dirent (format_image ⟨tb, ic, 1, 2, 3, itb, drs, drb⟩ now).mem
            (drs * 4096 + 64)).checksum } := by
  constructor
  · rw [read_dirent_congr _
      (format_dirent
        (format_root_inode
          (or_byte (or_byte (format_superblock (fun _ => 0) ⟨tb, ic, 1, 2, 3, itb, drs, drb⟩ now)
            4096 0x01) 8192 0x01) 12288 ⟨tb, ic, 1, 2, 3, itb, drs, drb⟩ now)
        (drs * 4096) [46]) (drs * 4096)
      (fun a ha hb => by
        rw [format_image_mem tb ic itb drs drb now h5,
          superblock_crc_finalize_out _ _ _ (by omega),
          inode_crc_finalize_out _ _ _ (by omega),
          dirent_checksum_finalize_out _ _ _ (by omega),
          dirent_checksum_finalize_out _ _ _ (by omega),
          format_dirent_out _ _ _ _ (by decide) (by omega)]),
      read_format_dirent _ _ _ (by decide)]
    rfl
  · rw [read_dirent_congr _
      (format_dirent
        (format_dirent
          (format_root_inode
            (or_byte (or_byte (format_superblock (fun _ => 0) ⟨tb, ic, 1, 2, 3, itb, drs, drb⟩ now)
              4096 0x01) 8192 0x01) 12288 ⟨tb, ic, 1, 2, 3, itb, drs, drb⟩ now)
          (drs * 4096) [46])
        (drs * 4096 + 64) [46, 46]) (drs * 4096 + 64)
      (fun a ha hb => by
        rw [format_image_mem tb ic itb drs drb now h5,
          superblock_crc_finalize_out _ _ _ (by omega),
          inode_crc_finalize_out _ _ _ (by omega),
          dirent_checksum_finalize_out _ _ _ (by omega),
          dirent_checksum_finalize_out _ _ _ (by omega)]),
      read_format_dirent _ _ _ (by decide)]
    rfl

/-! ## C10: contents of the formatted image -/

/-- C10: for every valid `(size_kib, inode_count)` the formatted image
contains only the root directory: in each bitmap exactly bit 0 is set; inode
slot 0 holds mode 040000 (octal), links 2, uid/gid 0, size 128, atime = mtime
= ctime = build time, `direct[0] = data_region_start`, `direct[1..11] = 0`,
reserved/legacy/xattr fields 0 and `proj_id` 5; the first data block holds
entry 0 = (inode 1, type 2, name ".") and entry 1 = (inode 1, type 2, name
".."), the other 62 entries have inode number 0; every byte outside block 0,
the two bitmap bytes, inode slot 0 and these two entries is zero. -/
theorem format_image_contents (size_kib inode_count now : Nat)
    (h1 : 180 ≤ size_kib) (h2 : size_kib ≤ 4096) (h3 : size_kib % 4 = 0)
    (h4 : 128 ≤ inode_count) (h5 : inode_count ≤ 512) (hnow : now < 2 ^ 64) :
    ∃ L img, format_layout size_kib inode_count = .ok L ∧
      mkfs_builder_main size_kib inode_count now = .ok img ∧
      (∀ i, i < 8 * 4096 → (¬ bit_clear img.mem (L.inode_bitmap_start * 4096) i ↔ i = 0)) ∧
      (∀ i, i < 8 * 4096 → (¬ bit_clear img.mem (L.data_bitmap_start * 4096) i ↔ i = 0)) ∧
      read_inode img.mem (L.inode_table_start * 4096) =
        { mode := 0o040000
          links := 2
          uid := 0
          gid := 0
          size_bytes := 128
          atime := now
          mtime := now
          ctime := now
          direct := [L.data_region_start, 0, 0, 0, 0, 0, 0, 0, 0, 0, 0, 0]
          reserved_0 := 0
          reserved_1 := 0
          reserved_2 := 0
          proj_id := 5
          uid16_gid16 := 0
          xattr_ptr := 0
          inode_crc := (read_inode img.mem (L.inode_table_start * 4096)).inode_crc } ∧
      read_dirent img.mem (L.data_region_start * 4096) =
        { inode_no := 1
          type := 2
          name := 46 :: List.replicate 57 0
          checksum := (read_dirent img.mem (L.data_region_start * 4096)).checksum } ∧
      read_dirent img.mem (L.data_region_start * 4096 + 64) =
        { inode_no := 1
          type := 2
          name := 46 :: 46 :: List.replicate 56 0
          checksum := (read_dirent img.mem (L.data_region_start * 4096 + 64)).checksum } ∧
      (∀ k, 2 ≤ k → k < 64 →
        (read_dirent img.mem (L.data_region_start * 4096 + 64 * k)).inode_no = 0) ∧
      (∀ a, 4096 ≤ a → a ≠ L.inode_bitmap_start * 4096 → a ≠ L.data_bitmap_start * 4096 →
        ¬ (L.inode_table_start * 4096 ≤ a ∧ a < L.inode_table_start * 4096 + 128) →
        ¬ (L.data_region_start * 4096 ≤ a ∧ a < L.data_region_start * 4096 + 128) →
        img.mem a = 0) := by
  have hd4 : 4 ≤ 3 + (inode_count * 128 + 4095) / 4096 := by omega
  have hd5 : 3 + (inode_count * 128 + 4095) / 4096 < 2 ^ 32 := by omega
  have hz := fun a => format_image_zero (size_kib / 4) inode_count
    ((inode_count * 128 + 4095) / 4096) (3 + (inode_count * 128 + 4095) / 4096)
    (size_kib / 4 - (3 + (inode_count * 128 + 4095) / 4096)) now a hd4 hd5
  have hb := format_image_bitmap_byte (size_kib / 4) inode_count
    ((inode_count * 128 + 4095) / 4096) (3 + (inode_count * 128 + 4095) / 4096)
    (size_kib / 4 - (3 + (inode_count * 128 + 4095) / 4096)) now hd4 hd5
  have hi := read_inode_format_image (size_kib / 4) inode_count
    ((inode_count * 128 + 4095) / 4096) (3 + (inode_count * 128 + 4095) / 4096)
    (size_kib / 4 - (3 + (inode_count * 128 + 4095) / 4096)) now hd4 hd5 hnow
  have hde := read_dirent_format_image (size_kib / 4) inode_count
    ((inode_count * 128 + 4095) / 4096) (3 + (inode_count * 128 + 4095) / 4096)
    (size_kib / 4 - (3 + (inode_count * 128 + 4095) / 4096)) now hd4 hd5
  have e1 : 1 * 4096 = 4096 := rfl
  have e2 : 2 * 4096 = 8192 := rfl
  have e3 : 3 * 4096 = 12288 := rfl
  refine ⟨_, _, format_layout_ok size_kib inode_count h1 h2 h3 h4 h5,
    mkfs_builder_main_ok size_kib inode_count now h1 h2 h3 h4 h5, ?_, ?_, ?_, ?_, ?_, ?_, ?_⟩
  · rw [e1]
    exact only_bit_zero_set _ 4096 hb.1
      (fun k hk1 hk2 => hz _ (by omega) (by omega) (by omega) (by omega) (by omega))
  · rw [e2]
    exact only_bit_zero_set _ 8192 hb.2
      (fun k hk1 hk2 => hz _ (by omega) (by omega) (by omega) (by omega) (by omega))
  · rw [e3]
    exact hi
  · exact hde.1
  · exact hde.2
  · intro k hk1 hk2
    exact load_le_zero _ 4 _
      (fun a ha1 ha2 => hz a (by omega) (by omega) (by omega) (by omega) (by omega))
  · intro a ha hn1 hn2 hn3 hn4
    rw [e1] at hn1
    rw [e2] at hn2
    rw [e3] at hn3
    dsimp only at hn4
    exact hz a (by omega) hn1 hn2 (by omega) (by omega)

/-- C10 witness: `format(180, 128)` at build time 0. -/
theorem format_image_contents_witness :
    ∃ L img, format_layout 180 128 = .ok L ∧ mkfs_builder_main 180 128 0 = .ok img ∧
      (∀ i, i < 8 * 4096 → (¬ bit_clear img.mem (L.inode_bitmap_start * 4096) i ↔ i = 0)) :=
  (format_image_contents 180 128 0 (by decide) (by decide) (by decide) (by decide)
    (by decide) (by decide)).imp (fun _ h => h.imp (fun _ h => ⟨h.1, h.2.1, h.2.2.1⟩))

/-! ## C17: `crc32` detects every single-bit flip -/

theorem crc32_init_rounds_inj (k x y : Nat) (hx : x < 2 ^ 32) (hy : y < 2 ^ 32)
    (h : crc32_init_round^[k] x = crc32_init_round^[k] y) : x = y := by
  apply xor_eq_zero_imp
  by_contra hne
  have hlt : x ^^^ y < 2 ^ 32 := Nat.xor_lt_two_pow hx hy
  apply crc32_init_rounds_ne_zero k (x ^^^ y) hlt hne
  rw [crc32_init_rounds_xor, h, Nat.xor_self]

theorem xor_right_cancel (a b c : Nat) (h : a ^^^ c = b ^^^ c) : a = b := by
  have h2 : (a ^^^ c) ^^^ c = (b ^^^ c) ^^^ c := by rw [h]
  rw [Nat.xor_assoc, Nat.xor_assoc, Nat.xor_self, Nat.xor_zero, Nat.xor_zero] at h2
  exact h2

theorem xor_left_cancel (a b c : Nat) (h : c ^^^ a = c ^^^ b) : a = b := by
  rw [Nat.xor_comm c a, Nat.xor_comm c b] at h
  exact xor_right_cancel a b c h

/-- One step of the `crc32` loop is injective in the state and in the byte. -/
theorem crc32_step_ne (c c2 b b2 : Nat) (hc : c < 2 ^ 32) (hc2 : c2 < 2 ^ 32) (hb : b < 256)
    (hb2 : b2 < 256) (hne : c ^^^ b ≠ c2 ^^^ b2) :
    CRC32_TAB.getD ((c ^^^ b) &&& 0xFF) 0 ^^^ (c >>> 8) ≠
      CRC32_TAB.getD ((c2 ^^^ b2) &&& 0xFF) 0 ^^^ (c2 >>> 8) := by
  rw [crc32_table_step_rounds c b hb, crc32_table_step_rounds c2 b2 hb2]
  intro h
  exact hne (crc32_init_rounds_inj 8 _ _
    (Nat.xor_lt_two_pow hc (Nat.lt_of_lt_of_le hb (by decide)))
    (Nat.xor_lt_two_pow hc2 (Nat.lt_of_lt_of_le hb2 (by decide))) h)

theorem crc32_step_lt (c b : Nat) (hc : c < 2 ^ 32) (hb : b < 256) :
    CRC32_TAB.getD ((c ^^^ b) &&& 0xFF) 0 ^^^ (c >>> 8) < 2 ^ 32 := by
  rw [crc32_table_step_rounds c b hb]
  exact crc32_init_rounds_lt 8 _ (Nat.xor_lt_two_pow hc (Nat.lt_of_lt_of_le hb (by decide)))

/-- Over the same bytes, different states of the `crc32` loop stay different. -/
theorem crc32_loop_inj (m : Mem) (hm : Mem.WF m) (data : Nat) :
    ∀ r c c2 i, c < 2 ^ 32 → c2 < 2 ^ 32 → c ≠ c2 →
      crc32_loop m data c i r ≠ crc32_loop m data c2 i r := by
  intro r
  induction r with
  | zero => intro c c2 i _ _ h; exact h
  | succ r ih =>
    intro c c2 i hc hc2 h
    rw [crc32_loop_succ, crc32_loop_succ]
    exact ih _ _ _ (crc32_step_lt c _ hc (hm _)) (crc32_step_lt c2 _ hc2 (hm _))
      (crc32_step_ne c c2 _ _ hc hc2 (hm _) (hm _) (fun h2 => h (xor_right_cancel _ _ _ h2)))

theorem flip_bit_WF (m : Mem) (hm : Mem.WF m) (a k : Nat) (hk : k < 8) :
    Mem.WF (flip_bit m a k) := by
  intro x
  unfold flip_bit
  split
  · rw [Nat.one_shiftLeft]
    exact Nat.xor_lt_two_pow (n := 8) (hm x)
      (Nat.pow_lt_pow_right (by decide) hk)
  · exact hm x

theorem store_le_WF (m : Mem) (hm : Mem.WF m) (addr n v : Nat) : Mem.WF (store_le m addr n v) := by
  intro x
  unfold store_le
  split
  · exact Nat.mod_lt _ (by decide)
  · exact hm x

theorem crc32_flip_ne (m : Mem) (hm : Mem.WF m) (data n j k : Nat) (hj : j < n) (hk : k < 8) :
    crc32 (flip_bit m (data + j) k) data n ≠ crc32 m data n := by
  have hm2 := flip_bit_WF m hm (data + j) k hk
  have hn : n = j + (1 + (n - j - 1)) := by omega
  have hpre : crc32_loop (flip_bit m (data + j) k) data 0xFFFFFFFF 0 j =
      crc32_loop m data 0xFFFFFFFF 0 j :=
    crc32_loop_congr _ _ data data j _ 0 (fun i _ hi => by
      unfold flip_bit
      rw [if_neg (by omega)])
  have hclt : crc32_loop m data 0xFFFFFFFF 0 j < 2 ^ 32 := crc32_loop_lt m data j _ 0 (by decide)
  have hbyte : flip_bit m (data + j) k (data + (0 + j)) = m (data + (0 + j)) ^^^ (1 <<< k) := by
    unfold flip_bit
    rw [if_pos (by omega)]
  rw [crc32, crc32, hn, crc32_loop_add, crc32_loop_add, crc32_loop_add, crc32_loop_add, hpre]
  intro h
  have h2 := xor_right_cancel _ _ _ h
  revert h2
  rw [crc32_loop_congr (flip_bit m (data + j) k) m data data (n - j - 1) _ (0 + j + 1)
    (fun i hi _ => by
      unfold flip_bit
      rw [if_neg (by omega)])]
  apply crc32_loop_inj m hm data
  · exact crc32_loop_lt _ data 1 _ _ hclt
  · exact crc32_loop_lt _ data 1 _ _ hclt
  · rw [show (1 : Nat) = 0 + 1 from rfl, crc32_loop_succ, crc32_loop_succ, hbyte]
    show CRC32_TAB.getD _ 0 ^^^ _ ≠ CRC32_TAB.getD _ 0 ^^^ _
    apply crc32_step_ne _ _ _ _ hclt hclt
    · have := hm2 (data + (0 + j))
      rw [hbyte] at this
      exact this
    · exact hm _
    · intro h3
      exact xor_ne_self _ k (xor_left_cancel _ _ _ h3)

/-- C17: for every byte sequence and every single bit position in it,
`crc32` of the sequence with that bit flipped differs from `crc32` of the
original; hence flipping any one bit in bytes `[0, 120)` of a finalized inode
makes the recomputed checksum differ from the stored one. -/
theorem crc32_detects_bit_flip (m : Mem) (hm : Mem.WF m) (p n j k : Nat) (hj : j < n)
    (hk : k < 8) :
    crc32 (flip_bit m (p + j) k) p n ≠ crc32 m p n ∧
    (j < 120 →
      crc32 (flip_bit (inode_crc_finalize m p) (p + j) k) p 120 ≠
        (read_inode (flip_bit (inode_crc_finalize m p) (p + j) k) p).inode_crc) := by
  refine ⟨crc32_flip_ne m hm p n j k hj hk, fun hj2 => ?_⟩
  have hfin : Mem.WF (inode_crc_finalize m p) := by
    rw [inode_crc_finalize_eq]
    exact store_le_WF m hm _ _ _
  have hstored : (read_inode (flip_bit (inode_crc_finalize m p) (p + j) k) p).inode_crc =
      crc32 (inode_crc_finalize m p) p 120 := by
    unfold read_inode
    dsimp only
    rw [load_le_frame _ (inode_crc_finalize m p) (p + 120) 8 (fun a h1 h2 => by
      unfold flip_bit
      rw [if_neg (by omega)])]
    have h5 := inode_crc_finalize_eq m p
    rw [crc32_congr (inode_crc_finalize m p) m p p 120 (fun i hi => by
      rw [h5, store_le_out _ _ _ _ _ (by omega)])]
    rw [h5, load_le_store_le]
    exact Nat.mod_eq_of_lt (Nat.lt_of_lt_of_le (crc32_lt m p 120) (by decide))
  rw [hstored]
  exact crc32_flip_ne _ hfin p 120 j k hj2 hk

/-- C17 witness: bit 3 of byte 5 of the all-zero record at offset 0. -/
theorem crc32_detects_bit_flip_witness :
    Mem.WF (fun _ => 0) ∧
    crc32 (flip_bit (fun _ => 0) (0 + 5) 3) 0 120 ≠ crc32 (fun _ => 0) 0 120 ∧
    crc32 (flip_bit (inode_crc_finalize (fun _ => 0) 0) (0 + 5) 3) 0 120 ≠
      (read_inode (flip_bit (inode_crc_finalize (fun _ => 0) 0) (0 + 5) 3) 0).inode_crc :=
  ⟨fun _ => (by decide : (0 : Nat) < 256),
    (crc32_detects_bit_flip (fun _ => 0) (fun _ => (by decide : (0 : Nat) < 256)) 0 120 5 3
      (by decide) (by decide)).1,
    (crc32_detects_bit_flip (fun _ => 0) (fun _ => (by decide : (0 : Nat) < 256)) 0 120 5 3
      (by decide) (by decide)).2 (by decide)⟩

/-! ## C18: the finalize routines write only their checksum field -/

/-- C18: each finalize routine changes only its checksum field: superblock
finalize leaves every byte other than bytes 112..115 of the block unchanged,
inode finalize leaves every byte other than bytes 120..127 of the record (so
bytes 0..119) unchanged, and dirent finalize leaves every byte other than byte
63 of the entry (so bytes 0..62) unchanged. -/
theorem finalize_writes_only_checksum (m : Mem) (base a : Nat) :
    ((a < base + 112 ∨ base + 116 ≤ a) → (superblock_crc_finalize m base).1 a = m a) ∧
    ((a < base + 120 ∨ base + 128 ≤ a) → inode_crc_finalize m base a = m a) ∧
    (a ≠ base + 63 → dirent_checksum_finalize m base a = m a) :=
  ⟨superblock_crc_finalize_out m base a, inode_crc_finalize_out m base a,
    dirent_checksum_finalize_out m base a⟩

/-- C18 witness: byte 7 of a record at offset 0 holding `0x5A` everywhere. -/
theorem finalize_writes_only_checksum_witness :
    (superblock_crc_finalize (fun _ => 0x5A) 0).1 7 = 0x5A ∧
    inode_crc_finalize (fun _ => 0x5A) 0 7 = 0x5A ∧
    dirent_checksum_finalize (fun _ => 0x5A) 0 7 = 0x5A :=
  ⟨(finalize_writes_only_checksum (fun _ => 0x5A) 0 7).1 (Or.inl (by decide)),
    (finalize_writes_only_checksum (fun _ => 0x5A) 0 7).2.1 (Or.inl (by decide)),
    (finalize_writes_only_checksum (fun _ => 0x5A) 0 7).2.2 (by decide)⟩

/-! ## File injector: bitmap stages -/

theorem blk_one : blk 1 = 4096 := by decide

theorem blk_two : blk 2 = 8192 := by decide

theorem blk_three : blk 3 = 12288 := by decide

theorem set_bit_out (m : Mem) (bitmap i a : Nat) (h : a ≠ bitmap + i / 8) :
    set_bit m bitmap (i : Int) a = m a := by
  rw [set_bit_nat, if_neg h]

theorem set_bit_WF (m : Mem) (hm : Mem.WF m) (bitmap : Nat) (i : Int) :
    Mem.WF (set_bit m bitmap i) := by
  intro x
  unfold set_bit
  split
  · exact Nat.mod_lt _ (by decide)
  · exact hm x

/-- On a bitmap whose set bits are exactly those below `c`, the allocator
returns `c` when `c` is below the bound. -/
theorem find_free_bit_below (m : Mem) (bitmap c cnt : Nat)
    (h : ∀ i, i < 32768 → (bit_clear m bitmap i ↔ c ≤ i)) (hc : c < cnt) (hcnt : cnt ≤ 32768) :
    find_free_bit m bitmap cnt = (c : Int) := by
  apply find_free_bit_of_pos_some m bitmap cnt c (by omega)
  apply find_free_bit_pos_eq m bitmap cnt c (by omega)
  · exact ⟨hc, (h c (by omega)).mpr (le_refl _)⟩
  · intro q hq hf
    have := (h q (by omega)).mp hf.2
    omega

/-- On a bitmap whose bits below the bound are all set, the allocator returns `-1`. -/
theorem find_free_bit_below_full (m : Mem) (bitmap c cnt : Nat)
    (h : ∀ i, i < 32768 → (bit_clear m bitmap i ↔ c ≤ i)) (hc : cnt ≤ c) (hcnt : cnt ≤ 32768) :
    find_free_bit m bitmap cnt = -1 := by
  rcases find_free_bit_cases m bitmap cnt (by omega) with h1 | ⟨p, _, h2, _⟩
  · exact h1.1
  · have := (h p (by have := h2.1; omega)).mp h2.2
    have := h2.1
    omega

theorem set_bit_below (m : Mem) (bitmap c : Nat)
    (h : ∀ i, i < 32768 → (bit_clear m bitmap i ↔ c ≤ i)) :
    ∀ i, i < 32768 → (bit_clear (set_bit m bitmap (c : Int)) bitmap i ↔ c + 1 ≤ i) := by
  intro i hi
  rw [bit_clear_set_bit, h i hi]
  omega

theorem read_superblock_frame (m m2 : Mem) (h : ∀ a, a < 116 → m a = m2 a) :
    read_superblock m 0 = read_superblock m2 0 := by
  have hl : ∀ addr n, addr + n ≤ 116 → load_le m addr n = load_le m2 addr n :=
    fun addr n hn => load_le_frame m m2 addr n (fun a _ h2 => h a (by omega))
  unfold read_superblock
  rw [hl (0 + 0) 4 (by omega), hl (0 + 4) 4 (by omega), hl (0 + 8) 4 (by omega),
    hl (0 + 12) 8 (by omega), hl (0 + 20) 8 (by omega), hl (0 + 28) 8 (by omega),
    hl (0 + 36) 8 (by omega), hl (0 + 44) 8 (by omega), hl (0 + 52) 8 (by omega),
    hl (0 + 60) 8 (by omega), hl (0 + 68) 8 (by omega), hl (0 + 76) 8 (by omega),
    hl (0 + 84) 8 (by omega), hl (0 + 92) 8 (by omega), hl (0 + 100) 8 (by omega),
    hl (0 + 108) 4 (by omega), hl (0 + 112) 4 (by omega)]

/-- Setting a bit of a bitmap that lies behind the superblock fields leaves
the superblock unchanged. -/
theorem read_superblock_set_bit (m : Mem) (bitmap p : Nat) (hb : 116 ≤ bitmap) :
    read_superblock (set_bit m bitmap (p : Int)) 0 = read_superblock m 0 :=
  read_superblock_frame _ _ (fun a ha => set_bit_out m bitmap p a (by omega))

/-- The allocation loop on a bitmap behind the superblock whose set bits are
those below `c`, with room for `k` more blocks: bits `c .. c + k - 1` get set
and `data_blocks` receives the block numbers in order. -/
theorem inject_alloc_loop_ok (bitmap drs drb : Nat) (hb : 116 ≤ bitmap) (hdrb : drb ≤ 32768)
    (hdrs : drs < 2 ^ 31) :
    ∀ k i (m : Mem) (db : Nat → Nat) c,
      (read_superblock m 0).data_region_start = drs →
      (read_superblock m 0).data_region_blocks = drb →
      (∀ x, x < 32768 → (bit_clear m bitmap x ↔ c ≤ x)) → c + k ≤ drb →
      ∃ m2 db2, inject_alloc_loop bitmap k i m db = .ok (m2, db2) ∧
        (∀ a, (a < bitmap ∨ bitmap + 4096 ≤ a) → m2 a = m a) ∧
        (∀ x, x < 32768 → (bit_clear m2 bitmap x ↔ c + k ≤ x)) ∧
        (∀ j, db2 j = if i ≤ j ∧ j < i + k then drs + c + (j - i) else db j) ∧
        (Mem.WF m → Mem.WF m2) := by
  intro k
  induction k with
  | zero =>
    intro i m db c _ _ h _
    exact ⟨m, db, rfl, fun _ _ => rfl, h, fun j => by rw [if_neg (by omega)], fun hm => hm⟩
  | succ k ih =>
    intro i m db c hs1 hs2 h hk
    have hfind : find_free_bit m bitmap drb = (c : Int) :=
      find_free_bit_below m bitmap c drb h (by omega) hdrb
    have hne : ¬ ((c : Int) = -1) := by omega
    have hval : (((drs : Int) + (c : Int)) % 2 ^ 32).toNat = drs + c := by omega
    obtain ⟨m2, db2, h1, h2, h3, h4, h5⟩ := ih (i + 1) (set_bit m bitmap (c : Int))
      (fun j => if j = i then drs + c else db j) (c + 1)
      ((congrArg Superblock.data_region_start (read_superblock_set_bit m bitmap c hb)).trans hs1)
      ((congrArg Superblock.data_region_blocks (read_superblock_set_bit m bitmap c hb)).trans
        hs2)
      (set_bit_below m bitmap c h) (by omega)
    refine ⟨m2, db2, ?_, ?_, ?_, ?_, ?_⟩
    · unfold inject_alloc_loop
      rw [hs1, hs2, hfind, if_neg hne, hval]
      exact h1
    · intro a ha
      rw [h2 a ha, set_bit_out m bitmap c a (by omega)]
    · intro x hx
      rw [h3 x hx]
      omega
    · intro j
      rw [h4 j]
      by_cases hj : j = i
      · rw [if_neg (by omega), if_pos hj, if_pos (by omega)]
        omega
      · by_cases hj2 : i + 1 ≤ j ∧ j < i + 1 + k
        · rw [if_pos hj2, if_pos (by omega)]
          omega
        · rw [if_neg hj2, if_neg hj, if_neg (by omega)]
    · exact fun hm => h5 (set_bit_WF m hm bitmap _)

/-- The allocation loop without room for `k` more blocks fails. -/
theorem inject_alloc_loop_full (bitmap drb : Nat) (hb : 116 ≤ bitmap) (hdrb : drb ≤ 32768) :
    ∀ k i (m : Mem) (db : Nat → Nat) c,
      (read_superblock m 0).data_region_blocks = drb →
      (∀ x, x < 32768 → (bit_clear m bitmap x ↔ c ≤ x)) → c ≤ drb → drb < c + k →
      inject_alloc_loop bitmap k i m db = .error .no_free_data_blocks := by
  intro k
  induction k with
  | zero => intro i m db c _ _ h1 h2; omega
  | succ k ih =>
    intro i m db c hs2 h h1 h2
    unfold inject_alloc_loop
    rw [hs2]
    by_cases hc : c = drb
    · rw [find_free_bit_below_full m bitmap c drb h (by omega) hdrb, if_pos rfl]
    · have hfind : find_free_bit m bitmap drb = (c : Int) :=
        find_free_bit_below m bitmap c drb h (by omega) hdrb
      have hne : ¬ ((c : Int) = -1) := by omega
      rw [hfind, if_neg hne]
      exact ih (i + 1) _ _ (c + 1)
        ((congrArg Superblock.data_region_blocks (read_superblock_set_bit m bitmap c hb)).trans
          hs2)
        (set_bit_below m bitmap c h) (by omega) (by omega)

theorem inject_alloc_loop_error (bitmap : Nat) :
    ∀ k i (m : Mem) (db : Nat → Nat) e,
      inject_alloc_loop bitmap k i m db = .error e → e = .no_free_data_blocks := by
  intro k
  induction k with
  | zero => intro i m db e h; exact absurd h (by simp [inject_alloc_loop])
  | succ k ih =>
    intro i m db e h
    unfold inject_alloc_loop at h
    split at h
    · exact (Except.error.inj h).symm
    · exact ih _ _ _ e h

theorem inject_copy_loop_error (content : List Nat) (file_size blocks_needed : Nat)
    (db : Nat → Nat) :
    ∀ k i pos (m : Mem) e,
      inject_copy_loop content file_size blocks_needed db k i pos m = .error e →
      e = .read_error := by
  intro k
  induction k with
  | zero => intro i pos m e h; exact absurd h (by simp [inject_copy_loop])
  | succ k ih =>
    intro i pos m e h
    unfold inject_copy_loop at h
    dsimp only at h
    split at h
    · exact (Except.error.inj h).symm
    · exact ih _ _ _ e h

theorem inject_scan_loop_error (m : Mem) (entries : Nat) (name : List Nat) :
    ∀ k i fe ue e,
      inject_scan_loop m entries name k i fe ue = .error e → e = .already_exists := by
  intro k
  induction k with
  | zero => intro i fe ue e h; exact absurd h (by simp [inject_scan_loop])
  | succ k ih =>
    intro i fe ue e h
    unfold inject_scan_loop at h
    split at h
    · split at h
      · exact (Except.error.inj h).symm
      · exact ih _ _ _ e h
    · split at h
      · exact ih _ _ _ e h
      · exact ih _ _ _ e h

theorem blocks_needed_of_le (file_size : Nat) (h : file_size ≤ 12 * BS) :
    blocks_needed_of file_size = (file_size + 4095) / 4096 ∧ blocks_needed_of file_size ≤ 12 ∧
      file_size ≤ blocks_needed_of file_size * 4096 ∧
      (0 < file_size → (blocks_needed_of file_size - 1) * 4096 < file_size) ∧
      (file_size = 0 → blocks_needed_of file_size = 0) := by
  unfold blocks_needed_of
  unfold BS at h ⊢
  split <;> omega

theorem inject_image_not_too_many (f : AddFile) (img : Image) (now : Nat)
    (h : f.st_size ≤ 12 * BS) : inject_image f img now ≠ .error .too_many_blocks := by
  have hk := (blocks_needed_of_le f.st_size h).2.1
  unfold inject_image
  dsimp only
  split
  · exact fun h => by cases h
  · rw [if_neg (by omega)]
    split
    · rename_i e he
      rw [inject_alloc_loop_error _ _ _ _ _ e he]
      exact fun h => by cases h
    · split
      · rename_i e he
        rw [inject_copy_loop_error _ _ _ _ _ _ _ _ e he]
        exact fun h => by cases h
      · split
        · rename_i e he
          rw [inject_scan_loop_error _ _ _ _ _ _ _ e he]
          exact fun h => by cases h
        · split
          · exact fun h => by cases h
          · exact fun h => by cases h

theorem mkfs_adder_main_of_checks (f : AddFile) (img : Image) (now : Nat)
    (h1 : f.found = true) (h2 : f.regular = true) (h3 : f.name.length ≤ 57)
    (h4 : f.st_size ≤ 12 * BS) (h5 : (read_superblock img.mem 0).magic = 0x4653564D) :
    mkfs_adder_main f img now = inject_image f img now := by
  unfold mkfs_adder_main
  rw [if_neg (by rw [h1]; decide), if_neg (by rw [h2]; decide), if_neg (by omega),
    if_neg (by omega), if_neg (not_not.mpr h5)]

/-! ## C11: the file size check -/

/-- C11 (amended): for a file that is found, is regular and has a name of at
most 57 characters, inject fails with the oversize error exactly when the
byte size exceeds `12 * 4096 = 49152` (49152 is accepted, 49153 is rejected);
for every file the oversize error is returned only when the size exceeds
49152; for every accepted size `blocks_needed = ceil(file_size / 4096)`, which
is 0 for an empty file and at most 12, and the "file requires too many
blocks" failure is never returned.  The restriction to found, regular files
with an accepted name is needed, because the checks on the file and on its
name come first. -/
theorem inject_file_size_check (f : AddFile) (img : Image) (now : Nat) :
    (f.found = true → f.regular = true → f.name.length ≤ 57 →
      (mkfs_adder_main f img now = .error .file_too_large ↔ 49152 < f.st_size)) ∧
    (mkfs_adder_main f img now = .error .file_too_large → 49152 < f.st_size) ∧
    (f.st_size ≤ 49152 →
      blocks_needed_of f.st_size = (f.st_size + 4095) / 4096 ∧
      f.st_size ≤ blocks_needed_of f.st_size * 4096 ∧
      (0 < f.st_size → (blocks_needed_of f.st_size - 1) * 4096 < f.st_size) ∧
      (f.st_size = 0 → blocks_needed_of f.st_size = 0) ∧
      blocks_needed_of f.st_size ≤ 12) ∧
    mkfs_adder_main f img now ≠ .error .too_many_blocks := by
  have hBS : 12 * BS = 49152 := by decide
  have hlarge : mkfs_adder_main f img now = .error .file_too_large → 49152 < f.st_size := by
    intro h
    by_contra hle
    unfold mkfs_adder_main at h
    split at h
    · cases h
    · split at h
      · cases h
      · split at h
        · cases h
        · rw [if_neg (by omega)] at h
          split at h
          · cases h
          · have hk := (blocks_needed_of_le f.st_size (by omega)).2.1
            unfold inject_image at h
            dsimp only at h
            split at h
            · cases h
            · rw [if_neg (by omega)] at h
              split at h
              · rename_i e he
                rw [inject_alloc_loop_error _ _ _ _ _ e he] at h
                cases h
              · split at h
                · rename_i e he
                  rw [inject_copy_loop_error _ _ _ _ _ _ _ _ e he] at h
                  cases h
                · split at h
                  · rename_i e he
                    rw [inject_scan_loop_error _ _ _ _ _ _ _ e he] at h
                    cases h
                  · split at h
                    · cases h
                    · cases h
  refine ⟨?_, hlarge, ?_, ?_⟩
  · intro h1 h2 h3
    refine ⟨hlarge, fun h => ?_⟩
    unfold mkfs_adder_main
    rw [if_neg (by rw [h1]; decide), if_neg (by rw [h2]; decide), if_neg (by omega),
      if_pos (by omega)]
  · intro h
    have := blocks_needed_of_le f.st_size (by omega)
    exact ⟨this.1, this.2.2.1, this.2.2.2.1, this.2.2.2.2, this.2.1⟩
  · unfold mkfs_adder_main
    split
    · exact fun h => by cases h
    · split
      · exact fun h => by cases h
      · split
        · exact fun h => by cases h
        · split
          · exact fun h => by cases h
          · split
            · exact fun h => by cases h
            · exact inject_image_not_too_many f img now (by omega)

/-! ## File injector: the copy loop -/

theorem take_drop_getD (l : List Nat) (p b t : Nat) (ht : t < b) :
    ((l.drop p).take b).getD t 0 = l.getD (p + t) 0 := by
  rw [List.getD_eq_getElem?_getD, List.getElem?_take, if_pos ht, List.getElem?_drop,
    ← List.getD_eq_getElem?_getD]

theorem getD_lt_of_bytes (l : List Nat) (hl : ∀ b, b ∈ l → b < 256) (i : Nat) :
    l.getD i 0 < 256 := by
  rw [List.getD_eq_getElem?_getD]
  by_cases h : i < l.length
  · rw [List.getElem?_eq_getElem h]
    exact hl _ (List.getElem_mem h)
  · rw [List.getElem?_eq_none (by omega)]
    decide

/-- One iteration of the copy loop: the block receives the next 4096 bytes of
the content, zero-padded beyond its end. -/
theorem inject_copy_block (content : List Nat) (m : Mem) (bp pos btr : Nat)
    (h1 : pos + btr ≤ content.length) (h2 : btr ≤ 4096)
    (h3 : btr < 4096 → pos + btr = content.length) :
    (∀ a, (a < bp ∨ bp + 4096 ≤ a) →
      (if btr < BS then
          memset (write_bytes m bp ((content.drop pos).take btr)) (bp + btr) 0 (BS - btr)
        else write_bytes m bp ((content.drop pos).take btr)) a = m a) ∧
    (∀ t, t < 4096 →
      (if btr < BS then
          memset (write_bytes m bp ((content.drop pos).take btr)) (bp + btr) 0 (BS - btr)
        else write_bytes m bp ((content.drop pos).take btr)) (bp + t)
        = content.getD (pos + t) 0) := by
  have hlen : ((content.drop pos).take btr).length = btr := by
    rw [List.length_take, List.length_drop]
    omega
  have hBS : BS = 4096 := rfl
  constructor
  · intro a ha
    split
    · rw [memset_out _ _ _ _ _ (by omega), write_bytes_out _ _ _ _ (by omega)]
    · rw [write_bytes_out _ _ _ _ (by omega)]
  · intro t ht
    by_cases hb : btr < BS
    · rw [if_pos hb]
      by_cases htb : t < btr
      · rw [memset_out _ _ _ _ _ (by omega), write_bytes_in _ _ _ _ (by omega) (by omega),
          show bp + t - bp = t from by omega, take_drop_getD _ _ _ _ htb]
      · rw [memset_in _ _ _ _ _ (by omega) (by omega),
          List.getD_eq_default _ _ (by have := h3 (by omega); omega)]
    · rw [if_neg hb, write_bytes_in _ _ _ _ (by omega) (by omega),
        show bp + t - bp = t from by omega, take_drop_getD _ _ _ _ (by omega)]

theorem inject_copy_block_WF (content : List Nat) (hc : ∀ b, b ∈ content → b < 256) (m : Mem)
    (hm : Mem.WF m) (bp pos btr : Nat) :
    Mem.WF (if btr < BS then
        memset (write_bytes m bp ((content.drop pos).take btr)) (bp + btr) 0 (BS - btr)
      else write_bytes m bp ((content.drop pos).take btr)) := by
  have hw : Mem.WF (write_bytes m bp ((content.drop pos).take btr)) := by
    intro x
    unfold write_bytes
    split
    · apply getD_lt_of_bytes
      intro b hb
      exact hc b (List.mem_of_mem_drop (List.mem_of_mem_take hb))
    · exact hm x
  split
  · intro x
    unfold memset
    split
    · decide
    · exact hw x
  · exact hw

/-- The copy loop on a file whose size is the length of its content: block
`base + j` receives bytes `[4096 j, 4096 (j + 1))` of the content, zero-padded. -/
theorem inject_copy_loop_ok (content : List Nat) (hc : ∀ b, b ∈ content → b < 256)
    (k base : Nat) (db : Nat → Nat) (hk : k = blocks_needed_of content.length)
    (hsz : content.length ≤ 12 * BS) (hdb : ∀ j, j < k → db j = base + j)
    (hbase : (base + k) * 4096 ≤ 2 ^ 32) :
    ∀ r i pos (m : Mem), i + r = k → (0 < r → pos = i * 4096) →
      ∃ m2, inject_copy_loop content content.length k db r i pos m = .ok m2 ∧
        (∀ a, (a < (base + i) * 4096 ∨ (base + k) * 4096 ≤ a) → m2 a = m a) ∧
        (∀ j t, i ≤ j → j < k → t < 4096 →
          m2 ((base + j) * 4096 + t) = content.getD (j * 4096 + t) 0) ∧
        (Mem.WF m → Mem.WF m2) := by
  have hbn := blocks_needed_of_le content.length hsz
  rw [← hk] at hbn
  intro r
  induction r with
  | zero =>
    intro i pos m hi _
    exact ⟨m, rfl, fun _ _ => rfl, fun j t h1 h2 _ => by omega, fun hm => hm⟩
  | succ r ih =>
    intro i pos m hi hpos
    have hp : pos = i * 4096 := hpos (by omega)
    have hlenpos : 0 < content.length := by
      rcases Nat.eq_zero_or_pos content.length with h0 | h0
      · have := hbn.2.2.2.2 h0
        omega
      · exact h0
    have hlast := hbn.2.2.2.1 hlenpos
    have hbp : db i * BS % 2 ^ 32 = (base + i) * 4096 := by
      rw [hdb i (by omega)]
      unfold BS
      omega
    have hbtr : pos + inject_bytes_to_read content.length k i ≤ content.length ∧
        inject_bytes_to_read content.length k i ≤ 4096 ∧
        (inject_bytes_to_read content.length k i < 4096 →
          pos + inject_bytes_to_read content.length k i = content.length) ∧
        (0 < r → inject_bytes_to_read content.length k i = 4096) := by
      unfold inject_bytes_to_read BS
      split <;> omega
    obtain ⟨hb1, hb2, hb3, hb4⟩ := hbtr
    have hblk := inject_copy_block content m ((base + i) * 4096) pos
      (inject_bytes_to_read content.length k i) hb1 hb2 hb3
    have hlen : ((content.drop pos).take (inject_bytes_to_read content.length k i)).length =
        inject_bytes_to_read content.length k i := by
      rw [List.length_take, List.length_drop]
      omega
    obtain ⟨m2, g1, g2, g3, g4⟩ := ih (i + 1)
      (pos + inject_bytes_to_read content.length k i)
      (if inject_bytes_to_read content.length k i < BS then
          memset (write_bytes m ((base + i) * 4096)
              ((content.drop pos).take (inject_bytes_to_read content.length k i)))
            ((base + i) * 4096 + inject_bytes_to_read content.length k i) 0
            (BS - inject_bytes_to_read content.length k i)
        else write_bytes m ((base + i) * 4096)
          ((content.drop pos).take (inject_bytes_to_read content.length k i)))
      (by omega) (fun hr => by rw [hb4 hr, hp]; omega)
    refine ⟨m2, ?_, ?_, ?_, ?_⟩
    · unfold inject_copy_loop
      dsimp only
      rw [hbp, if_neg (not_not.mpr hlen)]
      exact g1
    · intro a ha
      rw [g2 a (by omega), hblk.1 a (by omega)]
    · intro j t hj1 hj2 ht
      by_cases hji : j = i
      · subst hji
        rw [g2 _ (by omega), hblk.2 t ht, hp]
      · exact g3 j t (by omega) hj2 ht
    · exact fun hm => g4 (inject_copy_block_WF content hc m hm _ _ _)

/-! ## File injector: the new inode -/

theorem inject_set_direct_out (ni : Nat) (db : Nat → Nat) (a : Nat) :
    ∀ k i (m : Mem), (a < ni + 44 + 4 * i ∨ ni + 44 + 4 * (i + k) ≤ a) →
      inject_set_direct ni db k i m a = m a := by
  intro k
  induction k with
  | zero => intro i m _; rfl
  | succ k ih =>
    intro i m h
    unfold inject_set_direct
    rw [ih (i + 1) _ (by omega), store_le_out _ _ _ _ _ (by omega)]

theorem inject_set_direct_WF (ni : Nat) (db : Nat → Nat) :
    ∀ k i (m : Mem), Mem.WF m → Mem.WF (inject_set_direct ni db k i m) := by
  intro k
  induction k with
  | zero => intro i m h; exact h
  | succ k ih =>
    intro i m h
    unfold inject_set_direct
    exact ih _ _ (store_le_WF m h _ _ _)

theorem load_le_inject_set_direct (ni : Nat) (db : Nat → Nat) (t : Nat) :
    ∀ k i (m : Mem), load_le (inject_set_direct ni db k i m) (ni + 44 + 4 * t) 4 =
      if i ≤ t ∧ t < i + k then db t % 2 ^ 32 else load_le m (ni + 44 + 4 * t) 4 := by
  intro k
  induction k with
  | zero => intro i m; rw [if_neg (by omega)]; rfl
  | succ k ih =>
    intro i m
    unfold inject_set_direct
    rw [ih (i + 1)]
    by_cases hti : t = i
    · subst hti
      rw [if_neg (by omega), if_pos (by omega), load_le_store_le]
    · rw [load_le_store_le_disj _ _ _ _ _ _ (by omega)]
      by_cases h : i + 1 ≤ t ∧ t < i + 1 + k
      · rw [if_pos h, if_pos (by omega)]
      · rw [if_neg h, if_neg (by omega)]

theorem memset_WF (m : Mem) (hm : Mem.WF m) (dst val n : Nat) : Mem.WF (memset m dst val n) := by
  intro x
  unfold memset
  split
  · exact Nat.mod_lt _ (by decide)
  · exact hm x

theorem load_le_memset_zero (m : Mem) (dst n addr2 n2 : Nat) (h1 : dst ≤ addr2)
    (h2 : addr2 + n2 ≤ dst + n) : load_le (memset m dst 0 n) addr2 n2 = 0 :=
  load_le_zero _ _ _ (fun a ha hb => memset_in m dst 0 n a (by omega) (by omega))

theorem inject_new_inode_out (m : Mem) (ni size now : Nat) (db : Nat → Nat) (k a : Nat)
    (hk : k ≤ 12) (h : a < ni ∨ ni + 128 ≤ a) : inject_new_inode m ni size now db k a = m a := by
  unfold inject_new_inode
  rw [store_le_out _ _ _ _ _ (by omega), inject_set_direct_out ni db a k 0 _ (by omega)]
  simp (disch := omega) only [store_le_out, memset_out]

theorem inject_new_inode_WF (m : Mem) (hm : Mem.WF m) (ni size now : Nat) (db : Nat → Nat)
    (k : Nat) : Mem.WF (inject_new_inode m ni size now db k) := by
  unfold inject_new_inode
  apply store_le_WF
  apply inject_set_direct_WF
  repeat apply store_le_WF
  exact memset_WF m hm _ _ _

theorem load_le_inject_new_inode_disj (m : Mem) (ni size now : Nat) (db : Nat → Nat)
    (k addr2 n2 : Nat) (hk : k ≤ 12) (h : addr2 + n2 ≤ ni ∨ ni + 128 ≤ addr2) :
    load_le (inject_new_inode m ni size now db k) addr2 n2 = load_le m addr2 n2 :=
  load_le_frame _ _ _ _ (fun a h1 h2 => inject_new_inode_out m ni size now db k a hk (by omega))

theorem inject_new_inode_direct (m : Mem) (ni size now : Nat) (db : Nat → Nat) (k t : Nat)
    (ht : t < 12) :
    load_le (inject_new_inode m ni size now db k) (ni + 44 + 4 * t) 4 =
      if t < k then db t % 2 ^ 32 else 0 := by
  unfold inject_new_inode
  dsimp only
  rw [load_le_store_le_disj _ _ _ _ _ _ (by omega), load_le_inject_set_direct]
  by_cases h : t < k
  · rw [if_pos (by omega), if_pos h]
  · rw [if_neg (by omega), if_neg h]
    simp (disch := omega) only [load_le_store_le_disj]
    exact load_le_memset_zero _ _ _ _ _ (by omega) (by omega)

theorem strncpy_out (m : Mem) (dst : Nat) (s : List Nat) (n a : Nat)
    (h : a < dst ∨ dst + n ≤ a) : strncpy m dst s n a = m a := by
  unfold strncpy
  rw [if_neg (by omega)]

theorem strncpy_in (m : Mem) (dst : Nat) (s : List Nat) (n a : Nat) (h1 : dst ≤ a)
    (h2 : a < dst + n) : strncpy m dst s n a = s.getD (a - dst) 0 := by
  unfold strncpy
  rw [if_pos ⟨h1, h2⟩]

theorem load_le_strncpy_disj (m : Mem) (dst : Nat) (s : List Nat) (n addr2 n2 : Nat)
    (h : addr2 + n2 ≤ dst ∨ dst + n ≤ addr2) :
    load_le (strncpy m dst s n) addr2 n2 = load_le m addr2 n2 :=
  load_le_frame _ _ _ _ (fun a h1 h2 => strncpy_out m dst s n a (by omega))

theorem inject_new_entry_out (m : Mem) (ne : Nat) (fi : Int) (name : List Nat) (a : Nat)
    (h : a < ne ∨ ne + 63 ≤ a) : inject_new_entry m ne fi name a = m a := by
  unfold inject_new_entry
  simp (disch := omega) only [store_le_out, strncpy_out, memset_out]

theorem inject_new_entry_WF (m : Mem) (hm : Mem.WF m) (ne : Nat) (fi : Int) (name : List Nat)
    (hn : ∀ c, c ∈ name → c < 256) : Mem.WF (inject_new_entry m ne fi name) := by
  unfold inject_new_entry
  apply store_le_WF
  intro x
  unfold strncpy
  split
  · exact getD_lt_of_bytes name hn _
  · exact memset_WF _ (store_le_WF _ (store_le_WF m hm _ _ _) _ _ _) _ _ _ x

theorem inject_new_entry_ino (m : Mem) (ne : Nat) (fi : Int) (name : List Nat) :
    load_le (inject_new_entry m ne fi name) (ne + 0) 4 = (fi + 1).toNat % 2 ^ 32 := by
  unfold inject_new_entry
  simp (disch := omega) only [load_le_store_le_disj, load_le_strncpy_disj, load_le_memset_disj,
    load_le_store_le, Nat.reduceMul]

theorem inject_new_entry_type (m : Mem) (ne : Nat) (fi : Int) (name : List Nat) :
    inject_new_entry m ne fi name (ne + 4) = 1 := by
  unfold inject_new_entry
  rw [store_le_out _ _ _ _ _ (by omega), strncpy_out _ _ _ _ _ (by omega),
    memset_out _ _ _ _ _ (by omega), store_le_in _ _ _ _ _ (by omega) (by omega),
    Nat.sub_self]
  rfl

theorem inject_new_entry_name (m : Mem) (ne : Nat) (fi : Int) (name : List Nat) (t : Nat)
    (ht : t < 58) (hn : name.length ≤ 57) :
    inject_new_entry m ne fi name (ne + 5 + t) = name.getD t 0 := by
  unfold inject_new_entry
  by_cases h : t < 57
  · rw [store_le_out _ _ _ _ _ (by omega), strncpy_in _ _ _ _ _ (by omega) (by omega),
      show ne + 5 + t - (ne + 5) = t from by omega]
  · rw [store_le_in _ _ _ _ _ (by omega) (by omega), List.getD_eq_default _ _ (by omega),
      Nat.zero_shiftRight]

theorem strcmp_eq_iff (m : Mem) (s : List Nat) :
    ∀ p, strcmp_eq m p s = true ↔
      ((∀ j, j < s.length → m (p + j) = s.getD j 0) ∧ m (p + s.length) = 0) := by
  induction s with
  | nil =>
    intro p
    unfold strcmp_eq
    simp
  | cons c cs ih =>
    intro p
    unfold strcmp_eq
    rw [Bool.and_eq_true, ih (p + 1), decide_eq_true_eq]
    constructor
    · rintro ⟨h1, h2, h3⟩
      refine ⟨fun j hj => ?_, ?_⟩
      · cases j with
        | zero => simpa using h1
        | succ j =>
          have := h2 j (by simpa using hj)
          rw [List.getD_cons_succ, ← this]
          congr 1
          omega
      · rw [List.length_cons, ← h3]
        congr 1
        omega
    · rintro ⟨h1, h2⟩
      refine ⟨by simpa using h1 0 (by simp), fun j hj => ?_, ?_⟩
      · have := h1 (j + 1) (by simpa using hj)
        rw [List.getD_cons_succ] at this
        rw [← this]
        congr 1
        omega
      · rw [List.length_cons] at h2
        rw [← h2]
        congr 1
        omega

theorem list_eq_of_getD (s s2 : List Nat) (hlen : s.length = s2.length)
    (h : ∀ j, j < s.length → s.getD j 0 = s2.getD j 0) : s = s2 := by
  apply List.ext_getElem hlen
  intro j h1 h2
  have := h j h1
  rw [List.getD_eq_getElem?_getD, List.getD_eq_getElem?_getD, List.getElem?_eq_getElem h1,
    List.getElem?_eq_getElem h2] at this
  exact this

theorem getD_pos_of_lt (s : List Nat) (hs : ∀ c, c ∈ s → 0 < c) (j : Nat) (hj : j < s.length) :
    0 < s.getD j 0 := by
  rw [List.getD_eq_getElem?_getD, List.getElem?_eq_getElem hj]
  exact hs _ (List.getElem_mem hj)

/-- Against a name field that holds the C string `nm` padded with NUL,
`strcmp` reports equality exactly for the name `nm`. -/
theorem strcmp_eq_name_field (m : Mem) (p : Nat) (nm s : List Nat)
    (hfield : ∀ t, t < 58 → m (p + t) = nm.getD t 0) (hnm : nm.length ≤ 57)
    (hnmpos : ∀ c, c ∈ nm → 0 < c) (hs : s.length ≤ 57) (hspos : ∀ c, c ∈ s → 0 < c) :
    strcmp_eq m p s = true ↔ nm = s := by
  rw [strcmp_eq_iff]
  constructor
  · rintro ⟨h1, h2⟩
    have hle : s.length ≤ nm.length := by
      by_contra hlt
      have hj : nm.length < s.length := by omega
      have := h1 nm.length hj
      rw [hfield _ (by omega), List.getD_eq_default _ _ (le_refl _)] at this
      have := getD_pos_of_lt s hspos nm.length hj
      omega
    have hge : nm.length ≤ s.length := by
      by_contra hlt
      have hj : s.length < nm.length := by omega
      rw [hfield _ (by omega)] at h2
      have := getD_pos_of_lt nm hnmpos s.length hj
      omega
    apply list_eq_of_getD nm s (by omega)
    intro j hj
    rw [← hfield j (by omega)]
    exact h1 j (by omega)
  · intro h
    subst h
    refine ⟨fun j hj => hfield j (by omega), ?_⟩
    rw [hfield _ (by omega), List.getD_eq_default _ _ (le_refl _)]

theorem inject_scan_loop_tail (m : Mem) (ent : Nat) (name : List Nat) (u : Nat)
    (hfree : ∀ s, u ≤ s → s < 64 → load_le m (ent + 64 * s + 0) 4 = 0) :
    ∀ r i, i + r = 64 → u < i →
      inject_scan_loop m ent name r i (u : Int) (u : Int) = .ok ((u : Int), (u : Int)) := by
  intro r
  induction r with
  | zero => intro i _ _; rfl
  | succ r ih =>
    intro i hi hui
    unfold inject_scan_loop
    rw [if_neg (not_not.mpr (hfree i (by omega) (by omega))), if_neg (by omega)]
    exact ih (i + 1) (by omega) (by omega)

/-- The directory scan over `u` live slots followed by free slots, when no
live name equals the new name: the first free slot (or `-1`) and `u`. -/
theorem inject_scan_loop_ok (m : Mem) (ent : Nat) (name : List Nat) (u : Nat) (hu : u ≤ 64)
    (hlive : ∀ s, s < u → load_le m (ent + 64 * s + 0) 4 ≠ 0)
    (hfree : ∀ s, u ≤ s → s < 64 → load_le m (ent + 64 * s + 0) 4 = 0)
    (hcmp : ∀ s, s < u → strcmp_eq m (ent + 64 * s + 5) name = false) :
    ∀ r i, i + r = 64 → i ≤ u →
      inject_scan_loop m ent name r i (-1) (i : Int) =
        .ok (if u < 64 then (u : Int) else -1, (u : Int)) := by
  intro r
  induction r with
  | zero =>
    intro i hi hiu
    have h1 : i = u := by omega
    subst h1
    unfold inject_scan_loop
    rw [if_neg (by omega)]
  | succ r ih =>
    intro i hi hiu
    unfold inject_scan_loop
    by_cases hlt : i < u
    · have hc : ¬ (strcmp_eq m (ent + 64 * i + 5) name = true) := by
        rw [hcmp i hlt]
        decide
      rw [if_pos (hlive i hlt), if_neg hc]
      have := ih (i + 1) (by omega) (by omega)
      rw [Nat.cast_succ] at this
      exact this
    · have h1 : i = u := by omega
      subst h1
      rw [if_neg (not_not.mpr (hfree i (le_refl _) (by omega))), if_pos rfl, if_pos (by omega)]
      exact inject_scan_loop_tail m ent name i hfree r (i + 1) (by omega) (by omega)

/-- The directory scan when a live slot holds the new name. -/
theorem inject_scan_loop_dup (m : Mem) (ent : Nat) (name : List Nat) (u : Nat)
    (hlive : ∀ s, s < u → load_le m (ent + 64 * s + 0) 4 ≠ 0) (s : Nat) (hs : s < u)
    (hdup : strcmp_eq m (ent + 64 * s + 5) name = true) :
    ∀ r i fe ue, i + r = 64 → i ≤ s → u ≤ 64 →
      inject_scan_loop m ent name r i fe ue = .error .already_exists := by
  intro r
  induction r with
  | zero => intro i fe ue h1 h2 h3; omega
  | succ r ih =>
    intro i fe ue h1 h2 h3
    unfold inject_scan_loop
    rw [if_pos (hlive i (by omega))]
    by_cases hi : i = s
    · rw [hi, if_pos hdup]
    · split
      · rfl
      · exact ih _ _ _ (by omega) (by omega) h3

/-! ## File injector: a run on an image of the invariant shape -/

theorem bit_clear_congr (m m2 : Mem) (bitmap i : Nat) (h : m (bitmap + i / 8) = m2 (bitmap + i / 8)) :
    bit_clear m bitmap i ↔ bit_clear m2 bitmap i := by
  unfold bit_clear
  rw [h]

theorem Inv.drs_bounds {tb ic itb drs drb n d : Nat} {nm : Nat → List Nat} {e : Nat → Nat}
    {img : Image} (h : Inv tb ic itb drs drb n d nm e img) :
    7 ≤ drs ∧ drs ≤ 19 ∧ drb ≤ 1017 ∧ 4 ≤ itb := by
  have := h.drs_eq
  have := h.itb_hi
  have := h.itb_lo
  have := h.ic_lo
  have := h.tb_eq
  have := h.tb_hi
  omega

/-- On an image of the invariant shape the allocator finds inode bit `n + 1`. -/
theorem Inv.find_free_inode {tb ic itb drs drb n d : Nat} {nm : Nat → List Nat} {e : Nat → Nat}
    {img : Image} (h : Inv tb ic itb drs drb n d nm e img) :
    find_free_bit img.mem 4096 ic = ((n + 1 : Nat) : Int) := by
  have := h.ic_lo
  have := h.ic_hi
  have := h.n_hi
  exact find_free_bit_below img.mem 4096 (n + 1) ic
    (fun i hi => by rw [h.ibm i hi]; omega) (by omega) (by omega)

/-- Without room for the blocks of the file, the injection fails in the
allocation loop. -/
theorem inject_image_full {tb ic itb drs drb n d : Nat} {nm : Nat → List Nat} {e : Nat → Nat}
    {img : Image} (h : Inv tb ic itb drs drb n d nm e img) (f : AddFile)
    (hsz : f.st_size ≤ 12 * BS) (now : Nat) (hfit : drb < d + blocks_needed_of f.st_size) :
    inject_image f img now = .error .no_free_data_blocks := by
  have hk := blocks_needed_of_le f.st_size hsz
  have hb := h.drs_bounds
  have hne : ¬ (((n + 1 : Nat) : Int) = -1) := by omega
  have hfull := inject_alloc_loop_full 8192 drb (by omega) (by omega)
    (blocks_needed_of f.st_size) 0 img.mem (fun _ => 0) d h.sb_drb h.dbm h.d_hi hfit
  unfold inject_image
  dsimp only
  rw [h.sb_ibs, h.sb_dbs, h.sb_ic, blk_one, blk_two,
    h.find_free_inode, if_neg hne, if_neg (by omega), hfull]

/-- The buffer after the allocation and copy loops of a run with room for the
blocks of the file, and the outcome of the run in terms of it. -/
theorem inject_image_run {tb ic itb drs drb n d : Nat} {nm : Nat → List Nat} {e : Nat → Nat}
    {img : Image} (h : Inv tb ic itb drs drb n d nm e img) (f : AddFile) (hf : f.WF)
    (hlen : f.name.length ≤ 57) (hsz : f.st_size ≤ 12 * BS) (now : Nat)
    (hfit : d + blocks_needed_of f.st_size ≤ drb) :
    ∃ m2 : Mem,
      (∀ a, (a < 8192 ∨ 12288 ≤ a) →
        (a < (drs + d) * 4096 ∨ (drs + d + blocks_needed_of f.st_size) * 4096 ≤ a) →
        m2 a = img.mem a) ∧
      (∀ x, x < 32768 → (bit_clear m2 8192 x ↔ d + blocks_needed_of f.st_size ≤ x)) ∧
      (∀ j t, j < blocks_needed_of f.st_size → t < 4096 →
        m2 ((drs + d + j) * 4096 + t) = f.content.getD (j * 4096 + t) 0) ∧
      Mem.WF m2 ∧
      ((∃ s, s < n + 2 ∧ nm s = f.name) → inject_image f img now = .error .already_exists) ∧
      ((∀ s, s < n + 2 → nm s ≠ f.name) → n = 62 →
        inject_image f img now = .error .root_full) ∧
      ((∀ s, s < n + 2 → nm s ≠ f.name) → n < 62 →
        inject_image f img now = .ok
          { size := img.size
            mem := inject_result m2 drs n f now
              (fun j => if j < blocks_needed_of f.st_size then drs + d + j else 0) }) := by
  have hk := blocks_needed_of_le f.st_size hsz
  obtain ⟨hname, hcont, hst⟩ := hf
  have hb := h.drs_bounds
  have hnhi := h.n_hi
  have hdlo := h.d_lo
  have hne : ¬ (((n + 1 : Nat) : Int) = -1) := by omega
  obtain ⟨m1, db1, ha1, ha2, ha3, ha4, ha5⟩ := inject_alloc_loop_ok 8192 drs drb (by omega)
    (by omega) (by omega) (blocks_needed_of f.st_size) 0 img.mem (fun _ => 0) d h.sb_drs
    h.sb_drb h.dbm hfit
  have hdb1 : db1 = fun j => if j < blocks_needed_of f.st_size then drs + d + j else 0 := by
    funext j
    rw [ha4 j]
    by_cases hj : j < blocks_needed_of f.st_size
    · rw [if_pos (by omega), if_pos hj]
      omega
    · rw [if_neg (by omega), if_neg hj]
  subst hdb1
  obtain ⟨m2, hc1, hc2, hc3, hc4⟩ := inject_copy_loop_ok f.content hcont
    (blocks_needed_of f.st_size) (drs + d)
    (fun j => if j < blocks_needed_of f.st_size then drs + d + j else 0)
    (by rw [hst]) (by rw [← hst]; exact hsz) (fun j hj => if_pos hj) (by omega)
    (blocks_needed_of f.st_size) 0 0 m1 (by omega) (fun _ => by omega)
  rw [← hst] at hc1
  have hm2 : ∀ a, (a < 8192 ∨ 12288 ≤ a) →
      (a < (drs + d) * 4096 ∨ (drs + d + blocks_needed_of f.st_size) * 4096 ≤ a) →
      m2 a = img.mem a := by
    intro a h1 h2
    rw [hc2 a (by omega), ha2 a (by omega)]
  have hm2b : ∀ x, x < 32768 →
      (bit_clear m2 8192 x ↔ d + blocks_needed_of f.st_size ≤ x) := by
    intro x hx
    rw [bit_clear_congr m2 m1 8192 x (hc2 _ (by omega))]
    exact ha3 x hx
  have hwf2 : Mem.WF m2 := hc4 (ha5 h.wf)
  -- the buffer at the directory scan
  have hM4 : ∀ a, 12288 ≤ a → (a < 12288 + 128 * (n + 1) ∨ 12288 + 128 * (n + 1) + 128 ≤ a) →
      (a < (drs + d) * 4096 ∨ (drs + d + blocks_needed_of f.st_size) * 4096 ≤ a) →
      set_bit (inject_new_inode m2 (12288 + 128 * (n + 1)) f.st_size now
        (fun j => if j < blocks_needed_of f.st_size then drs + d + j else 0)
        (blocks_needed_of f.st_size)) 4096 ((n + 1 : Nat) : Int) a = img.mem a := by
    intro a h1 h2 h3
    rw [set_bit_out _ _ _ _ (by omega), inject_new_inode_out _ _ _ _ _ _ _ (by omega) h2,
      hm2 a (by omega) h3]
  have hroot : load_le (set_bit (inject_new_inode m2 (12288 + 128 * (n + 1)) f.st_size now
        (fun j => if j < blocks_needed_of f.st_size then drs + d + j else 0)
        (blocks_needed_of f.st_size)) 4096 ((n + 1 : Nat) : Int)) (12288 + 44) 4 = drs := by
    rw [load_le_frame _ img.mem _ _ (fun a h1 h2 => hM4 a (by omega) (by omega) (by omega))]
    have := h.direct 0 0 (by omega) (by omega)
    rw [h.e_zero, h.e_one] at this
    exact this
  have hload : ∀ s, s < 64 →
      load_le (set_bit (inject_new_inode m2 (12288 + 128 * (n + 1)) f.st_size now
        (fun j => if j < blocks_needed_of f.st_size then drs + d + j else 0)
        (blocks_needed_of f.st_size)) 4096 ((n + 1 : Nat) : Int)) (drs * 4096 + 64 * s + 0) 4 =
      load_le img.mem (drs * 4096 + 64 * s + 0) 4 := fun s hs =>
    load_le_frame _ img.mem _ _ (fun a h1 h2 => hM4 a (by omega) (by omega) (by omega))
  have hlive : ∀ s, s < n + 2 →
      load_le (set_bit (inject_new_inode m2 (12288 + 128 * (n + 1)) f.st_size now
        (fun j => if j < blocks_needed_of f.st_size then drs + d + j else 0)
        (blocks_needed_of f.st_size)) 4096 ((n + 1 : Nat) : Int)) (drs * 4096 + 64 * s + 0) 4
        ≠ 0 := by
    intro s hs
    rw [hload s (by omega), h.ent_ino s hs]
    split <;> omega
  have hfree : ∀ s, n + 2 ≤ s → s < 64 →
      load_le (set_bit (inject_new_inode m2 (12288 + 128 * (n + 1)) f.st_size now
        (fun j => if j < blocks_needed_of f.st_size then drs + d + j else 0)
        (blocks_needed_of f.st_size)) 4096 ((n + 1 : Nat) : Int)) (drs * 4096 + 64 * s + 0) 4
        = 0 := by
    intro s hs1 hs2
    rw [hload s hs2, h.ent_free s hs1 hs2]
  have hcmp : ∀ s, s < n + 2 →
      (strcmp_eq (set_bit (inject_new_inode m2 (12288 + 128 * (n + 1)) f.st_size now
        (fun j => if j < blocks_needed_of f.st_size then drs + d + j else 0)
        (blocks_needed_of f.st_size)) 4096 ((n + 1 : Nat) : Int)) (drs * 4096 + 64 * s + 5)
        f.name = true ↔ nm s = f.name) := by
    intro s hs
    apply strcmp_eq_name_field _ _ _ _ _ (h.nm_len s hs) (fun c hc => h.nm_pos s c hs hc) hlen
      (fun c hc => (hname c hc).1)
    intro t ht
    rw [hM4 _ (by omega) (by omega) (by omega)]
    exact h.ent_name s t hs ht
  have hhead : ∀ r : Except InjectError Image,
      (match inject_scan_loop (set_bit (inject_new_inode m2 (12288 + 128 * (n + 1)) f.st_size now
          (fun j => if j < blocks_needed_of f.st_size then drs + d + j else 0)
          (blocks_needed_of f.st_size)) 4096 ((n + 1 : Nat) : Int)) (drs * 4096) f.name 64 0
          (-1) 0 with
        | .error e => .error e
        | .ok (free_entry, used_entries) =>
          if free_entry = -1 then .error .root_full
          else
            .ok { size := img.size
                  mem := inject_write_entry
                    (set_bit (inject_new_inode m2 (12288 + 128 * (n + 1)) f.st_size now
                      (fun j => if j < blocks_needed_of f.st_size then drs + d + j else 0)
                      (blocks_needed_of f.st_size)) 4096 ((n + 1 : Nat) : Int))
                    12288 (12288 + 128 * (n + 1))
                    (drs * 4096 + 64 * free_entry.toNat) ((n + 1 : Nat) : Int) used_entries
                    f.name now }) = r →
      inject_image f img now = r := by
    intro r hr
    unfold inject_image
    dsimp only
    rw [h.sb_ibs, h.sb_dbs, h.sb_its, h.sb_ic, blk_one, blk_two, blk_three,
      h.find_free_inode, if_neg hne, if_neg (by omega), ha1]
    dsimp only
    rw [hc1]
    dsimp only
    rw [Int.toNat_ofNat, hroot,
      show drs * BS % 2 ^ 32 = drs * 4096 from by unfold BS; omega]
    exact hr
  refine ⟨m2, hm2, hm2b, fun j t hj ht => hc3 j t (by omega) hj ht, hwf2, ?_, ?_, ?_⟩
  · rintro ⟨s, hs, hnm⟩
    apply hhead
    rw [inject_scan_loop_dup _ _ _ (n + 2) hlive s hs ((hcmp s hs).mpr hnm) 64 0 _ _
      (by omega) (by omega) (by omega)]
  · intro hno hn
    apply hhead
    have hscan := inject_scan_loop_ok _ (drs * 4096) f.name (n + 2) (by omega) hlive hfree
      (fun s hs => by
        have := hcmp s hs
        have := hno s hs
        cases hq : strcmp_eq _ (drs * 4096 + 64 * s + 5) f.name
        · rfl
        · exact absurd ((hcmp s hs).mp hq) (hno s hs)) 64 0 (by omega) (by omega)
    rw [Nat.cast_zero] at hscan
    rw [hscan]
    dsimp only
    rw [if_neg (show ¬ n + 2 < 64 by omega), if_pos rfl]
  · intro hno hn
    apply hhead
    have hscan := inject_scan_loop_ok _ (drs * 4096) f.name (n + 2) (by omega) hlive hfree
      (fun s hs => by
        cases hq : strcmp_eq _ (drs * 4096 + 64 * s + 5) f.name
        · rfl
        · exact absurd ((hcmp s hs).mp hq) (hno s hs)) 64 0 (by omega) (by omega)
    rw [Nat.cast_zero] at hscan
    rw [hscan]
    dsimp only
    rw [if_pos (show n + 2 < 64 by omega), if_neg (by omega), Int.toNat_ofNat]
    rfl

/-! ## File injector: the buffer written by a successful run -/

theorem inject_write_entry_out (m : Mem) (ri ni ne : Nat) (fi ue : Int) (name : List Nat)
    (now a : Nat) (h1 : a < ne ∨ ne + 64 ≤ a)
    (h2 : a < ri + 12 ∨ (ri + 20 ≤ a ∧ a < ri + 28) ∨ (ri + 36 ≤ a ∧ a < ri + 120) ∨
      ri + 128 ≤ a)
    (h3 : a < ni + 120 ∨ ni + 128 ≤ a) (h4 : a < 112 ∨ 116 ≤ a) :
    inject_write_entry m ri ni ne fi ue name now a = m a := by
  unfold inject_write_entry
  rw [superblock_crc_finalize_out _ _ _ (by omega), inode_crc_finalize_out _ _ _ (by omega),
    inode_crc_finalize_out _ _ _ (by omega), dirent_checksum_finalize_out _ _ _ (by omega),
    store_le_out _ _ _ _ _ (by omega), store_le_out _ _ _ _ _ (by omega),
    inject_new_entry_out _ _ _ _ _ (by omega)]

theorem inject_write_entry_WF (m : Mem) (hm : Mem.WF m) (ri ni ne : Nat) (fi ue : Int)
    (name : List Nat) (hn : ∀ c, c ∈ name → c < 256) (now : Nat) :
    Mem.WF (inject_write_entry m ri ni ne fi ue name now) := by
  unfold inject_write_entry
  dsimp only
  rw [superblock_crc_finalize_fst, inode_crc_finalize_eq, inode_crc_finalize_eq]
  unfold dirent_checksum_finalize
  iterate 6 apply store_le_WF
  exact inject_new_entry_WF m hm ne fi name hn

/-- Outside the checksum byte the new directory entry is as `inject_new_entry`
wrote it. -/
theorem inject_write_entry_entry (m : Mem) (ri ni ne : Nat) (fi ue : Int) (name : List Nat)
    (now a : Nat) (ha1 : ne ≤ a) (ha2 : a < ne + 63)
    (h2 : ne + 63 ≤ ri ∨ ri + 128 ≤ ne) (h3 : ne + 63 ≤ ni ∨ ni + 128 ≤ ne) (h4 : 116 ≤ ne) :
    inject_write_entry m ri ni ne fi ue name now a = inject_new_entry m ne fi name a := by
  unfold inject_write_entry
  rw [superblock_crc_finalize_out _ _ _ (by omega), inode_crc_finalize_out _ _ _ (by omega),
    inode_crc_finalize_out _ _ _ (by omega), dirent_checksum_finalize_out _ _ _ (by omega),
    store_le_out _ _ _ _ _ (by omega), store_le_out _ _ _ _ _ (by omega)]

/-- The root inode's size after the run. -/
theorem inject_write_entry_root_size (m : Mem) (ri ni ne : Nat) (fi ue : Int) (name : List Nat)
    (now : Nat) (h2 : ne + 64 ≤ ri ∨ ri + 128 ≤ ne) (h3 : ri + 128 ≤ ni ∨ ni + 128 ≤ ri)
    (h4 : 116 ≤ ri) :
    load_le (inject_write_entry m ri ni ne fi ue name now) (ri + 12) 8 =
      ((ue + 1).toNat * 64) % 2 ^ 64 := by
  unfold inject_write_entry
  dsimp only
  rw [load_le_superblock_crc_finalize_disj _ _ _ _ (by omega),
    load_le_inode_crc_finalize_disj _ _ _ _ (by omega),
    load_le_inode_crc_finalize_disj _ _ _ _ (by omega),
    load_le_dirent_checksum_finalize_disj _ _ _ _ (by omega),
    load_le_store_le_disj _ _ _ _ _ _ (by omega), load_le_store_le]

/-- The root inode's mtime after the run. -/
theorem inject_write_entry_root_mtime (m : Mem) (ri ni ne : Nat) (fi ue : Int)
    (name : List Nat) (now : Nat) (h2 : ne + 64 ≤ ri ∨ ri + 128 ≤ ne)
    (h3 : ri + 128 ≤ ni ∨ ni + 128 ≤ ri) (h4 : 116 ≤ ri) :
    load_le (inject_write_entry m ri ni ne fi ue name now) (ri + 28) 8 = now % 2 ^ 64 := by
  unfold inject_write_entry
  dsimp only
  rw [load_le_superblock_crc_finalize_disj _ _ _ _ (by omega),
    load_le_inode_crc_finalize_disj _ _ _ _ (by omega),
    load_le_inode_crc_finalize_disj _ _ _ _ (by omega),
    load_le_dirent_checksum_finalize_disj _ _ _ _ (by omega), load_le_store_le]

/-- The superblock checksum after the run covers the block of the final
buffer with the checksum field zeroed. -/
theorem inject_write_entry_sb_sum (m : Mem) (ri ni ne : Nat) (fi ue : Int) (name : List Nat)
    (now : Nat) :
    (read_superblock (inject_write_entry m ri ni ne fi ue name now) 0).checksum =
      crc32 (store_le (inject_write_entry m ri ni ne fi ue name now) (0 + 112) 4 0) 0
        (BS - 4) := by
  unfold inject_write_entry
  dsimp only
  rw [superblock_checksum_read]
  apply congrArg (fun x => crc32 x 0 (BS - 4))
  rw [superblock_crc_finalize_fst, store_le_store_le]

theorem inject_result_out (m2 : Mem) (drs n : Nat) (f : AddFile) (now : Nat) (db : Nat → Nat)
    (hsz : f.st_size ≤ 12 * BS) (a : Nat) (h1 : a < 112 ∨ 116 ≤ a)
    (h2 : a ≠ 4096 + (n + 1) / 8)
    (h3 : a < 12288 + 12 ∨ (12288 + 20 ≤ a ∧ a < 12288 + 28) ∨
      (12288 + 36 ≤ a ∧ a < 12288 + 120) ∨ 12288 + 128 ≤ a)
    (h4 : a < 12288 + 128 * (n + 1) ∨ 12288 + 128 * (n + 1) + 128 ≤ a)
    (h5 : a < drs * 4096 + 64 * (n + 2) ∨ drs * 4096 + 64 * (n + 2) + 64 ≤ a) :
    inject_result m2 drs n f now db a = m2 a := by
  have hk := blocks_needed_of_le f.st_size hsz
  unfold inject_result
  rw [inject_write_entry_out _ _ _ _ _ _ _ _ _ h5 h3 (by omega) h1, set_bit_out _ _ _ _ h2,
    inject_new_inode_out _ _ _ _ _ _ _ (by omega) h4]

theorem inject_result_WF (m2 : Mem) (hm : Mem.WF m2) (drs n : Nat) (f : AddFile)
    (hf : f.WF) (now : Nat) (db : Nat → Nat) : Mem.WF (inject_result m2 drs n f now db) := by
  unfold inject_result
  exact inject_write_entry_WF _ (set_bit_WF _ (inject_new_inode_WF _ hm _ _ _ _ _) _ _) _ _ _ _ _
    _ (fun c hc => (hf.1 c hc).2) _

/-- The new directory entry: inode number `n + 2`, type 1 and the name padded
with NUL. -/
theorem inject_result_entry (m2 : Mem) (drs n : Nat) (f : AddFile) (now : Nat)
    (db : Nat → Nat) (hdrs : 7 ≤ drs) (hn : n ≤ 61) (hlen : f.name.length ≤ 57) :
    load_le (inject_result m2 drs n f now db) (drs * 4096 + 64 * (n + 2) + 0) 4 = n + 2 ∧
    inject_result m2 drs n f now db (drs * 4096 + 64 * (n + 2) + 4) = 1 ∧
    ∀ t, t < 58 →
      inject_result m2 drs n f now db (drs * 4096 + 64 * (n + 2) + 5 + t) = f.name.getD t 0 := by
  unfold inject_result
  refine ⟨?_, ?_, ?_⟩
  · rw [load_le_frame _ _ _ _ (fun a h1 h2 => inject_write_entry_entry _ _ _ _ _ _ _ _ a
      (by omega) (by omega) (by omega) (by omega) (by omega)), inject_new_entry_ino]
    omega
  · rw [inject_write_entry_entry _ _ _ _ _ _ _ _ _ (by omega) (by omega) (by omega) (by omega)
      (by omega), inject_new_entry_type]
  · intro t ht
    rw [inject_write_entry_entry _ _ _ _ _ _ _ _ _ (by omega) (by omega) (by omega) (by omega)
      (by omega), inject_new_entry_name _ _ _ _ _ ht hlen]

theorem inject_result_root_size (m2 : Mem) (drs n : Nat) (f : AddFile) (now : Nat)
    (db : Nat → Nat) (hn : n ≤ 61) :
    load_le (inject_result m2 drs n f now db) (12288 + 12) 8 = 64 * (n + 3) := by
  unfold inject_result
  rw [inject_write_entry_root_size _ _ _ _ _ _ _ _ (by omega) (by omega) (by omega)]
  omega

theorem inject_result_root_mtime (m2 : Mem) (drs n : Nat) (f : AddFile) (now : Nat)
    (db : Nat → Nat) (hn : n ≤ 61) :
    load_le (inject_result m2 drs n f now db) (12288 + 28) 8 = now % 2 ^ 64 := by
  unfold inject_result
  exact inject_write_entry_root_mtime _ _ _ _ _ _ _ _ (by omega) (by omega) (by omega)

theorem inject_result_direct (m2 : Mem) (drs n : Nat) (f : AddFile) (now : Nat)
    (db : Nat → Nat) (hdrs : 7 ≤ drs) (hn : n ≤ 61) (hsz : f.st_size ≤ 12 * BS) (t : Nat)
    (ht : t < 12) :
    load_le (inject_result m2 drs n f now db) (12288 + 128 * (n + 1) + 44 + 4 * t) 4 =
      if t < blocks_needed_of f.st_size then db t % 2 ^ 32 else 0 := by
  have hk := blocks_needed_of_le f.st_size hsz
  rw [load_le_frame _
    (inject_new_inode m2 (12288 + 128 * (n + 1)) f.st_size now db (blocks_needed_of f.st_size))
    _ _ (fun a h3 h4 => by
      unfold inject_result
      rw [inject_write_entry_out _ _ _ _ _ _ _ _ _ (by omega) (by omega) (by omega) (by omega),
        set_bit_out _ _ _ _ (by omega)]),
    inject_new_inode_direct _ _ _ _ _ _ _ ht]

/-- The inode bitmap after the run: bit `n + 1` is set, every other bit is as
in the buffer after the copy loop. -/
theorem inject_result_ibm (m2 : Mem) (drs n : Nat) (f : AddFile) (now : Nat)
    (db : Nat → Nat) (hdrs : 7 ≤ drs) (hn : n ≤ 61) (hsz : f.st_size ≤ 12 * BS) (i : Nat)
    (hi : i < 32768) :
    bit_clear (inject_result m2 drs n f now db) 4096 i ↔ (i ≠ n + 1 ∧ bit_clear m2 4096 i) := by
  have hk := blocks_needed_of_le f.st_size hsz
  rw [bit_clear_congr (inject_result m2 drs n f now db)
    (set_bit (inject_new_inode m2 (12288 + 128 * (n + 1)) f.st_size now db
      (blocks_needed_of f.st_size)) 4096 ((n + 1 : Nat) : Int)) 4096 i (by
      unfold inject_result
      rw [inject_write_entry_out _ _ _ _ _ _ _ _ _ (by omega) (by omega) (by omega) (by omega)]),
    bit_clear_set_bit,
    bit_clear_congr (inject_new_inode m2 (12288 + 128 * (n + 1)) f.st_size now db
      (blocks_needed_of f.st_size)) m2 4096 i
      (inject_new_inode_out _ _ _ _ _ _ _ (by omega) (by omega))]

/-- The data bitmap is not written after the copy loop. -/
theorem inject_result_dbm (m2 : Mem) (drs n : Nat) (f : AddFile) (now : Nat)
    (db : Nat → Nat) (hdrs : 7 ≤ drs) (hn : n ≤ 61) (hsz : f.st_size ≤ 12 * BS) (i : Nat)
    (hi : i < 32768) :
    bit_clear (inject_result m2 drs n f now db) 8192 i ↔ bit_clear m2 8192 i :=
  bit_clear_congr _ _ _ _
    (inject_result_out m2 drs n f now db hsz _ (by omega) (by omega) (by omega) (by omega)
      (by omega))

/-! ## File injector: the invariant shape is preserved -/

theorem inject_result_sb_sum (m2 : Mem) (drs n : Nat) (f : AddFile) (now : Nat)
    (db : Nat → Nat) :
    (read_superblock (inject_result m2 drs n f now db) 0).checksum =
      crc32 (store_le (inject_result m2 drs n f now db) (0 + 112) 4 0) 0 (BS - 4) := by
  unfold inject_result
  exact inject_write_entry_sb_sum _ _ _ _ _ _ _ _

/-- The superblock fields other than the checksum are those of the input. -/
theorem inject_result_superblock (m2 : Mem) (drs n : Nat) (f : AddFile) (now : Nat)
    (db : Nat → Nat) (hdrs : 7 ≤ drs) (hsz : f.st_size ≤ 12 * BS) (m : Mem)
    (hm2 : ∀ a, a < 112 → m2 a = m a) :
    read_superblock (inject_result m2 drs n f now db) 0 =
      { read_superblock m 0 with
        checksum := (read_superblock (inject_result m2 drs n f now db) 0).checksum } :=
  read_superblock_congr _ _ (fun addr k hk => load_le_frame _ _ _ _ (fun a h1 h2 => by
    rw [inject_result_out m2 drs n f now db hsz a (by omega) (by omega) (by omega) (by omega)
      (by omega), hm2 a (by omega)]))

/-- A successful run on an image that holds `n` files and `d` allocated data
blocks gives an image that holds `n + 1` files and `d + blocks_needed`
allocated data blocks. -/
theorem Inv.after_inject {tb ic itb drs drb n d : Nat} {nm : Nat → List Nat} {e : Nat → Nat}
    {img : Image} (h : Inv tb ic itb drs drb n d nm e img) (f : AddFile) (hf : f.WF)
    (hlen : f.name.length ≤ 57) (hsz : f.st_size ≤ 12 * BS) (now : Nat)
    (hfit : d + blocks_needed_of f.st_size ≤ drb)
    (hno : ∀ s, s < n + 2 → nm s ≠ f.name) (hn : n < 62) (m2 : Mem)
    (hm2 : ∀ a, (a < 8192 ∨ 12288 ≤ a) →
      (a < (drs + d) * 4096 ∨ (drs + d + blocks_needed_of f.st_size) * 4096 ≤ a) →
      m2 a = img.mem a)
    (hm2b : ∀ x, x < 32768 → (bit_clear m2 8192 x ↔ d + blocks_needed_of f.st_size ≤ x))
    (hwf2 : Mem.WF m2) :
    Inv tb ic itb drs drb (n + 1) (d + blocks_needed_of f.st_size)
      (fun s => if s = n + 2 then f.name else nm s)
      (fun j => if j = n + 2 then d + blocks_needed_of f.st_size else e j)
      { size := img.size
        mem := inject_result m2 drs n f now
          (fun j => if j < blocks_needed_of f.st_size then drs + d + j else 0) } := by
  have hk := blocks_needed_of_le f.st_size hsz
  have hb := h.drs_bounds
  have hdlo := h.d_lo
  have hetop := h.e_top
  have hR : ∀ a, (a < 112 ∨ 116 ≤ a) → (a < 4096 ∨ 12288 ≤ a) →
      (a < 12288 + 12 ∨ (12288 + 20 ≤ a ∧ a < 12288 + 28) ∨
        (12288 + 36 ≤ a ∧ a < 12288 + 120) ∨ 12288 + 128 ≤ a) →
      (a < 12288 + 128 * (n + 1) ∨ 12288 + 128 * (n + 1) + 128 ≤ a) →
      (a < drs * 4096 + 64 * (n + 2) ∨ drs * 4096 + 64 * (n + 2) + 64 ≤ a) →
      (a < (drs + d) * 4096 ∨ (drs + d + blocks_needed_of f.st_size) * 4096 ≤ a) →
      inject_result m2 drs n f now
        (fun j => if j < blocks_needed_of f.st_size then drs + d + j else 0) a = img.mem a := by
    intro a h1 h2 h3 h4 h5 h6
    rw [inject_result_out m2 drs n f now _ hsz a h1 (by omega) h3 h4 h5,
      hm2 a (by omega) h6]
  have hsb := inject_result_superblock m2 drs n f now
    (fun j => if j < blocks_needed_of f.st_size then drs + d + j else 0) (by omega) hsz img.mem
    (fun a ha => hm2 a (by omega) (by omega))
  have hibm : ∀ i, i < 32768 →
      (bit_clear (inject_result m2 drs n f now
        (fun j => if j < blocks_needed_of f.st_size then drs + d + j else 0)) 4096 i ↔
        n + 1 < i) := by
    intro i hi
    rw [inject_result_ibm m2 drs n f now _ (by omega) (by omega) hsz i hi,
      bit_clear_congr m2 img.mem 4096 i (hm2 _ (by omega) (by omega)), h.ibm i hi]
    omega
  have hdbm : ∀ i, i < 32768 →
      (bit_clear (inject_result m2 drs n f now
        (fun j => if j < blocks_needed_of f.st_size then drs + d + j else 0)) 8192 i ↔
        d + blocks_needed_of f.st_size ≤ i) := by
    intro i hi
    rw [inject_result_dbm m2 drs n f now _ (by omega) (by omega) hsz i hi]
    exact hm2b i hi
  have hstep : ∀ j, j ≤ n + 1 →
      (if j = n + 2 then d + blocks_needed_of f.st_size else e j) ≤
        (if j + 1 = n + 2 then d + blocks_needed_of f.st_size else e (j + 1)) ∧
      (if j + 1 = n + 2 then d + blocks_needed_of f.st_size else e (j + 1)) ≤
        (if j = n + 2 then d + blocks_needed_of f.st_size else e j) + 12 := by
    intro j hj
    rw [if_neg (show ¬ j = n + 2 by omega)]
    by_cases hjn : j = n + 1
    · rw [if_pos (show j + 1 = n + 2 by omega), hjn, hetop]
      omega
    · rw [if_neg (show ¬ j + 1 = n + 2 by omega)]
      exact h.e_step j (by omega)
  have hdirect : ∀ j t, j ≤ n + 1 → t < 12 →
      load_le (inject_result m2 drs n f now
        (fun j => if j < blocks_needed_of f.st_size then drs + d + j else 0))
        (12288 + 128 * j + 44 + 4 * t) 4 =
      if t < (if j + 1 = n + 2 then d + blocks_needed_of f.st_size else e (j + 1)) -
          (if j = n + 2 then d + blocks_needed_of f.st_size else e j)
        then drs + (if j = n + 2 then d + blocks_needed_of f.st_size else e j) + t else 0 := by
    intro j t hj ht
    rw [if_neg (show ¬ j = n + 2 by omega)]
    by_cases hjn : j = n + 1
    · rw [if_pos (show j + 1 = n + 2 by omega), hjn, hetop,
        inject_result_direct m2 drs n f now _ (by omega) (by omega) hsz t ht]
      by_cases htk : t < blocks_needed_of f.st_size
      · rw [if_pos htk, if_pos htk,
          if_pos (show t < d + blocks_needed_of f.st_size - d by omega)]
        omega
      · rw [if_neg htk, if_neg (show ¬ t < d + blocks_needed_of f.st_size - d by omega)]
    · rw [if_neg (show ¬ j + 1 = n + 2 by omega), ← h.direct j t (by omega) ht]
      exact load_le_frame _ _ _ _ (fun a h1 h2 =>
        hR a (by omega) (by omega) (by omega) (by omega) (by omega) (by omega))
  have hent : ∀ a, drs * 4096 ≤ a → a < drs * 4096 + 4096 →
      (a < drs * 4096 + 64 * (n + 2) ∨ drs * 4096 + 64 * (n + 2) + 64 ≤ a) →
      inject_result m2 drs n f now
        (fun j => if j < blocks_needed_of f.st_size then drs + d + j else 0) a = img.mem a :=
    fun a h1 h2 h3 => hR a (by omega) (by omega) (by omega) (by omega) h3 (by omega)
  have hnew := inject_result_entry m2 drs n f now
    (fun j => if j < blocks_needed_of f.st_size then drs + d + j else 0) (by omega) (by omega)
    hlen
  have hino : ∀ s, s < n + 1 + 2 →
      load_le (inject_result m2 drs n f now
        (fun j => if j < blocks_needed_of f.st_size then drs + d + j else 0))
        (drs * 4096 + 64 * s + 0) 4 = if s < 2 then 1 else s := by
    intro s hs
    by_cases hsn : s = n + 2
    · rw [hsn, hnew.1, if_neg (by omega)]
    · rw [← h.ent_ino s (by omega)]
      exact load_le_frame _ _ _ _ (fun a h1 h2 => hent a (by omega) (by omega) (by omega))
  have htype : ∀ s, s < n + 1 + 2 →
      inject_result m2 drs n f now
        (fun j => if j < blocks_needed_of f.st_size then drs + d + j else 0)
        (drs * 4096 + 64 * s + 4) = if s < 2 then 2 else 1 := by
    intro s hs
    by_cases hsn : s = n + 2
    · rw [hsn, hnew.2.1, if_neg (by omega)]
    · rw [← h.ent_type s (by omega)]
      exact hent _ (by omega) (by omega) (by omega)
  have hnamef : ∀ s t, s < n + 1 + 2 → t < 58 →
      inject_result m2 drs n f now
        (fun j => if j < blocks_needed_of f.st_size then drs + d + j else 0)
        (drs * 4096 + 64 * s + 5 + t) = (if s = n + 2 then f.name else nm s).getD t 0 := by
    intro s t hs ht
    by_cases hsn : s = n + 2
    · rw [if_pos hsn, hsn, hnew.2.2 t ht]
    · rw [if_neg hsn, ← h.ent_name s t (by omega) ht]
      exact hent _ (by omega) (by omega) (by omega)
  have hfree : ∀ s, n + 1 + 2 ≤ s → s < 64 →
      load_le (inject_result m2 drs n f now
        (fun j => if j < blocks_needed_of f.st_size then drs + d + j else 0))
        (drs * 4096 + 64 * s + 0) 4 = 0 := by
    intro s hs1 hs2
    exact (load_le_frame _ _ _ _ (fun a h1 h2 =>
      hent a (by omega) (by omega) (by omega))).trans (h.ent_free s (by omega) hs2)
  exact
    { ic_lo := h.ic_lo
      ic_hi := h.ic_hi
      drs_eq := h.drs_eq
      itb_lo := h.itb_lo
      itb_hi := h.itb_hi
      drb_lo := h.drb_lo
      tb_eq := h.tb_eq
      tb_hi := h.tb_hi
      size_eq := h.size_eq
      wf := inject_result_WF m2 hwf2 drs n f hf now _
      sb_magic := (congrArg Superblock.magic hsb).trans h.sb_magic
      sb_tb := (congrArg Superblock.total_blocks hsb).trans h.sb_tb
      sb_ic := (congrArg Superblock.inode_count hsb).trans h.sb_ic
      sb_ibs := (congrArg Superblock.inode_bitmap_start hsb).trans h.sb_ibs
      sb_dbs := (congrArg Superblock.data_bitmap_start hsb).trans h.sb_dbs
      sb_its := (congrArg Superblock.inode_table_start hsb).trans h.sb_its
      sb_itb := (congrArg Superblock.inode_table_blocks hsb).trans h.sb_itb
      sb_drs := (congrArg Superblock.data_region_start hsb).trans h.sb_drs
      sb_drb := (congrArg Superblock.data_region_blocks hsb).trans h.sb_drb
      sb_sum := inject_result_sb_sum m2 drs n f now _
      n_hi := by omega
      d_lo := by omega
      d_hi := hfit
      ibm := hibm
      dbm := hdbm
      e_zero := by rw [if_neg (by omega)]; exact h.e_zero
      e_one := by rw [if_neg (by omega)]; exact h.e_one
      e_step := hstep
      e_top := if_pos rfl
      direct := hdirect
      root_size := inject_result_root_size m2 drs n f now _ (by omega)
      ent_ino := hino
      ent_type := htype
      ent_name := hnamef
      ent_free := hfree
      nm_len := fun s hs => by
        by_cases hsn : s = n + 2
        · rw [if_pos hsn]; exact hlen
        · rw [if_neg hsn]; exact h.nm_len s (by omega)
      nm_pos := fun s c hs hc => by
        by_cases hsn : s = n + 2
        · rw [if_pos hsn] at hc; exact (hf.1 c hc).1
        · rw [if_neg hsn] at hc; exact h.nm_pos s c (by omega) hc
      nm_inj := fun s s2 hs hs2 heq => by
        by_cases hsn : s = n + 2
        · by_cases hsn2 : s2 = n + 2
          · omega
          · rw [if_pos hsn, if_neg hsn2] at heq
            exact absurd heq.symm (hno s2 (by omega))
        · by_cases hsn2 : s2 = n + 2
          · rw [if_neg hsn, if_pos hsn2] at heq
            exact absurd heq (hno s (by omega))
          · rw [if_neg hsn, if_neg hsn2] at heq
            exact h.nm_inj s s2 (by omega) (by omega) heq
      nm_dot := by rw [if_neg (by omega)]; exact h.nm_dot
      nm_dotdot := by rw [if_neg (by omega)]; exact h.nm_dotdot }

/-! ## The formatted image has the invariant shape -/

theorem or_byte_WF (m : Mem) (hm : Mem.WF m) (a v : Nat) : Mem.WF (or_byte m a v) := by
  intro x
  unfold or_byte
  split
  · exact Nat.mod_lt _ (by decide)
  · exact hm x

theorem write_bytes_WF (m : Mem) (hm : Mem.WF m) (dst : Nat) (bs : List Nat)
    (hbs : ∀ b, b ∈ bs → b < 256) : Mem.WF (write_bytes m dst bs) := by
  intro x
  unfold write_bytes
  split
  · exact getD_lt_of_bytes bs hbs _
  · exact hm x

theorem format_superblock_WF (m : Mem) (hm : Mem.WF m) (L : Layout) (now : Nat) :
    Mem.WF (format_superblock m L now) := by
  unfold format_superblock
  iterate 16 apply store_le_WF
  exact hm

theorem format_clear_direct_WF (ri : Nat) :
    ∀ k i (m : Mem), Mem.WF m → Mem.WF (format_clear_direct m ri i k) := by
  intro k
  induction k with
  | zero => intro i m hm; exact hm
  | succ k ih =>
    intro i m hm
    unfold format_clear_direct
    exact ih _ _ (store_le_WF m hm _ _ _)

theorem format_root_inode_WF (m : Mem) (hm : Mem.WF m) (ri : Nat) (L : Layout) (now : Nat) :
    Mem.WF (format_root_inode m ri L now) := by
  unfold format_root_inode
  iterate 6 apply store_le_WF
  apply format_clear_direct_WF
  iterate 9 apply store_le_WF
  exact hm

theorem format_dirent_WF (m : Mem) (hm : Mem.WF m) (de : Nat) (name : List Nat)
    (hn : ∀ c, c ∈ name → c < 256) : Mem.WF (format_dirent m de name) := by
  unfold format_dirent strcpy
  apply write_bytes_WF
  · exact memset_WF _ (store_le_WF _ (store_le_WF m hm _ _ _) _ _ _) _ _ _
  · intro b hb
    rcases List.mem_append.mp hb with h | h
    · exact hn b h
    · rw [List.mem_singleton.mp h]
      decide

theorem dirent_checksum_finalize_WF (m : Mem) (hm : Mem.WF m) (de : Nat) :
    Mem.WF (dirent_checksum_finalize m de) := by
  unfold dirent_checksum_finalize
  exact store_le_WF m hm _ _ _

theorem inode_crc_finalize_WF (m : Mem) (hm : Mem.WF m) (ino : Nat) :
    Mem.WF (inode_crc_finalize m ino) := by
  rw [inode_crc_finalize_eq]
  exact store_le_WF m hm _ _ _

theorem superblock_crc_finalize_WF (m : Mem) (hm : Mem.WF m) (sb : Nat) :
    Mem.WF (superblock_crc_finalize m sb).1 := by
  rw [superblock_crc_finalize_fst]
  exact store_le_WF m hm _ _ _

theorem format_image_WF (tb ic itb drs drb now : Nat) (h5 : drs < 2 ^ 32) :
    Mem.WF (format_image ⟨tb, ic, 1, 2, 3, itb, drs, drb⟩ now).mem := by
  rw [format_image_mem tb ic itb drs drb now h5]
  apply superblock_crc_finalize_WF
  apply inode_crc_finalize_WF
  apply dirent_checksum_finalize_WF
  apply dirent_checksum_finalize_WF
  apply format_dirent_WF _ _ _ _ (by decide)
  apply format_dirent_WF _ _ _ _ (by decide)
  apply format_root_inode_WF
  apply or_byte_WF
  apply or_byte_WF
  apply format_superblock_WF
  intro x
  exact (by decide : (0 : Nat) < 256)

/-- The stored superblock checksum is the CRC of the block with the checksum
field zeroed. -/
theorem superblock_crc_finalize_sum (m : Mem) :
    (read_superblock (superblock_crc_finalize m 0).1 0).checksum =
      crc32 (store_le (superblock_crc_finalize m 0).1 (0 + 112) 4 0) 0 (BS - 4) := by
  rw [superblock_checksum_read]
  apply congrArg (fun x => crc32 x 0 (BS - 4))
  rw [superblock_crc_finalize_fst, store_le_store_le]

theorem list_map_range_getD (g : Nat → Nat) (n t : Nat) (ht : t < n) :
    ((List.range n).map g).getD t 0 = g t := by
  rw [List.getD_eq_getElem?_getD, List.getElem?_map, List.getElem?_range ht]
  rfl

theorem getD_cons_replicate_zero (l : List Nat) (k t : Nat) :
    (l ++ List.replicate k 0).getD t 0 = l.getD t 0 := by
  rw [List.getD_eq_getElem?_getD, List.getD_eq_getElem?_getD]
  by_cases h : t < l.length
  · rw [List.getElem?_append_left h]
  · rw [List.getElem?_append_right (by omega), List.getElem?_replicate,
      List.getElem?_eq_none (by omega)]
    split <;> rfl

theorem read_inode_size_bytes (m : Mem) (ino : Nat) :
    (read_inode m ino).size_bytes = load_le m (ino + 12) 8 := rfl

theorem load_le_one (m : Mem) (addr : Nat) : load_le m addr 1 = m addr := by
  unfold load_le load_le
  omega

/-- The image written by format has the invariant shape with no file and one
allocated data block. -/
theorem format_image_Inv (tb ic itb drs drb now : Nat) (hic1 : 128 ≤ ic) (hic2 : ic ≤ 512)
    (hdrs : drs = 3 + itb) (hitb1 : ic ≤ 32 * itb) (hitb2 : itb ≤ 16) (hdrb : 26 ≤ drb)
    (htb : tb = drs + drb) (htb2 : tb ≤ 1024) (hnow : now < 2 ^ 64) :
    Inv tb ic itb drs drb 0 1 (fun s => if s = 0 then [46] else [46, 46]) (fun j => j)
      (format_image ⟨tb, ic, 1, 2, 3, itb, drs, drb⟩ now) := by
  have h4 : 4 ≤ drs := by omega
  have h5 : drs < 2 ^ 32 := by omega
  have hsb := read_superblock_format_image tb ic itb drs drb now (by omega) (by omega) (by omega)
    h4 h5 (by omega) hnow
  have hino := read_inode_format_image tb ic itb drs drb now h4 h5 hnow
  have hde := read_dirent_format_image tb ic itb drs drb now h4 h5
  have hbyte := format_image_bitmap_byte tb ic itb drs drb now h4 h5
  have hzero := fun a => format_image_zero tb ic itb drs drb now a h4 h5
  have hsum : (read_superblock (format_image ⟨tb, ic, 1, 2, 3, itb, drs, drb⟩ now).mem 0).checksum
      = crc32 (store_le (format_image ⟨tb, ic, 1, 2, 3, itb, drs, drb⟩ now).mem (0 + 112) 4 0) 0
        (BS - 4) := by
    rw [format_image_mem tb ic itb drs drb now h5]
    exact superblock_crc_finalize_sum _
  have hibm : ∀ i, i < 32768 →
      (bit_clear (format_image ⟨tb, ic, 1, 2, 3, itb, drs, drb⟩ now).mem 4096 i ↔ 0 < i) := by
    intro i hi
    have := only_bit_zero_set _ 4096 hbyte.1
      (fun k h1 h2 => hzero (4096 + k) (by omega) (by omega) (by omega) (by omega) (by omega))
      i (by omega)
    by_cases hc : bit_clear (format_image ⟨tb, ic, 1, 2, 3, itb, drs, drb⟩ now).mem 4096 i
    · have h0 : ¬ i = 0 := fun h0 => (this.mpr h0) hc
      exact ⟨fun _ => by omega, fun _ => hc⟩
    · have h0 := this.mp hc
      exact ⟨fun h => absurd h hc, fun h => by omega⟩
  have hdbm : ∀ i, i < 32768 →
      (bit_clear (format_image ⟨tb, ic, 1, 2, 3, itb, drs, drb⟩ now).mem 8192 i ↔ 1 ≤ i) := by
    intro i hi
    have := only_bit_zero_set _ 8192 hbyte.2
      (fun k h1 h2 => hzero (8192 + k) (by omega) (by omega) (by omega) (by omega) (by omega))
      i (by omega)
    by_cases hc : bit_clear (format_image ⟨tb, ic, 1, 2, 3, itb, drs, drb⟩ now).mem 8192 i
    · have h0 : ¬ i = 0 := fun h0 => (this.mpr h0) hc
      exact ⟨fun _ => by omega, fun _ => hc⟩
    · have h0 := this.mp hc
      exact ⟨fun h => absurd h hc, fun h => by omega⟩
  have hd : (List.range 12).map
      (fun i => load_le (format_image ⟨tb, ic, 1, 2, 3, itb, drs, drb⟩ now).mem
        (12288 + 44 + 4 * i) 4) = [drs, 0, 0, 0, 0, 0, 0, 0, 0, 0, 0, 0] :=
    congrArg Inode.direct hino
  have hsize : load_le (format_image ⟨tb, ic, 1, 2, 3, itb, drs, drb⟩ now).mem (12288 + 12) 8
      = 128 := by
    rw [← read_inode_size_bytes, hino]
  have hdirect : ∀ j t, j ≤ 0 → t < 12 →
      load_le (format_image ⟨tb, ic, 1, 2, 3, itb, drs, drb⟩ now).mem
        (12288 + 128 * j + 44 + 4 * t) 4 = if t < j + 1 - j then drs + j + t else 0 := by
    intro j t hj ht
    have hj0 : j = 0 := by omega
    subst hj0
    have := congrArg (fun l => l.getD t 0) hd
    dsimp only at this
    rw [list_map_range_getD _ _ _ ht] at this
    rw [show 12288 + 128 * 0 + 44 + 4 * t = 12288 + 44 + 4 * t from by omega, this]
    interval_cases t <;> rfl
  have hino0 : load_le (format_image ⟨tb, ic, 1, 2, 3, itb, drs, drb⟩ now).mem
      (drs * 4096 + 0) 4 = 1 := congrArg Dirent.inode_no hde.1
  have hino1 : load_le (format_image ⟨tb, ic, 1, 2, 3, itb, drs, drb⟩ now).mem
      (drs * 4096 + 64 + 0) 4 = 1 := congrArg Dirent.inode_no hde.2
  have hty0 : load_le (format_image ⟨tb, ic, 1, 2, 3, itb, drs, drb⟩ now).mem
      (drs * 4096 + 4) 1 = 2 := congrArg Dirent.type hde.1
  have hty1 : load_le (format_image ⟨tb, ic, 1, 2, 3, itb, drs, drb⟩ now).mem
      (drs * 4096 + 64 + 4) 1 = 2 := congrArg Dirent.type hde.2
  have hnm0 : (List.range 58).map
      (fun i => (format_image ⟨tb, ic, 1, 2, 3, itb, drs, drb⟩ now).mem (drs * 4096 + 5 + i)) =
      [46] ++ List.replicate 57 0 := congrArg Dirent.name hde.1
  have hnm1 : (List.range 58).map
      (fun i => (format_image ⟨tb, ic, 1, 2, 3, itb, drs, drb⟩ now).mem
        (drs * 4096 + 64 + 5 + i)) =
      [46, 46] ++ List.replicate 56 0 := congrArg Dirent.name hde.2
  rw [load_le_one] at hty0 hty1
  have hent_ino : ∀ s, s < 0 + 2 →
      load_le (format_image ⟨tb, ic, 1, 2, 3, itb, drs, drb⟩ now).mem
        (drs * 4096 + 64 * s + 0) 4 = if s < 2 then 1 else s := by
    intro s hs
    rw [if_pos (by omega)]
    by_cases h0 : s = 0
    · rw [h0, show drs * 4096 + 64 * 0 + 0 = drs * 4096 + 0 from by omega, hino0]
    · rw [show s = 1 from by omega, show drs * 4096 + 64 * 1 + 0 = drs * 4096 + 64 + 0 from by
        omega, hino1]
  have hent_type : ∀ s, s < 0 + 2 →
      (format_image ⟨tb, ic, 1, 2, 3, itb, drs, drb⟩ now).mem (drs * 4096 + 64 * s + 4) =
        if s < 2 then 2 else 1 := by
    intro s hs
    rw [if_pos (by omega)]
    by_cases h0 : s = 0
    · rw [h0, show drs * 4096 + 64 * 0 + 4 = drs * 4096 + 4 from by omega, hty0]
    · rw [show s = 1 from by omega, show drs * 4096 + 64 * 1 + 4 = drs * 4096 + 64 + 4 from by
        omega, hty1]
  have hent_name : ∀ s t, s < 0 + 2 → t < 58 →
      (format_image ⟨tb, ic, 1, 2, 3, itb, drs, drb⟩ now).mem (drs * 4096 + 64 * s + 5 + t) =
        (if s = 0 then [46] else [46, 46]).getD t 0 := by
    intro s t hs ht
    by_cases h0 : s = 0
    · have := congrArg (fun l => l.getD t 0) hnm0
      dsimp only at this
      rw [list_map_range_getD _ _ _ ht, getD_cons_replicate_zero] at this
      rw [if_pos h0, h0, show drs * 4096 + 64 * 0 + 5 + t = drs * 4096 + 5 + t from by omega,
        this]
    · have := congrArg (fun l => l.getD t 0) hnm1
      dsimp only at this
      rw [list_map_range_getD _ _ _ ht, getD_cons_replicate_zero] at this
      rw [if_neg h0, show s = 1 from by omega,
        show drs * 4096 + 64 * 1 + 5 + t = drs * 4096 + 64 + 5 + t from by omega, this]
  exact
    { ic_lo := hic1
      ic_hi := hic2
      drs_eq := hdrs
      itb_lo := hitb1
      itb_hi := hitb2
      drb_lo := hdrb
      tb_eq := htb
      tb_hi := htb2
      size_eq := by
        rw [format_image_size]
        unfold BS
        dsimp only
        omega
      wf := format_image_WF tb ic itb drs drb now h5
      sb_magic := congrArg Superblock.magic hsb
      sb_tb := congrArg Superblock.total_blocks hsb
      sb_ic := congrArg Superblock.inode_count hsb
      sb_ibs := congrArg Superblock.inode_bitmap_start hsb
      sb_dbs := congrArg Superblock.data_bitmap_start hsb
      sb_its := congrArg Superblock.inode_table_start hsb
      sb_itb := congrArg Superblock.inode_table_blocks hsb
      sb_drs := congrArg Superblock.data_region_start hsb
      sb_drb := congrArg Superblock.data_region_blocks hsb
      sb_sum := hsum
      n_hi := by omega
      d_lo := by omega
      d_hi := by omega
      ibm := hibm
      dbm := hdbm
      e_zero := rfl
      e_one := rfl
      e_step := fun j hj => by omega
      e_top := rfl
      direct := hdirect
      root_size := hsize
      ent_ino := hent_ino
      ent_type := hent_type
      ent_name := hent_name
      ent_free := fun s hs1 hs2 => load_le_zero _ _ _ (fun a h1 h2 =>
        hzero a (by omega) (by omega) (by omega) (by omega) (by omega))
      nm_len := fun s hs => by
        split <;> decide
      nm_pos := fun s c hs hc => by
        split at hc
        · rw [List.mem_singleton.mp hc]
          decide
        · rcases List.mem_cons.mp hc with h | h
          · rw [h]
            decide
          · rw [List.mem_singleton.mp h]
            decide
      nm_inj := fun s s2 hs hs2 heq => by
        by_cases h0 : s = 0
        · by_cases h1 : s2 = 0
          · omega
          · rw [if_pos h0, if_neg h1] at heq
            exact absurd heq (by decide)
        · by_cases h1 : s2 = 0
          · rw [if_neg h0, if_pos h1] at heq
            exact absurd heq (by decide)
          · omega
      nm_dot := rfl
      nm_dotdot := rfl }

/-! ## Reachable images have the invariant shape -/

theorem mkfs_builder_main_valid (size_kib inode_count now : Nat) (img : Image)
    (h : mkfs_builder_main size_kib inode_count now = .ok img) :
    180 ≤ size_kib ∧ size_kib ≤ 4096 ∧ size_kib % 4 = 0 ∧ 128 ≤ inode_count ∧
      inode_count ≤ 512 := by
  unfold mkfs_builder_main at h
  split at h
  · cases h
  · rename_i L hL
    exact format_layout_valid_of_ok size_kib inode_count L hL

/-- The image written by a successful format has the invariant shape, with
the layout computed from the arguments. -/
theorem mkfs_builder_main_Inv (size_kib inode_count now : Nat) (img : Image)
    (hnow : now < 2 ^ 64) (h : mkfs_builder_main size_kib inode_count now = .ok img) :
    Inv (size_kib / 4) inode_count ((inode_count * 128 + 4095) / 4096)
      (3 + (inode_count * 128 + 4095) / 4096)
      (size_kib / 4 - (3 + (inode_count * 128 + 4095) / 4096)) 0 1
      (fun s => if s = 0 then [46] else [46, 46]) (fun j => j) img := by
  obtain ⟨h1, h2, h3, h4, h5⟩ := mkfs_builder_main_valid size_kib inode_count now img h
  rw [mkfs_builder_main_ok size_kib inode_count now h1 h2 h3 h4 h5] at h
  rw [← Except.ok.inj h]
  exact format_image_Inv _ _ _ _ _ now h4 h5 rfl (by omega) (by omega) (by omega) (by omega)
    (by omega) hnow

/-- A run of the injector that succeeds on an image of the invariant shape
passed every check, and its output is `inject_result` of the buffer after the
copy loop. -/
theorem Inv.adder_ok {tb ic itb drs drb n d : Nat} {nm : Nat → List Nat} {e : Nat → Nat}
    {img : Image} (h : Inv tb ic itb drs drb n d nm e img) (f : AddFile) (hf : f.WF)
    (now : Nat) (img2 : Image) (hok : mkfs_adder_main f img now = .ok img2) :
    f.found = true ∧ f.regular = true ∧ f.name.length ≤ 57 ∧ f.st_size ≤ 12 * BS ∧
    d + blocks_needed_of f.st_size ≤ drb ∧ (∀ s, s < n + 2 → nm s ≠ f.name) ∧ n < 62 ∧
    ∃ m2 : Mem,
      (∀ a, (a < 8192 ∨ 12288 ≤ a) →
        (a < (drs + d) * 4096 ∨ (drs + d + blocks_needed_of f.st_size) * 4096 ≤ a) →
        m2 a = img.mem a) ∧
      (∀ x, x < 32768 → (bit_clear m2 8192 x ↔ d + blocks_needed_of f.st_size ≤ x)) ∧
      (∀ j t, j < blocks_needed_of f.st_size → t < 4096 →
        m2 ((drs + d + j) * 4096 + t) = f.content.getD (j * 4096 + t) 0) ∧
      Mem.WF m2 ∧
      img2 =
        { size := img.size
          mem := inject_result m2 drs n f now
            (fun j => if j < blocks_needed_of f.st_size then drs + d + j else 0) } := by
  unfold mkfs_adder_main at hok
  split at hok
  · cases hok
  rename_i h1
  split at hok
  · cases hok
  rename_i h2
  split at hok
  · cases hok
  rename_i h3
  split at hok
  · cases hok
  rename_i h4
  split at hok
  · cases hok
  have h1t : f.found = true := by
    cases hq : f.found
    · exact absurd hq h1
    · rfl
  have h2t : f.regular = true := by
    cases hq : f.regular
    · exact absurd hq h2
    · rfl
  have hlen : f.name.length ≤ 57 := by omega
  have hsz : f.st_size ≤ 12 * BS := by omega
  have hfit : d + blocks_needed_of f.st_size ≤ drb := by
    by_contra hc
    rw [inject_image_full h f hsz now (by omega)] at hok
    cases hok
  obtain ⟨m2, hm2, hm2b, hcont, hwf2, hdup, hfull, hrun⟩ :=
    inject_image_run h f hf hlen hsz now hfit
  have hno : ∀ s, s < n + 2 → nm s ≠ f.name := by
    intro s hs heq
    rw [hdup ⟨s, hs, heq⟩] at hok
    cases hok
  have hn : n < 62 := by
    by_contra hc
    have := h.n_hi
    rw [hfull hno (by omega)] at hok
    cases hok
  rw [hrun hno hn] at hok
  exact ⟨h1t, h2t, hlen, hsz, hfit, hno, hn, m2, hm2, hm2b, hcont, hwf2,
    (Except.ok.inj hok).symm⟩

/-- A run of the injector on an image of the invariant shape succeeds when
the file passes the checks, its blocks fit, its name is new and the directory
has a free slot. -/
theorem Inv.adder_succeeds {tb ic itb drs drb n d : Nat} {nm : Nat → List Nat} {e : Nat → Nat}
    {img : Image} (h : Inv tb ic itb drs drb n d nm e img) (f : AddFile) (hf : f.WF)
    (now : Nat) (h1 : f.found = true) (h2 : f.regular = true) (hlen : f.name.length ≤ 57)
    (hsz : f.st_size ≤ 12 * BS) (hfit : d + blocks_needed_of f.st_size ≤ drb)
    (hno : ∀ s, s < n + 2 → nm s ≠ f.name) (hn : n < 62) :
    ∃ m2 : Mem,
      (∀ a, (a < 8192 ∨ 12288 ≤ a) →
        (a < (drs + d) * 4096 ∨ (drs + d + blocks_needed_of f.st_size) * 4096 ≤ a) →
        m2 a = img.mem a) ∧
      (∀ x, x < 32768 → (bit_clear m2 8192 x ↔ d + blocks_needed_of f.st_size ≤ x)) ∧
      (∀ j t, j < blocks_needed_of f.st_size → t < 4096 →
        m2 ((drs + d + j) * 4096 + t) = f.content.getD (j * 4096 + t) 0) ∧
      Mem.WF m2 ∧
      mkfs_adder_main f img now = .ok
        { size := img.size
          mem := inject_result m2 drs n f now
            (fun j => if j < blocks_needed_of f.st_size then drs + d + j else 0) } := by
  obtain ⟨m2, hm2, hm2b, hcont, hwf2, _, _, hrun⟩ := inject_image_run h f hf hlen hsz now hfit
  refine ⟨m2, hm2, hm2b, hcont, hwf2, ?_⟩
  rw [mkfs_adder_main_of_checks f img now h1 h2 hlen hsz h.sb_magic]
  exact hrun hno hn

/-- The failures of a run on an image of the invariant shape, for a file that
passes the checks on the file itself: no room for the blocks, then a
duplicate name, then a full directory. -/
theorem Inv.adder_fails {tb ic itb drs drb n d : Nat} {nm : Nat → List Nat} {e : Nat → Nat}
    {img : Image} (h : Inv tb ic itb drs drb n d nm e img) (f : AddFile) (hf : f.WF)
    (now : Nat) (h1 : f.found = true) (h2 : f.regular = true) (hlen : f.name.length ≤ 57)
    (hsz : f.st_size ≤ 12 * BS) :
    (drb < d + blocks_needed_of f.st_size →
      mkfs_adder_main f img now = .error .no_free_data_blocks) ∧
    (d + blocks_needed_of f.st_size ≤ drb → (∃ s, s < n + 2 ∧ nm s = f.name) →
      mkfs_adder_main f img now = .error .already_exists) ∧
    (d + blocks_needed_of f.st_size ≤ drb → (∀ s, s < n + 2 → nm s ≠ f.name) → n = 62 →
      mkfs_adder_main f img now = .error .root_full) := by
  rw [mkfs_adder_main_of_checks f img now h1 h2 hlen hsz h.sb_magic]
  refine ⟨fun hfit => inject_image_full h f hsz now hfit, fun hfit hdup => ?_,
    fun hfit hno hn => ?_⟩
  · obtain ⟨m2, _, _, _, _, hd, _, _⟩ := inject_image_run h f hf hlen hsz now hfit
    exact hd hdup
  · obtain ⟨m2, _, _, _, _, _, hfull, _⟩ := inject_image_run h f hf hlen hsz now hfit
    exact hfull hno hn

/-- Every image reachable from format by successful injections has the
invariant shape. -/
theorem Reachable.inv {img : Image} (hr : Reachable img) :
    ∃ tb ic itb drs drb n d nm e, Inv tb ic itb drs drb n d nm e img := by
  induction hr with
  | format size_kib inode_count now img hnow hmk =>
    exact ⟨_, _, _, _, _, _, _, _, _, mkfs_builder_main_Inv size_kib inode_count now img hnow hmk⟩
  | inject f img img2 now _ hf hnow hadd ih =>
    obtain ⟨tb, ic, itb, drs, drb, n, d, nm, e, h⟩ := ih
    obtain ⟨_, _, hlen, hsz, hfit, hno, hn, m2, hm2, hm2b, _, hwf2, himg⟩ :=
      h.adder_ok f hf now img2 hadd
    rw [himg]
    exact ⟨_, _, _, _, _, _, _, _, _,
      h.after_inject f hf hlen hsz now hfit hno hn m2 hm2 hm2b hwf2⟩

/-! ## Helper lemmas for the injector claims -/

theorem load_le_inj (m m2 : Mem) (hm : Mem.WF m) (hm2 : Mem.WF m2) :
    ∀ n addr, load_le m addr n = load_le m2 addr n → ∀ j, j < n → m (addr + j) = m2 (addr + j) := by
  intro n
  induction n with
  | zero => intro addr _ j hj; omega
  | succ n ih =>
    intro addr h j hj
    unfold load_le at h
    have h1 := hm addr
    have h2 := hm2 addr
    have h0 : m addr = m2 addr := by omega
    have hrest : load_le m (addr + 1) n = load_le m2 (addr + 1) n := by omega
    cases j with
    | zero => exact h0
    | succ j =>
      have := ih (addr + 1) hrest j (by omega)
      rw [show addr + (j + 1) = addr + 1 + j from by omega]
      exact this

theorem read_superblock_checksum (m : Mem) :
    (read_superblock m 0).checksum = load_le m (0 + 112) 4 := rfl

/-- Block 0 of the image written by a successful run is byte-identical to
block 0 of the input: no field is written and the recomputed checksum is the
stored one. -/
theorem Inv.inject_block0 {tb ic itb drs drb n d : Nat} {nm : Nat → List Nat} {e : Nat → Nat}
    {img : Image} (h : Inv tb ic itb drs drb n d nm e img) (f : AddFile) (hf : f.WF)
    (hsz : f.st_size ≤ 12 * BS) (now : Nat) (db : Nat → Nat) (m2 : Mem)
    (hm2 : ∀ a, a < 4096 → m2 a = img.mem a) (hwf2 : Mem.WF m2) (a : Nat) (ha : a < 4096) :
    inject_result m2 drs n f now db a = img.mem a := by
  have hb := h.drs_bounds
  have hout : ∀ x, x < 4096 → (x < 112 ∨ 116 ≤ x) →
      inject_result m2 drs n f now db x = img.mem x := by
    intro x hx1 hx2
    rw [inject_result_out m2 drs n f now db hsz x hx2 (by omega) (by omega) (by omega)
      (by omega), hm2 x hx1]
  by_cases hc : a < 112 ∨ 116 ≤ a
  · exact hout a ha hc
  · have hsum : (read_superblock (inject_result m2 drs n f now db) 0).checksum =
        (read_superblock img.mem 0).checksum := by
      rw [inject_result_sb_sum, h.sb_sum]
      apply crc32_congr
      intro j hj
      have hj2 : j < 4092 := hj
      by_cases hin : 112 ≤ j ∧ j < 116
      · rw [store_le_in _ _ _ _ _ (by omega) (by omega),
          store_le_in _ _ _ _ _ (by omega) (by omega)]
      · rw [store_le_out _ _ _ _ _ (by omega), store_le_out _ _ _ _ _ (by omega),
          Nat.zero_add]
        exact hout j (by omega) (by omega)
    rw [read_superblock_checksum, read_superblock_checksum] at hsum
    have := load_le_inj _ _ (inject_result_WF m2 hwf2 drs n f hf now db) h.wf 4 (0 + 112) hsum
      (a - 112) (by omega)
    rw [show 0 + 112 + (a - 112) = a from by omega] at this
    exact this

theorem Inv.e_mono {tb ic itb drs drb n d : Nat} {nm : Nat → List Nat} {e : Nat → Nat}
    {img : Image} (h : Inv tb ic itb drs drb n d nm e img) :
    ∀ k q, q + k ≤ n + 1 → e q ≤ e (q + k) := by
  intro k
  induction k with
  | zero => intro q _; exact le_refl _
  | succ k ih =>
    intro q hq
    have h1 := ih q (by omega)
    have h2 := (h.e_step (q + k) (by omega)).1
    rw [show q + (k + 1) = q + k + 1 from by omega]
    omega

theorem Inv.e_le {tb ic itb drs drb n d : Nat} {nm : Nat → List Nat} {e : Nat → Nat}
    {img : Image} (h : Inv tb ic itb drs drb n d nm e img) (q q2 : Nat) (h1 : q ≤ q2)
    (h2 : q2 ≤ n + 1) : e q ≤ e q2 := by
  have := h.e_mono (q2 - q) q (by omega)
  rw [show q + (q2 - q) = q2 from by omega] at this
  exact this

/-- Every allocated data bit lies in the range of exactly one inode slot. -/
theorem Inv.e_cover {tb ic itb drs drb n d : Nat} {nm : Nat → List Nat} {e : Nat → Nat}
    {img : Image} (h : Inv tb ic itb drs drb n d nm e img) (j : Nat) :
    ∀ k, k ≤ n + 1 → j < e k → ∃ q, q < k ∧ e q ≤ j ∧ j < e (q + 1) := by
  intro k
  induction k with
  | zero =>
    intro _ hj
    rw [h.e_zero] at hj
    omega
  | succ k ih =>
    intro hk hj
    by_cases hlt : j < e k
    · obtain ⟨q, hq1, hq2, hq3⟩ := ih (by omega) hlt
      exact ⟨q, by omega, hq2, hq3⟩
    · exact ⟨k, by omega, by omega, hj⟩

theorem free_count_below (m : Mem) (bitmap d : Nat)
    (h : ∀ i, i < 32768 → (bit_clear m bitmap i ↔ d ≤ i)) :
    ∀ n, n ≤ 32768 → free_count m bitmap n = n - d := by
  intro n
  induction n with
  | zero =>
    intro _
    unfold free_count
    omega
  | succ n ih =>
    intro hn
    unfold free_count
    rw [ih (by omega)]
    by_cases hd : d ≤ n
    · rw [if_pos ((h n (by omega)).mpr hd)]
      omega
    · rw [if_neg (fun hc => hd ((h n (by omega)).mp hc))]
      omega

theorem replicate_bytes (k b : Nat) (hb : b < 256) : ∀ x, x ∈ List.replicate k b → x < 256 := by
  intro x hx
  rw [List.eq_of_mem_replicate hx]
  exact hb

/-- A sequence of runs from an image of the invariant shape succeeds, whatever
the time of each run, when the directory has room for all the files, their
blocks fit, and their names are new and pairwise distinct. -/
theorem Inv.inject_runs_ok {tb ic itb drs drb : Nat} :
    ∀ (runs : List (AddFile × Nat)) (n d : Nat) (nm : Nat → List Nat) (e : Nat → Nat)
      (img : Image),
      Inv tb ic itb drs drb n d nm e img → n + runs.length ≤ 62 →
      (∀ p, p ∈ runs → p.1.WF ∧ p.1.found = true ∧ p.1.regular = true ∧
        p.1.name.length ≤ 57 ∧ p.1.st_size ≤ 12 * BS) →
      d + (runs.map (fun p => blocks_needed_of p.1.st_size)).sum ≤ drb →
      (runs.map (fun p => p.1.name)).Nodup →
      (∀ p, p ∈ runs → ∀ s, s < n + 2 → nm s ≠ p.1.name) →
      ∃ img2 nm2 e2, inject_runs runs img = .ok img2 ∧
        Inv tb ic itb drs drb (n + runs.length)
          (d + (runs.map (fun p => blocks_needed_of p.1.st_size)).sum) nm2 e2 img2 ∧
        ∀ name, (∀ s, s < n + 2 → nm s ≠ name) → name ∉ runs.map (fun p => p.1.name) →
          ∀ s, s < n + runs.length + 2 → nm2 s ≠ name := by
  intro runs
  induction runs with
  | nil =>
    intro n d nm e img h _ _ _ _ _
    exact ⟨img, nm, e, rfl, h, fun name hn _ s hs => hn s hs⟩
  | cons p runs ih =>
    intro n d nm e img h hlen hfs hfit hnd hnew
    obtain ⟨f, now⟩ := p
    rw [List.length_cons] at hlen
    rw [List.map_cons, List.sum_cons] at hfit
    rw [List.map_cons, List.nodup_cons] at hnd
    dsimp only at hfit hnd
    obtain ⟨hf, h1, h2, hl, hsz⟩ := hfs (f, now) (List.mem_cons_self _ _)
    have hno := hnew (f, now) (List.mem_cons_self _ _)
    dsimp only at hf h1 h2 hl hsz hno
    obtain ⟨m2, hm2, hm2b, _, hwf2, hrun⟩ :=
      h.adder_succeeds f hf now h1 h2 hl hsz (by omega) hno (by omega)
    have h' := h.after_inject f hf hl hsz now (by omega) hno (by omega) m2 hm2 hm2b hwf2
    obtain ⟨img2, nm2, e2, hseq, hinv, hnames⟩ := ih (n + 1) _ _ _ _ h' (by omega)
      (fun q hq => hfs q (List.mem_cons_of_mem _ hq)) (by omega) hnd.2
      (fun q hq s hs => by
        by_cases hsn : s = n + 2
        · rw [if_pos hsn]
          intro heq
          exact hnd.1 (heq ▸ List.mem_map_of_mem (fun p => p.1.name) hq)
        · rw [if_neg hsn]
          exact hnew q (List.mem_cons_of_mem _ hq) s (by omega))
    refine ⟨img2, nm2, e2, ?_, ?_, ?_⟩
    · unfold inject_runs
      rw [hrun]
      exact hseq
    · rw [List.length_cons, List.map_cons, List.sum_cons,
        show n + (runs.length + 1) = n + 1 + runs.length from by omega]
      dsimp only
      rw [show d + (blocks_needed_of f.st_size +
          (runs.map (fun p => blocks_needed_of p.1.st_size)).sum) =
          d + blocks_needed_of f.st_size +
            (runs.map (fun p => blocks_needed_of p.1.st_size)).sum from by omega]
      exact hinv
    · intro name hn hnot s hs
      rw [List.map_cons, List.mem_cons, not_or] at hnot
      dsimp only at hnot
      rw [List.length_cons] at hs
      apply hnames name _ hnot.2 s (by omega)
      intro s2 hs2
      by_cases hsn : s2 = n + 2
      · rw [if_pos hsn]
        exact fun heq => hnot.1 heq.symm
      · rw [if_neg hsn]
        exact hn s2 (by omega)

/-! ## Helper lemmas for statements on the superblock view -/

theorem blk_small (b : Nat) (hb : b ≤ 2 ^ 32) : blk b = b * 4096 := by
  unfold blk BS
  omega

theorem read_dirent_inode_no (m : Mem) (de : Nat) :
    (read_dirent m de).inode_no = load_le m (de + 0) 4 := rfl

theorem read_dirent_type (m : Mem) (de : Nat) : (read_dirent m de).type = m (de + 4) :=
  load_le_one m (de + 4)

theorem read_dirent_name (m : Mem) (de : Nat) :
    (read_dirent m de).name = (List.range 58).map (fun i => m (de + 5 + i)) := rfl

theorem read_inode_direct (m : Mem) (ino : Nat) :
    (read_inode m ino).direct = (List.range 12).map (fun i => load_le m (ino + 44 + 4 * i) 4) :=
  rfl

theorem mkfs_builder_main_example :
    ∃ img, mkfs_builder_main 180 128 0 = .ok img :=
  ⟨_, mkfs_builder_main_ok 180 128 0 (by decide) (by decide) (by decide) (by decide)
    (by decide)⟩

/-- An injection into the image of `format(180, 128)` at time 0 succeeds for
every well-formed file with a new name whose blocks fit. -/
theorem inject_example (f : AddFile) (hf : f.WF) (h1 : f.found = true)
    (h2 : f.regular = true) (hlen : f.name.length ≤ 57) (hsz : f.st_size ≤ 12 * BS)
    (hdot : f.name ≠ [46]) (hdotdot : f.name ≠ [46, 46]) (now : Nat) :
    ∃ img img2, mkfs_builder_main 180 128 0 = .ok img ∧ Reachable img ∧
      mkfs_adder_main f img now = .ok img2 := by
  obtain ⟨img, hmk⟩ := mkfs_builder_main_example
  have h := mkfs_builder_main_Inv 180 128 0 img (by decide) hmk
  have hk := blocks_needed_of_le f.st_size hsz
  obtain ⟨m2, _, _, _, _, hrun⟩ := h.adder_succeeds f hf now h1 h2 hlen hsz (by omega)
    (fun s hs => by
      by_cases h0 : s = 0
      · rw [if_pos h0]
        exact fun heq => hdot heq.symm
      · rw [if_neg h0]
        exact fun heq => hdotdot heq.symm) (by omega)
  exact ⟨img, _, hmk, Reachable.format 180 128 0 img (by decide) hmk, hrun⟩

/-! ## C12: the name length check and the name field -/

theorem read_inode_direct_inject_result (m2 : Mem) (drs n d : Nat) (f : AddFile) (now : Nat)
    (hdrs : 7 ≤ drs) (hn : n ≤ 61) (hsz : f.st_size ≤ 12 * BS) (hd : drs + d ≤ 2 ^ 20) :
    (read_inode (inject_result m2 drs n f now
      (fun j => if j < blocks_needed_of f.st_size then drs + d + j else 0))
      (12288 + 128 * (n + 1))).direct =
      (List.range 12).map
        (fun t => if t < blocks_needed_of f.st_size then drs + d + t else 0) := by
  rw [read_inode_direct]
  apply List.map_congr_left
  intro t ht
  have ht2 := List.mem_range.mp ht
  rw [inject_result_direct m2 drs n f now _ hdrs hn hsz t ht2]
  by_cases h : t < blocks_needed_of f.st_size
  · rw [if_pos h, if_pos h]
    omega
  · rw [if_neg h, if_neg h]

/-- C13: for every freshly formatted image and every well-formed file that is
found and regular, with a name of at most 57 characters other than "." and
"..", and a size of at most 49152 bytes needing `k = ceil(size / 4096)` blocks,
`k ≤ data_region_blocks - 1` holds and inject succeeds; in the output the set
inode-bitmap bits are exactly 0 and 1 (bit 1 is new: inode #2 in slot 1), the
set data-bitmap bits are exactly `0..k`, the inode in slot 1 has
`direct[i] = data_region_start + 1 + i` for `i < k` and `direct[i] = 0` for
`i ≥ k`, directory slot 2 (free before) holds the new entry with inode
number 2 and type 1, and the root inode's size is 192. -/
theorem inject_into_fresh_image (size_kib inode_count now : Nat) (img : Image)
    (hnow : now < 2 ^ 64) (hmk : mkfs_builder_main size_kib inode_count now = .ok img)
    (f : AddFile) (hf : f.WF) (h1 : f.found = true) (h2 : f.regular = true)
    (hlen : f.name.length ≤ 57) (hdot : f.name ≠ [46]) (hdotdot : f.name ≠ [46, 46])
    (hsz : f.st_size ≤ 49152) (now2 : Nat) :
    (f.st_size + 4095) / 4096 ≤ (read_superblock img.mem 0).data_region_blocks - 1 ∧
    ∃ img2, mkfs_adder_main f img now2 = .ok img2 ∧
      (∀ i, i < 32768 →
        (¬ bit_clear img2.mem (blk (read_superblock img.mem 0).inode_bitmap_start) i ↔
          i ≤ 1)) ∧
      (∀ j, j < 32768 →
        (¬ bit_clear img2.mem (blk (read_superblock img.mem 0).data_bitmap_start) j ↔
          j ≤ (f.st_size + 4095) / 4096)) ∧
      (read_inode img2.mem
        (blk (read_superblock img.mem 0).inode_table_start + 128 * 1)).direct =
        (List.range 12).map (fun i =>
          if i < (f.st_size + 4095) / 4096 then
            (read_superblock img.mem 0).data_region_start + 1 + i
          else 0) ∧
      (read_dirent img.mem
        (blk (read_superblock img.mem 0).data_region_start + 64 * 2)).inode_no = 0 ∧
      (read_dirent img2.mem
        (blk (read_superblock img.mem 0).data_region_start + 64 * 2)).inode_no = 2 ∧
      (read_dirent img2.mem
        (blk (read_superblock img.mem 0).data_region_start + 64 * 2)).type = 1 ∧
      (read_inode img2.mem (blk (read_superblock img.mem 0).inode_table_start)).size_bytes
        = 192 := by
  have h := mkfs_builder_main_Inv size_kib inode_count now img hnow hmk
  have hsz2 : f.st_size ≤ 12 * BS := by unfold BS; omega
  have hkk := blocks_needed_of_le f.st_size hsz2
  have hb := h.drs_bounds
  have hdrb := h.drb_lo
  have hno : ∀ s, s < 0 + 2 → (if s = 0 then [46] else [46, 46]) ≠ f.name := by
    intro s hs
    by_cases h0 : s = 0
    · rw [if_pos h0]
      exact fun heq => hdot heq.symm
    · rw [if_neg h0]
      exact fun heq => hdotdot heq.symm
  obtain ⟨m2, hm2, hm2b, _, hwf2, hrun⟩ :=
    h.adder_succeeds f hf now2 h1 h2 hlen hsz2 (by omega) hno (by omega)
  have h' := h.after_inject f hf hlen hsz2 now2 (by omega) hno (by omega) m2 hm2 hm2b hwf2
  have hnew := inject_result_entry m2 (3 + (inode_count * 128 + 4095) / 4096) 0 f now2
    (fun j => if j < blocks_needed_of f.st_size then
      3 + (inode_count * 128 + 4095) / 4096 + 1 + j else 0) (by omega) (by omega) hlen
  refine ⟨by rw [h.sb_drb]; omega, _, hrun, ?_⟩
  rw [h.sb_ibs, h.sb_dbs, h.sb_its, h.sb_drs, blk_one, blk_two, blk_three,
    blk_small _ (by omega), ← hkk.1]
  dsimp only
  refine ⟨fun i hi => ?_, fun j hj => ?_, ?_, ?_, ?_, ?_, ?_⟩
  · rw [h'.ibm i hi]
    omega
  · rw [h'.dbm j hj]
    omega
  · exact read_inode_direct_inject_result m2 _ 0 1 f now2 (by omega) (by omega) hsz2 (by omega)
  · rw [read_dirent_inode_no]
    exact h.ent_free 2 (by omega) (by omega)
  · rw [read_dirent_inode_no]
    exact hnew.1
  · rw [read_dirent_type]
    exact hnew.2.1
  · rw [read_inode_size_bytes]
    exact h'.root_size

theorem inject_into_fresh_image_witness :
    ∃ img img2, mkfs_builder_main 180 128 0 = .ok img ∧
      mkfs_adder_main ⟨[97, 46, 116, 120, 116], true, true, 5000, List.replicate 5000 65⟩ img 0
        = .ok img2 ∧
      (read_inode img2.mem (12288 + 128 * 1)).direct = [8, 9, 0, 0, 0, 0, 0, 0, 0, 0, 0, 0] ∧
      (read_inode img2.mem 12288).size_bytes = 192 := by
  obtain ⟨img, hmk⟩ := mkfs_builder_main_example
  have h := mkfs_builder_main_Inv 180 128 0 img (by decide) hmk
  have hdrs := h.sb_drs
  have hits := h.sb_its
  obtain ⟨_, img2, hadd, _, _, hdir, _, _, _, hsize⟩ := inject_into_fresh_image 180 128 0 img
    (by decide) hmk ⟨[97, 46, 116, 120, 116], true, true, 5000, List.replicate 5000 65⟩
    ⟨by decide, replicate_bytes 5000 65 (by decide), (List.length_replicate _ _).symm⟩ rfl rfl
    (by decide) (by decide) (by decide) (by decide) 0
  rw [hits, hdrs, blk_three] at hdir
  rw [hits, blk_three] at hsize
  exact ⟨img, img2, hmk, hadd, hdir, hsize⟩

/-! ## C14: the new inode and the file data -/

theorem read_inode_fields (m : Mem) (ino : Nat) :
    (read_inode m ino).mode = load_le m (ino + 0) 2 ∧
    (read_inode m ino).links = load_le m (ino + 2) 2 ∧
    (read_inode m ino).atime = load_le m (ino + 20) 8 ∧
    (read_inode m ino).ctime = load_le m (ino + 36) 8 :=
  ⟨rfl, rfl, rfl, rfl⟩

/-- C19: a successful inject of a well-formed file into a reachable image
keeps the image size and changes nothing except: the slot of the new inode
(inode-bitmap bit `i`, clear before), the `blocks_needed` newly allocated data
blocks `b .. b + blocks_needed - 1` (their data-bitmap bits were clear before),
bit `i` of the inode bitmap and the bits of these blocks in the data bitmap
(every other bit of both bitmaps is as before, so set bits stay set), one
directory slot `s` that was free before, and the root inode's `size_bytes`,
`mtime` and checksum.  In particular block 0 is byte-identical, the root
inode's mode, links, direct pointers, atime and ctime are unchanged, every
previously live directory entry is unchanged and every other inode slot is
unchanged. -/
theorem inject_frame (img : Image) (hr : Reachable img) (f : AddFile) (hf : f.WF) (now : Nat)
    (img2 : Image) (hok : mkfs_adder_main f img now = .ok img2) :
    img2.size = img.size ∧
    (∀ a, a < 4096 → img2.mem a = img.mem a) ∧
    ∃ i s b,
      i < (read_superblock img.mem 0).inode_count ∧
      bit_clear img.mem (blk (read_superblock img.mem 0).inode_bitmap_start) i ∧
      s < 64 ∧
      (read_dirent img.mem
        (blk (read_superblock img.mem 0).data_region_start + 64 * s)).inode_no = 0 ∧
      (read_superblock img.mem 0).data_region_start ≤ b ∧
      b + blocks_needed_of f.st_size ≤ (read_superblock img.mem 0).data_region_start +
        (read_superblock img.mem 0).data_region_blocks ∧
      (∀ j, j < blocks_needed_of f.st_size →
        bit_clear img.mem (blk (read_superblock img.mem 0).data_bitmap_start)
          (b - (read_superblock img.mem 0).data_region_start + j)) ∧
      (∀ x, x < 32768 → x ≠ i →
        (bit_clear img2.mem (blk (read_superblock img.mem 0).inode_bitmap_start) x ↔
          bit_clear img.mem (blk (read_superblock img.mem 0).inode_bitmap_start) x)) ∧
      (∀ x, x < 32768 →
        (x < b - (read_superblock img.mem 0).data_region_start ∨
          b - (read_superblock img.mem 0).data_region_start + blocks_needed_of f.st_size ≤ x) →
        (bit_clear img2.mem (blk (read_superblock img.mem 0).data_bitmap_start) x ↔
          bit_clear img.mem (blk (read_superblock img.mem 0).data_bitmap_start) x)) ∧
      (∀ a,
        ¬ (blk (read_superblock img.mem 0).inode_bitmap_start ≤ a ∧
          a < blk (read_superblock img.mem 0).inode_bitmap_start + 4096) →
        ¬ (blk (read_superblock img.mem 0).data_bitmap_start ≤ a ∧
          a < blk (read_superblock img.mem 0).data_bitmap_start + 4096) →
        ¬ (blk (read_superblock img.mem 0).inode_table_start + 128 * i ≤ a ∧
          a < blk (read_superblock img.mem 0).inode_table_start + 128 * i + 128) →
        ¬ (b * 4096 ≤ a ∧ a < (b + blocks_needed_of f.st_size) * 4096) →
        ¬ (blk (read_superblock img.mem 0).data_region_start + 64 * s ≤ a ∧
          a < blk (read_superblock img.mem 0).data_region_start + 64 * s + 64) →
        ¬ (blk (read_superblock img.mem 0).inode_table_start + 12 ≤ a ∧
          a < blk (read_superblock img.mem 0).inode_table_start + 20) →
        ¬ (blk (read_superblock img.mem 0).inode_table_start + 28 ≤ a ∧
          a < blk (read_superblock img.mem 0).inode_table_start + 36) →
        ¬ (blk (read_superblock img.mem 0).inode_table_start + 120 ≤ a ∧
          a < blk (read_superblock img.mem 0).inode_table_start + 128) →
        img2.mem a = img.mem a) ∧
      (read_inode img2.mem (blk (read_superblock img.mem 0).inode_table_start)).mode =
        (read_inode img.mem (blk (read_superblock img.mem 0).inode_table_start)).mode ∧
      (read_inode img2.mem (blk (read_superblock img.mem 0).inode_table_start)).links =
        (read_inode img.mem (blk (read_superblock img.mem 0).inode_table_start)).links ∧
      (read_inode img2.mem (blk (read_superblock img.mem 0).inode_table_start)).direct =
        (read_inode img.mem (blk (read_superblock img.mem 0).inode_table_start)).direct ∧
      (read_inode img2.mem (blk (read_superblock img.mem 0).inode_table_start)).atime =
        (read_inode img.mem (blk (read_superblock img.mem 0).inode_table_start)).atime ∧
      (read_inode img2.mem (blk (read_superblock img.mem 0).inode_table_start)).ctime =
        (read_inode img.mem (blk (read_superblock img.mem 0).inode_table_start)).ctime ∧
      (∀ s2, s2 < 64 →
        (read_dirent img.mem
          (blk (read_superblock img.mem 0).data_region_start + 64 * s2)).inode_no ≠ 0 →
        ∀ a, blk (read_superblock img.mem 0).data_region_start + 64 * s2 ≤ a →
          a < blk (read_superblock img.mem 0).data_region_start + 64 * s2 + 64 →
          img2.mem a = img.mem a) ∧
      (∀ q, q < (read_superblock img.mem 0).inode_count → q ≠ 0 → q ≠ i →
        ∀ a, blk (read_superblock img.mem 0).inode_table_start + 128 * q ≤ a →
          a < blk (read_superblock img.mem 0).inode_table_start + 128 * q + 128 →
          img2.mem a = img.mem a) := by
  obtain ⟨tb, ic, itb, drs, drb, n, d, nm, e, h⟩ := hr.inv
  obtain ⟨_, _, hlen, hsz, hfit, hno, hn, m2, hm2, hm2b, hcont, hwf2, himg⟩ :=
    h.adder_ok f hf now img2 hok
  have hb := h.drs_bounds
  have hk := blocks_needed_of_le f.st_size hsz
  have hdlo := h.d_lo
  have hiclo := h.ic_lo
  have hitb := h.itb_lo
  have hdrs := h.drs_eq
  have hblock0 : ∀ a, a < 4096 →
      inject_result m2 drs n f now
        (fun j => if j < blocks_needed_of f.st_size then drs + d + j else 0) a = img.mem a :=
    fun a ha => h.inject_block0 f hf hsz now _ m2 (fun x hx => hm2 x (by omega) (by omega)) hwf2
      a ha
  have hfr : ∀ a, (a < 4096 ∨ 12288 ≤ a) →
      (a < 12288 + 12 ∨ (12288 + 20 ≤ a ∧ a < 12288 + 28) ∨
        (12288 + 36 ≤ a ∧ a < 12288 + 120) ∨ 12288 + 128 ≤ a) →
      (a < 12288 + 128 * (n + 1) ∨ 12288 + 128 * (n + 1) + 128 ≤ a) →
      (a < drs * 4096 + 64 * (n + 2) ∨ drs * 4096 + 64 * (n + 2) + 64 ≤ a) →
      (a < (drs + d) * 4096 ∨ (drs + d + blocks_needed_of f.st_size) * 4096 ≤ a) →
      inject_result m2 drs n f now
        (fun j => if j < blocks_needed_of f.st_size then drs + d + j else 0) a = img.mem a := by
    intro a h1 h2 h3 h4 h5
    by_cases h0 : a < 4096
    · exact hblock0 a h0
    · rw [inject_result_out m2 drs n f now _ hsz a (by omega) (by omega) h2 h3 h4,
        hm2 a (by omega) h5]
  have hibm : ∀ x, x < 32768 → x ≠ n + 1 →
      (bit_clear (inject_result m2 drs n f now
        (fun j => if j < blocks_needed_of f.st_size then drs + d + j else 0)) 4096 x ↔
        bit_clear img.mem 4096 x) := by
    intro x hx hne
    rw [inject_result_ibm m2 drs n f now _ (by omega) (by omega) hsz x hx,
      bit_clear_congr m2 img.mem 4096 x (hm2 _ (by omega) (by omega))]
    exact ⟨fun hc => hc.2, fun hc => ⟨hne, hc⟩⟩
  have hdbm : ∀ x, x < 32768 → (x < d ∨ d + blocks_needed_of f.st_size ≤ x) →
      (bit_clear (inject_result m2 drs n f now
        (fun j => if j < blocks_needed_of f.st_size then drs + d + j else 0)) 8192 x ↔
        bit_clear img.mem 8192 x) := by
    intro x hx hout
    rw [inject_result_dbm m2 drs n f now _ (by omega) (by omega) hsz x hx, hm2b x hx,
      h.dbm x hx]
    omega
  have hload : ∀ addr k, 12288 ≤ addr → addr + k ≤ 12288 + 128 →
      (addr + k ≤ 12288 + 12 ∨ (12288 + 20 ≤ addr ∧ addr + k ≤ 12288 + 28) ∨
        (12288 + 36 ≤ addr ∧ addr + k ≤ 12288 + 120)) →
      load_le (inject_result m2 drs n f now
        (fun j => if j < blocks_needed_of f.st_size then drs + d + j else 0)) addr k =
        load_le img.mem addr k :=
    fun addr k h1 h2 h3 => load_le_frame _ _ _ _ (fun a ha1 ha2 =>
      hfr a (by omega) (by omega) (by omega) (by omega) (by omega))
  refine ⟨by rw [himg], ?_, n + 1, n + 2, drs + d, ?_⟩
  · intro a ha
    rw [himg]
    exact hblock0 a ha
  rw [h.sb_ic, h.sb_ibs, h.sb_dbs, h.sb_its, h.sb_drs, h.sb_drb, blk_one, blk_two, blk_three,
    blk_small drs (by omega), himg]
  dsimp only
  refine ⟨by omega, (h.ibm (n + 1) (by omega)).mpr (by omega), by omega, ?_, by omega, by omega,
    ?_, hibm, ?_, ?_, ?_, ?_, ?_, ?_, ?_, ?_, ?_⟩
  · rw [read_dirent_inode_no]
    exact h.ent_free (n + 2) (by omega) (by omega)
  · intro j hj
    exact (h.dbm _ (by omega)).mpr (by omega)
  · intro x hx hout
    exact hdbm x hx (by omega)
  · intro a h1 h2 h3 h4 h5 h6 h7 h8
    exact hfr a (by omega) (by omega) (by omega) (by omega) (by omega)
  · rw [(read_inode_fields _ _).1, (read_inode_fields _ _).1]
    exact hload _ _ (by omega) (by omega) (by omega)
  · rw [(read_inode_fields _ _).2.1, (read_inode_fields _ _).2.1]
    exact hload _ _ (by omega) (by omega) (by omega)
  · rw [read_inode_direct, read_inode_direct]
    apply List.map_congr_left
    intro t ht
    have := List.mem_range.mp ht
    exact hload _ _ (by omega) (by omega) (by omega)
  · rw [(read_inode_fields _ _).2.2.1, (read_inode_fields _ _).2.2.1]
    exact hload _ _ (by omega) (by omega) (by omega)
  · rw [(read_inode_fields _ _).2.2.2, (read_inode_fields _ _).2.2.2]
    exact hload _ _ (by omega) (by omega) (by omega)
  · intro s2 hs2 hlive a ha1 ha2
    have hs3 : s2 < n + 2 := by
      by_contra hc
      rw [read_dirent_inode_no] at hlive
      exact hlive (h.ent_free s2 (by omega) hs2)
    exact hfr a (by omega) (by omega) (by omega) (by omega) (by omega)
  · intro q hq1 hq2 hq3 a ha1 ha2
    exact hfr a (by omega) (by omega) (by omega) (by omega) (by omega)

theorem inject_frame_witness :
    ∃ img img2, mkfs_builder_main 180 128 0 = .ok img ∧
      mkfs_adder_main ⟨[97, 46, 116, 120, 116], true, true, 5000, List.replicate 5000 65⟩ img 0
        = .ok img2 ∧
      img2.size = img.size ∧ (∀ a, a < 4096 → img2.mem a = img.mem a) := by
  have hf : AddFile.WF ⟨[97, 46, 116, 120, 116], true, true, 5000, List.replicate 5000 65⟩ :=
    ⟨by decide, replicate_bytes 5000 65 (by decide), (List.length_replicate _ _).symm⟩
  obtain ⟨img, img2, hmk, hr, hadd⟩ := inject_example
    ⟨[97, 46, 116, 120, 116], true, true, 5000, List.replicate 5000 65⟩ hf rfl rfl (by decide)
    (by decide) (by decide) (by decide) 0
  have h := inject_frame img hr _ hf 0 img2 hadd
  exact ⟨img, img2, hmk, hadd, h.1, h.2.1⟩

/-! ## C20: the bitmaps agree with the live structures -/

/-- C20: in every image reachable from format by successful injections,
inode-bitmap bit `i < inode_count` is set exactly when some live entry of the
root directory block has inode number `i + 1`; data-bitmap bit
`j < data_region_blocks` is set exactly when block `data_region_start + j` is
a direct pointer of the inode of some live entry; and a non-zero direct
pointer occurs only once: two occurrences are in the same inode at the same
index. -/
theorem bitmaps_agree_with_live_structures (img : Image) (hr : Reachable img) :
    (∀ i, i < (read_superblock img.mem 0).inode_count →
      (¬ bit_clear img.mem (blk (read_superblock img.mem 0).inode_bitmap_start) i ↔
        ∃ s, s < 64 ∧
          (read_dirent img.mem
            (blk (read_superblock img.mem 0).data_region_start + 64 * s)).inode_no =
            i + 1)) ∧
    (∀ j, j < (read_superblock img.mem 0).data_region_blocks →
      (¬ bit_clear img.mem (blk (read_superblock img.mem 0).data_bitmap_start) j ↔
        ∃ s t, s < 64 ∧ t < 12 ∧
          (read_dirent img.mem
            (blk (read_superblock img.mem 0).data_region_start + 64 * s)).inode_no ≠ 0 ∧
          (read_inode img.mem (blk (read_superblock img.mem 0).inode_table_start + 128 *
            ((read_dirent img.mem
              (blk (read_superblock img.mem 0).data_region_start + 64 * s)).inode_no - 1))
            ).direct.getD t 0 = (read_superblock img.mem 0).data_region_start + j)) ∧
    (∀ s t s2 t2, s < 64 → t < 12 → s2 < 64 → t2 < 12 →
      (read_dirent img.mem
        (blk (read_superblock img.mem 0).data_region_start + 64 * s)).inode_no ≠ 0 →
      (read_dirent img.mem
        (blk (read_superblock img.mem 0).data_region_start + 64 * s2)).inode_no ≠ 0 →
      (read_inode img.mem (blk (read_superblock img.mem 0).inode_table_start + 128 *
        ((read_dirent img.mem
          (blk (read_superblock img.mem 0).data_region_start + 64 * s)).inode_no - 1))
        ).direct.getD t 0 ≠ 0 →
      (read_inode img.mem (blk (read_superblock img.mem 0).inode_table_start + 128 *
        ((read_dirent img.mem
          (blk (read_superblock img.mem 0).data_region_start + 64 * s)).inode_no - 1))
        ).direct.getD t 0 =
      (read_inode img.mem (blk (read_superblock img.mem 0).inode_table_start + 128 *
        ((read_dirent img.mem
          (blk (read_superblock img.mem 0).data_region_start + 64 * s2)).inode_no - 1))
        ).direct.getD t2 0 →
      (read_dirent img.mem
        (blk (read_superblock img.mem 0).data_region_start + 64 * s)).inode_no =
      (read_dirent img.mem
        (blk (read_superblock img.mem 0).data_region_start + 64 * s2)).inode_no ∧ t = t2) := by
  obtain ⟨tb, ic, itb, drs, drb, n, d, nm, e, h⟩ := hr.inv
  have hb := h.drs_bounds
  have hnhi := h.n_hi
  have hdhi := h.d_hi
  have hiclo := h.ic_lo
  have hichi := h.ic_hi
  have hetop := h.e_top
  -- inode number of directory slot `s`
  have hino : ∀ s, s < 64 →
      (read_dirent img.mem (drs * 4096 + 64 * s)).inode_no =
        if s < n + 2 then (if s < 2 then 1 else s) else 0 := by
    intro s hs
    rw [read_dirent_inode_no]
    by_cases hlive : s < n + 2
    · rw [if_pos hlive]
      exact h.ent_ino s hlive
    · rw [if_neg hlive]
      exact h.ent_free s (by omega) hs
  -- direct pointer `t` of inode slot `q`
  have hdir : ∀ q t, q ≤ n → t < 12 →
      (read_inode img.mem (12288 + 128 * q)).direct.getD t 0 =
        if t < e (q + 1) - e q then drs + e q + t else 0 := by
    intro q t hq ht
    rw [read_inode_direct, list_map_range_getD _ _ _ ht]
    exact h.direct q t hq ht
  -- the inode slot of a live entry
  have hslot : ∀ s, s < 64 → (read_dirent img.mem (drs * 4096 + 64 * s)).inode_no ≠ 0 →
      s < n + 2 ∧ (read_dirent img.mem (drs * 4096 + 64 * s)).inode_no - 1 ≤ n ∧
      (read_dirent img.mem (drs * 4096 + 64 * s)).inode_no ≠ 0 := by
    intro s hs hne
    rw [hino s hs] at hne ⊢
    by_cases hlive : s < n + 2
    · rw [if_pos hlive] at hne ⊢
      refine ⟨hlive, ?_, hne⟩
      split <;> omega
    · rw [if_neg hlive] at hne
      exact absurd rfl hne
  rw [h.sb_ic, h.sb_ibs, h.sb_dbs, h.sb_its, h.sb_drs, h.sb_drb, blk_one, blk_two, blk_three,
    blk_small drs (by omega)]
  refine ⟨fun i hi => ?_, fun j hj => ?_, ?_⟩
  · rw [h.ibm i (by omega)]
    constructor
    · intro hin
      by_cases h0 : i = 0
      · exact ⟨0, by omega, by rw [hino 0 (by omega), if_pos (by omega), if_pos (by omega), h0]⟩
      · exact ⟨i + 1, by omega, by
          rw [hino (i + 1) (by omega), if_pos (by omega), if_neg (by omega)]⟩
    · rintro ⟨s, hs, heq⟩
      rw [hino s hs] at heq
      by_cases hlive : s < n + 2
      · rw [if_pos hlive] at heq
        by_cases h2 : s < 2
        · rw [if_pos h2] at heq
          omega
        · rw [if_neg h2] at heq
          omega
      · rw [if_neg hlive] at heq
        omega
  · rw [h.dbm j (by omega)]
    constructor
    · intro hjd
      obtain ⟨q, hq1, hq2, hq3⟩ := h.e_cover j (n + 1) (le_refl _) (by omega)
      have hstep := h.e_step q (by omega)
      by_cases h0 : q = 0
      · refine ⟨0, j - e q, by omega, by omega, ?_, ?_⟩
        · rw [hino 0 (by omega), if_pos (by omega), if_pos (by omega)]
          decide
        · rw [hino 0 (by omega), if_pos (by omega), if_pos (by omega),
            show 12288 + 128 * (1 - 1) = 12288 + 128 * q from by omega,
            hdir q (j - e q) (by omega) (by omega), if_pos (by omega)]
          omega
      · refine ⟨q + 1, j - e q, by omega, by omega, ?_, ?_⟩
        · rw [hino (q + 1) (by omega), if_pos (by omega), if_neg (by omega)]
          omega
        · rw [hino (q + 1) (by omega), if_pos (by omega), if_neg (by omega),
            show 12288 + 128 * (q + 1 - 1) = 12288 + 128 * q from by omega,
            hdir q (j - e q) (by omega) (by omega), if_pos (by omega)]
          omega
    · rintro ⟨s, t, hs, ht, hlive, heq⟩
      obtain ⟨_, hq, _⟩ := hslot s hs hlive
      rw [hdir _ t hq ht] at heq
      have hmono := h.e_le
        ((read_dirent img.mem (drs * 4096 + 64 * s)).inode_no - 1 + 1) (n + 1) (by omega)
        (le_refl _)
      by_cases hc : t < e ((read_dirent img.mem (drs * 4096 + 64 * s)).inode_no - 1 + 1) -
          e ((read_dirent img.mem (drs * 4096 + 64 * s)).inode_no - 1)
      · rw [if_pos hc] at heq
        omega
      · rw [if_neg hc] at heq
        omega
  · intro s t s2 t2 hs ht hs2 ht2 hl1 hl2 hnz heq
    obtain ⟨_, hq, hne⟩ := hslot s hs hl1
    obtain ⟨_, hq2, hne2⟩ := hslot s2 hs2 hl2
    rw [hdir _ t hq ht] at hnz heq
    rw [hdir _ t2 hq2 ht2] at heq
    generalize (read_dirent img.mem (drs * 4096 + 64 * s)).inode_no = a at *
    generalize (read_dirent img.mem (drs * 4096 + 64 * s2)).inode_no = a2 at *
    by_cases hc : t < e (a - 1 + 1) - e (a - 1)
    · rw [if_pos hc] at heq
      by_cases hc2 : t2 < e (a2 - 1 + 1) - e (a2 - 1)
      · rw [if_pos hc2] at heq
        have hqq : a - 1 = a2 - 1 := by
          by_contra hneq
          rcases Nat.lt_or_gt_of_ne hneq with hlt | hgt
          · have := h.e_le (a - 1 + 1) (a2 - 1) (by omega) (by omega)
            omega
          · have := h.e_le (a2 - 1 + 1) (a - 1) (by omega) (by omega)
            omega
        rw [hqq] at heq
        exact ⟨by omega, by omega⟩
      · rw [if_neg hc2] at heq
        omega
    · rw [if_neg hc] at hnz
      exact absurd rfl hnz

theorem bitmaps_agree_with_live_structures_witness :
    ∃ img, mkfs_builder_main 180 128 0 = .ok img ∧
      ∀ i, i < (read_superblock img.mem 0).inode_count →
        (¬ bit_clear img.mem (blk (read_superblock img.mem 0).inode_bitmap_start) i ↔
          ∃ s, s < 64 ∧
            (read_dirent img.mem
              (blk (read_superblock img.mem 0).data_region_start + 64 * s)).inode_no =
              i + 1) := by
  obtain ⟨img, hmk⟩ := mkfs_builder_main_example
  exact ⟨img, hmk,
    (bitmaps_agree_with_live_structures img (Reachable.format 180 128 0 img (by decide) hmk)).1⟩

/-! ## C15: injecting a second file with the same name -/

/-- One successful injection, as a step on images of the invariant shape. -/
theorem Inv.inject_step {tb ic itb drs drb n d : Nat} {nm : Nat → List Nat} {e : Nat → Nat}
    {img : Image} (h : Inv tb ic itb drs drb n d nm e img) (f : AddFile) (hf : f.WF)
    (now : Nat) (h1 : f.found = true) (h2 : f.regular = true) (hlen : f.name.length ≤ 57)
    (hsz : f.st_size ≤ 12 * BS) (k : Nat) (hk : blocks_needed_of f.st_size = k)
    (hfit : d + k ≤ drb) (hno : ∀ s, s < n + 2 → nm s ≠ f.name) (hn : n < 62) :
    ∃ img2 e2, mkfs_adder_main f img now = .ok img2 ∧
      Inv tb ic itb drs drb (n + 1) (d + k) (fun s => if s = n + 2 then f.name else nm s) e2
        img2 := by
  subst hk
  obtain ⟨m2, hm2, hm2b, _, hwf2, hrun⟩ := h.adder_succeeds f hf now h1 h2 hlen hsz hfit hno hn
  exact ⟨_, _, hrun, h.after_inject f hf hlen hsz now hfit hno hn m2 hm2 hm2b hwf2⟩

/-- Counterexample to C15 as stated: in the image of `format(180, 512)` (26
data blocks, one used by the root directory), after two 12-block files the
1-byte file "x" takes the last free block; a second file named "x" with one
byte then fails in the allocation loop with "no free data blocks", before the
directory is scanned, and not with the collision error. -/
theorem inject_same_name_no_free_blocks :
    ∃ img0 img1 img2 img3, mkfs_builder_main 180 512 0 = .ok img0 ∧
      mkfs_adder_main ⟨[98, 49], true, true, 49152, List.replicate 49152 0⟩ img0 0
        = .ok img1 ∧
      mkfs_adder_main ⟨[98, 50], true, true, 49152, List.replicate 49152 0⟩ img1 0
        = .ok img2 ∧
      mkfs_adder_main ⟨[120], true, true, 1, [1]⟩ img2 0 = .ok img3 ∧
      mkfs_adder_main ⟨[120], true, true, 1, [2]⟩ img3 0 = .error .no_free_data_blocks := by
  have hmk := mkfs_builder_main_ok 180 512 0 (by decide) (by decide) (by decide) (by decide)
    (by decide)
  generalize format_image _ 0 = img0 at hmk
  have h0 := mkfs_builder_main_Inv 180 512 0 img0 (by decide) hmk
  obtain ⟨img1, e1, hadd1, hinv1⟩ := h0.inject_step
    ⟨[98, 49], true, true, 49152, List.replicate 49152 0⟩
    ⟨by decide, replicate_bytes 49152 0 (by decide), (List.length_replicate _ _).symm⟩ 0 rfl rfl
    (by decide) (by decide) 12 (by decide) (by decide) (by decide) (by decide)
  obtain ⟨img2, e2, hadd2, hinv2⟩ := hinv1.inject_step
    ⟨[98, 50], true, true, 49152, List.replicate 49152 0⟩
    ⟨by decide, replicate_bytes 49152 0 (by decide), (List.length_replicate _ _).symm⟩ 0 rfl rfl
    (by decide) (by decide) 12 (by decide) (by decide) (by decide) (by decide)
  obtain ⟨img3, e3, hadd3, hinv3⟩ := hinv2.inject_step ⟨[120], true, true, 1, [1]⟩
    ⟨by decide, by decide, rfl⟩ 0 rfl rfl (by decide) (by decide) 1 (by decide) (by decide)
    (by decide) (by decide)
  exact ⟨img0, img1, img2, img3, hmk, hadd1, hadd2, hadd3,
    (hinv3.adder_fails ⟨[120], true, true, 1, [2]⟩ ⟨by decide, by decide, rfl⟩ 0 rfl rfl
      (by decide) (by decide)).1 (by decide)⟩

/-- C15 (amended): for every image reachable from format by successful
injections and every two well-formed files with the same name, the second
one found, regular and of at most 49152 bytes: if injecting the first
succeeds, then injecting the second into the resulting image fails and writes
no image; the failure is the "already exists" collision error when the blocks
the second file needs are at most the clear bits of the data bitmap (always so
for an empty file), and "no free data blocks" otherwise, because the
allocation loop runs before the directory scan. -/
theorem inject_duplicate_name_fails (img : Image) (hr : Reachable img) (f1 f2 : AddFile)
    (hf1 : f1.WF) (hf2 : f2.WF) (hname : f2.name = f1.name) (h1 : f2.found = true)
    (h2 : f2.regular = true) (hsz : f2.st_size ≤ 49152) (now1 now2 : Nat) (img1 : Image)
    (hok : mkfs_adder_main f1 img now1 = .ok img1) :
    (blocks_needed_of f2.st_size ≤
        free_count img1.mem (blk (read_superblock img1.mem 0).data_bitmap_start)
          (read_superblock img1.mem 0).data_region_blocks →
      mkfs_adder_main f2 img1 now2 = .error .already_exists) ∧
    (free_count img1.mem (blk (read_superblock img1.mem 0).data_bitmap_start)
        (read_superblock img1.mem 0).data_region_blocks < blocks_needed_of f2.st_size →
      mkfs_adder_main f2 img1 now2 = .error .no_free_data_blocks) := by
  obtain ⟨tb, ic, itb, drs, drb, n, d, nm, e, h⟩ := hr.inv
  obtain ⟨_, _, hlen, hsz1, hfit, hno, hn, m2, hm2, hm2b, _, hwf2, himg⟩ :=
    h.adder_ok f1 hf1 now1 img1 hok
  have h' := h.after_inject f1 hf1 hlen hsz1 now1 hfit hno hn m2 hm2 hm2b hwf2
  rw [← himg] at h'
  have hb := h.drs_bounds
  have hsz2 : f2.st_size ≤ 12 * BS := by unfold BS; omega
  have hfree := free_count_below img1.mem 8192 _ h'.dbm drb (by omega)
  have hfail := h'.adder_fails f2 hf2 now2 h1 h2 (by rw [hname]; exact hlen) hsz2
  rw [h'.sb_dbs, h'.sb_drb, blk_two, hfree]
  refine ⟨fun hle => hfail.2.1 (by omega) ⟨n + 2, by omega, ?_⟩, fun hlt => hfail.1 (by omega)⟩
  rw [if_pos rfl, hname]

theorem inject_duplicate_name_fails_witness :
    ∃ img img1, mkfs_builder_main 180 128 0 = .ok img ∧
      mkfs_adder_main ⟨[97, 46, 116, 120, 116], true, true, 5000, List.replicate 5000 65⟩ img 0
        = .ok img1 ∧
      mkfs_adder_main ⟨[97, 46, 116, 120, 116], true, true, 0, []⟩ img1 0
        = .error .already_exists := by
  have hf : AddFile.WF ⟨[97, 46, 116, 120, 116], true, true, 5000, List.replicate 5000 65⟩ :=
    ⟨by decide, replicate_bytes 5000 65 (by decide), (List.length_replicate _ _).symm⟩
  obtain ⟨img, img1, hmk, hr, hadd⟩ := inject_example
    ⟨[97, 46, 116, 120, 116], true, true, 5000, List.replicate 5000 65⟩ hf rfl rfl (by decide)
    (by decide) (by decide) (by decide) 0
  exact ⟨img, img1, hmk, hadd,
    (inject_duplicate_name_fails img hr _ ⟨[97, 46, 116, 120, 116], true, true, 0, []⟩ hf
      ⟨by decide, by decide, rfl⟩ rfl rfl rfl (by decide) 0 0 img1 hadd).1
      (le_of_eq_of_le (by decide) (Nat.zero_le _))⟩

/-! ## C16: filling the root directory -/

theorem sum_blocks_empty (runs : List (AddFile × Nat)) (h : ∀ p, p ∈ runs → p.1.st_size = 0) :
    (runs.map (fun p => blocks_needed_of p.1.st_size)).sum = 0 := by
  induction runs with
  | nil => rfl
  | cons p runs ih =>
    rw [List.map_cons, List.sum_cons, ih (fun q hq => h q (List.mem_cons_of_mem _ hq)),
      h p (List.mem_cons_self _ _)]
    decide

/-- The runs that inject the empty files named "f0", "f1", ... ("f" followed
by the byte `48 + i`, so no name contains '/'), run `i` at time `i`, for
`i < k`: the files are well-formed, pass the checks on the file, and have
pairwise distinct names other than ".", ".." and "g". -/
theorem numbered_runs (k : Nat) (hk : k ≤ 62) :
    ((List.range k).map
      (fun i => ((⟨[102, 48 + i], true, true, 0, []⟩ : AddFile), i))).length = k ∧
    (∀ p, p ∈ (List.range k).map
        (fun i => ((⟨[102, 48 + i], true, true, 0, []⟩ : AddFile), i)) →
      p.1.WF ∧ p.1.found = true ∧ p.1.regular = true ∧ p.1.name.length ≤ 57 ∧
      p.1.st_size = 0 ∧ p.1.name ≠ [46] ∧ p.1.name ≠ [46, 46] ∧ p.1.name ≠ [103] ∧
      p.2 < 2 ^ 64) ∧
    (((List.range k).map
      (fun i => ((⟨[102, 48 + i], true, true, 0, []⟩ : AddFile), i))).map
      (fun p => p.1.name)).Nodup := by
  refine ⟨by rw [List.length_map, List.length_range], ?_, ?_⟩
  · intro p hp
    obtain ⟨i, hi, rfl⟩ := List.mem_map.mp hp
    have hi2 := List.mem_range.mp hi
    refine ⟨⟨?_, fun b hb => absurd hb (List.not_mem_nil b), rfl⟩, rfl, rfl,
      (by decide : 2 ≤ 57), rfl,
      fun h => absurd (List.cons.inj h).1 (by decide),
      fun h => absurd (List.cons.inj h).1 (by decide),
      fun h => absurd (List.cons.inj h).1 (by decide), ?_⟩
    · intro c hc
      rcases List.mem_cons.mp hc with h | h
      · rw [h]
        decide
      · rw [List.mem_singleton.mp h]
        omega
    · have h64 : (62 : Nat) < 2 ^ 64 := by decide
      exact lt_of_lt_of_le hi2 (le_trans hk (le_of_lt h64))
  · rw [List.map_map]
    apply (List.nodup_range k).map
    intro i j h
    have h' : [102, 48 + i] = [102, 48 + j] := h
    have := (List.cons.inj (List.cons.inj h').2).1
    omega

/-- Counterexample to C16 as stated: from the image of `format(180, 128)`, 62
injections of empty files with pairwise distinct names ("f0", "f1", ..., run
`i` at time `i`) succeed, and the 63rd injection (file "g", at time 62) fails
with "root directory full": the root directory block has 64 slots, two of
them taken by "." and "..", so 127 injections never succeed and the failure
is not "no free inodes". -/
theorem inject_63rd_file_root_full :
    ∃ img0 img62, mkfs_builder_main 180 128 0 = .ok img0 ∧
      inject_runs
        ((List.range 62).map (fun i => ((⟨[102, 48 + i], true, true, 0, []⟩ : AddFile), i)))
        img0 = .ok img62 ∧
      mkfs_adder_main ⟨[103], true, true, 0, []⟩ img62 62 = .error .root_full := by
  obtain ⟨img0, hmk⟩ := mkfs_builder_main_example
  have h0 := mkfs_builder_main_Inv 180 128 0 img0 (by decide) hmk
  obtain ⟨hlen, hfs, hnd⟩ := numbered_runs 62 (by decide)
  have hsum := sum_blocks_empty _ (fun p hp => (hfs p hp).2.2.2.2.1)
  obtain ⟨img62, nm2, e2, hseq, hinv, hnames⟩ := Inv.inject_runs_ok _ 0 1 _ _ img0 h0
    (by rw [hlen]) (fun p hp => ⟨(hfs p hp).1, (hfs p hp).2.1, (hfs p hp).2.2.1,
      (hfs p hp).2.2.2.1, by rw [(hfs p hp).2.2.2.2.1]; decide⟩) (by rw [hsum]; decide) hnd
    (fun p hp s hs => by
      by_cases hs0 : s = 0
      · rw [if_pos hs0]
        exact fun heq => (hfs p hp).2.2.2.2.2.1 heq.symm
      · rw [if_neg hs0]
        exact fun heq => (hfs p hp).2.2.2.2.2.2.1 heq.symm)
  rw [hlen, hsum] at hinv
  rw [hlen] at hnames
  have hnew := hnames [103] (fun s hs => by split <;> decide) (fun hmem => by
    obtain ⟨p, hp, heq⟩ := List.mem_map.mp hmem
    exact (hfs p hp).2.2.2.2.2.2.2.1 heq)
  exact ⟨img0, img62, hmk, hseq,
    (hinv.adder_fails ⟨[103], true, true, 0, []⟩
      ⟨by decide, fun b hb => absurd hb (List.not_mem_nil b), rfl⟩ 62 rfl rfl (by decide)
      (by decide)).2.2 (by decide) hnew rfl⟩

/-- C16 (amended): starting from a freshly formatted image (any valid size
and inode count, in particular `inode_count = 128`), 62 successive injections
of well-formed files with pairwise distinct names of at most 57 characters
other than "." and "..", whose blocks fit the data region (for example empty
files), each run at a time of its own, all succeed and use inode-bitmap bits
1..62; the next injection of such a file with a new name, at any time, fails
with the "root directory full" error, while the allocator still finds the
free inode bit 63, so the "no free inodes" failure is not the one that
occurs. -/
theorem inject_fills_root_directory (size_kib inode_count now : Nat) (img : Image)
    (hnow : now < 2 ^ 64) (hmk : mkfs_builder_main size_kib inode_count now = .ok img)
    (runs : List (AddFile × Nat)) (hlen : runs.length = 62)
    (hfs : ∀ p, p ∈ runs → p.1.WF ∧ p.1.found = true ∧ p.1.regular = true ∧
      p.1.name.length ≤ 57 ∧ p.1.st_size ≤ 49152 ∧ p.1.name ≠ [46] ∧ p.1.name ≠ [46, 46])
    (hnd : (runs.map (fun p => p.1.name)).Nodup) (g : AddFile)
    (hg : g.WF ∧ g.found = true ∧ g.regular = true ∧ g.name.length ≤ 57 ∧
      g.st_size ≤ 49152 ∧ g.name ≠ [46] ∧ g.name ≠ [46, 46])
    (hgnew : g.name ∉ runs.map (fun p => p.1.name))
    (hfit : 1 + (runs.map (fun p => blocks_needed_of p.1.st_size)).sum +
      blocks_needed_of g.st_size ≤ (read_superblock img.mem 0).data_region_blocks)
    (now2 : Nat) :
    ∃ img62, inject_runs runs img = .ok img62 ∧
      mkfs_adder_main g img62 now2 = .error .root_full ∧
      (∀ i, i < 32768 →
        (¬ bit_clear img62.mem (blk (read_superblock img62.mem 0).inode_bitmap_start) i ↔
          i ≤ 62)) ∧
      find_free_bit img62.mem (blk (read_superblock img62.mem 0).inode_bitmap_start)
        (read_superblock img62.mem 0).inode_count = 63 := by
  have h0 := mkfs_builder_main_Inv size_kib inode_count now img hnow hmk
  rw [h0.sb_drb] at hfit
  have hBS : 12 * BS = 49152 := by decide
  obtain ⟨img62, nm2, e2, hseq, hinv, hnames⟩ := Inv.inject_runs_ok runs 0 1 _ _ img h0
    (by rw [hlen]) (fun p hp => ⟨(hfs p hp).1, (hfs p hp).2.1, (hfs p hp).2.2.1,
      (hfs p hp).2.2.2.1, by rw [hBS]; exact (hfs p hp).2.2.2.2.1⟩) (by omega) hnd
    (fun p hp s hs => by
      by_cases hs0 : s = 0
      · rw [if_pos hs0]
        exact fun heq => (hfs p hp).2.2.2.2.2.1 heq.symm
      · rw [if_neg hs0]
        exact fun heq => (hfs p hp).2.2.2.2.2.2 heq.symm)
  rw [hlen] at hinv hnames
  have hnew := hnames g.name (fun s hs => by
    by_cases hs0 : s = 0
    · rw [if_pos hs0]
      exact fun heq => hg.2.2.2.2.2.1 heq.symm
    · rw [if_neg hs0]
      exact fun heq => hg.2.2.2.2.2.2 heq.symm) hgnew
  refine ⟨img62, hseq,
    (hinv.adder_fails g hg.1 now2 hg.2.1 hg.2.2.1 hg.2.2.2.1
      (by rw [hBS]; exact hg.2.2.2.2.1)).2.2 (by omega) hnew rfl, ?_, ?_⟩
  · intro i hi
    rw [hinv.sb_ibs, blk_one, hinv.ibm i hi]
    omega
  · rw [hinv.sb_ibs, hinv.sb_ic, blk_one, hinv.find_free_inode]
    rfl

theorem inject_fills_root_directory_witness :
    ∃ img img62, mkfs_builder_main 180 128 0 = .ok img ∧
      inject_runs
        ((List.range 62).map
          (fun i => ((⟨[102, 48 + i], true, true, 0, []⟩ : AddFile), 1000 + i)))
        img = .ok img62 ∧
      mkfs_adder_main ⟨[104], true, true, 0, []⟩ img62 2000 = .error .root_full ∧
      find_free_bit img62.mem (blk (read_superblock img62.mem 0).inode_bitmap_start)
        (read_superblock img62.mem 0).inode_count = 63 := by
  obtain ⟨img, hmk⟩ := mkfs_builder_main_example
  have h0 := mkfs_builder_main_Inv 180 128 0 img (by decide) hmk
  have hmem : ∀ p, p ∈ (List.range 62).map
      (fun i => ((⟨[102, 48 + i], true, true, 0, []⟩ : AddFile), 1000 + i)) →
      (p.1.WF ∧ p.1.found = true ∧ p.1.regular = true ∧ p.1.name.length ≤ 57 ∧
        p.1.st_size ≤ 49152 ∧ p.1.name ≠ [46] ∧ p.1.name ≠ [46, 46]) ∧
      p.1.st_size = 0 ∧ p.1.name ≠ [104] := by
    intro p hp
    obtain ⟨i, hi, rfl⟩ := List.mem_map.mp hp
    have hi2 := List.mem_range.mp hi
    refine ⟨⟨⟨?_, fun b hb => absurd hb (List.not_mem_nil b), rfl⟩, rfl, rfl,
      (by decide : 2 ≤ 57), Nat.zero_le _,
      fun h => absurd (List.cons.inj h).1 (by decide),
      fun h => absurd (List.cons.inj h).1 (by decide)⟩, rfl,
      fun h => absurd (List.cons.inj h).1 (by decide)⟩
    intro c hc
    rcases List.mem_cons.mp hc with h | h
    · rw [h]
      decide
    · rw [List.mem_singleton.mp h]
      omega
  have hnd : (((List.range 62).map
      (fun i => ((⟨[102, 48 + i], true, true, 0, []⟩ : AddFile), 1000 + i))).map
      (fun p => p.1.name)).Nodup := by
    rw [List.map_map]
    apply (List.nodup_range 62).map
    intro i j h
    have h' : [102, 48 + i] = [102, 48 + j] := h
    have := (List.cons.inj (List.cons.inj h').2).1
    omega
  have hsum := sum_blocks_empty _ (fun p hp => (hmem p hp).2.1)
  obtain ⟨img62, hseq, hfull, _, hfree⟩ := inject_fills_root_directory 180 128 0 img (by decide)
    hmk _ (by rw [List.length_map, List.length_range]) (fun p hp => (hmem p hp).1)
    hnd ⟨[104], true, true, 0, []⟩
    ⟨⟨by decide, fun b hb => absurd hb (List.not_mem_nil b), rfl⟩, rfl, rfl, by decide,
      by decide, by decide, by decide⟩
    (fun hm => by
      obtain ⟨p, hp, heq⟩ := List.mem_map.mp hm
      exact (hmem p hp).2.2 heq)
    (by rw [hsum, h0.sb_drb]; decide) 2000
  exact ⟨img, img62, hmk, hseq, hfull, hfree⟩

/-! ## The live entries of the root directory -/

/-- In an image of the invariant shape the live directory slots are exactly
the first `n + 2`. -/
theorem Inv.live_iff {tb ic itb drs drb n d : Nat} {nm : Nat → List Nat} {e : Nat → Nat}
    {img : Image} (h : Inv tb ic itb drs drb n d nm e img) (s : Nat) (hs : s < 64) :
    (read_dirent img.mem (drs * 4096 + 64 * s)).inode_no ≠ 0 ↔ s < n + 2 := by
  rw [read_dirent_inode_no]
  by_cases hlive : s < n + 2
  · rw [h.ent_ino s hlive]
    exact ⟨fun _ => hlive, fun _ => by split <;> omega⟩
  · rw [h.ent_free s (by omega) hs]
    exact ⟨fun hc => absurd rfl hc, fun hc => absurd hc hlive⟩

/-! ## C21: live entries form a prefix and the root size counts them -/

/-- C21: in every image reachable from format by successful injections the
live entries of the root directory block (inode number not 0) are exactly the
slots below some `u ≤ 64`, and the root inode's `size_bytes` is `64 * u`;
every successful inject of a well-formed file writes its entry into slot `u`,
the lowest free slot (`u` is `used_entries` counted before the insertion),
with inode number `i + 1` for the inode bit `i` returned by the allocator and
type 1; afterwards the live slots are exactly those below `u + 1` and the
root inode's `size_bytes` is `(u + 1) * 64`. -/
theorem live_entries_contiguous (img : Image) (hr : Reachable img) :
    (∃ u, u ≤ 64 ∧
      (∀ s, s < 64 →
        ((read_dirent img.mem
          (blk (read_superblock img.mem 0).data_region_start + 64 * s)).inode_no ≠ 0 ↔
          s < u)) ∧
      (read_inode img.mem (blk (read_superblock img.mem 0).inode_table_start)).size_bytes =
        64 * u) ∧
    (∀ (f : AddFile) (now : Nat) (img2 : Image), f.WF →
      mkfs_adder_main f img now = .ok img2 →
      ∃ u i : Nat, u < 64 ∧
        (∀ s, s < 64 →
          ((read_dirent img.mem
            (blk (read_superblock img.mem 0).data_region_start + 64 * s)).inode_no ≠ 0 ↔
            s < u)) ∧
        find_free_bit img.mem (blk (read_superblock img.mem 0).inode_bitmap_start)
          (read_superblock img.mem 0).inode_count = (i : Int) ∧
        (read_dirent img2.mem
          (blk (read_superblock img.mem 0).data_region_start + 64 * u)).inode_no = i + 1 ∧
        (read_dirent img2.mem
          (blk (read_superblock img.mem 0).data_region_start + 64 * u)).type = 1 ∧
        (∀ s, s < 64 →
          ((read_dirent img2.mem
            (blk (read_superblock img.mem 0).data_region_start + 64 * s)).inode_no ≠ 0 ↔
            s < u + 1)) ∧
        (read_inode img2.mem (blk (read_superblock img.mem 0).inode_table_start)).size_bytes =
          (u + 1) * 64) := by
  obtain ⟨tb, ic, itb, drs, drb, n, d, nm, e, h⟩ := hr.inv
  have hb := h.drs_bounds
  have hnhi := h.n_hi
  rw [h.sb_drs, h.sb_its, h.sb_ibs, h.sb_ic, blk_one, blk_three, blk_small drs (by omega)]
  refine ⟨⟨n + 2, by omega, fun s hs => h.live_iff s hs, ?_⟩, ?_⟩
  · rw [read_inode_size_bytes]
    exact h.root_size
  · intro f now img2 hf hok
    obtain ⟨_, _, hlen, hsz, hfit, hno, hn, m2, hm2, hm2b, _, hwf2, himg⟩ :=
      h.adder_ok f hf now img2 hok
    have h' := h.after_inject f hf hlen hsz now hfit hno hn m2 hm2 hm2b hwf2
    rw [← himg] at h'
    refine ⟨n + 2, n + 1, by omega, fun s hs => h.live_iff s hs, h.find_free_inode, ?_, ?_,
      fun s hs => h'.live_iff s hs, ?_⟩
    · rw [read_dirent_inode_no, h'.ent_ino (n + 2) (by omega), if_neg (by omega)]
    · rw [read_dirent_type, h'.ent_type (n + 2) (by omega), if_neg (by omega)]
    · rw [read_inode_size_bytes, h'.root_size]
      omega

theorem live_entries_contiguous_witness :
    ∃ img img2, mkfs_builder_main 180 128 0 = .ok img ∧
      mkfs_adder_main ⟨[97, 46, 116, 120, 116], true, true, 5000, List.replicate 5000 65⟩ img 0
        = .ok img2 ∧
      (∃ u, u ≤ 64 ∧
        (∀ s, s < 64 →
          ((read_dirent img2.mem
            (blk (read_superblock img2.mem 0).data_region_start + 64 * s)).inode_no ≠ 0 ↔
            s < u)) ∧
        (read_inode img2.mem
          (blk (read_superblock img2.mem 0).inode_table_start)).size_bytes = 64 * u) := by
  have hf : AddFile.WF ⟨[97, 46, 116, 120, 116], true, true, 5000, List.replicate 5000 65⟩ :=
    ⟨by decide, replicate_bytes 5000 65 (by decide), (List.length_replicate _ _).symm⟩
  obtain ⟨img, img2, hmk, hr, hadd⟩ := inject_example
    ⟨[97, 46, 116, 120, 116], true, true, 5000, List.replicate 5000 65⟩ hf rfl rfl (by decide)
    (by decide) (by decide) (by decide) 0
  exact ⟨img, img2, hmk, hadd,
    (live_entries_contiguous img2 (Reachable.inject _ img img2 0 hr hf (by decide) hadd)).1⟩

/-! ## C22: distinct, NUL-terminated names -/

/-- Against a name field that holds the C string `nm` padded with NUL,
`strcmp` reports equality only for the name `nm`. -/
theorem strcmp_eq_name_field_imp (m : Mem) (p : Nat) (nm s : List Nat)
    (hfield : ∀ t, t < 58 → m (p + t) = nm.getD t 0) (hnm : nm.length ≤ 57)
    (hnmpos : ∀ c, c ∈ nm → 0 < c) (hspos : ∀ c, c ∈ s → 0 < c)
    (h : strcmp_eq m p s = true) : nm = s := by
  have hle : s.length ≤ nm.length := by
    by_contra hlt
    have hj : nm.length < s.length := by omega
    have := ((strcmp_eq_iff m s p).mp h).1 nm.length hj
    rw [hfield _ (by omega), List.getD_eq_default _ _ (le_refl _)] at this
    have := getD_pos_of_lt s hspos nm.length hj
    omega
  exact (strcmp_eq_name_field m p nm s hfield hnm hnmpos (by omega) hspos).mp h

/-- C22: in every image reachable from format by successful injections, every
live entry of the root directory block (inode number not 0) has a name field
that holds a string of at most 57 non-zero bytes followed only by zero bytes,
so it is NUL-terminated within its 58 bytes; the live entries have pairwise
distinct names: no C string compares equal (`strcmp`) to the names of two live
slots, and two live slots never hold the same name field. -/
theorem live_names_distinct (img : Image) (hr : Reachable img) :
    (∀ s, s < 64 →
      (read_dirent img.mem
        (blk (read_superblock img.mem 0).data_region_start + 64 * s)).inode_no ≠ 0 →
      ∃ t, t < 58 ∧
        (∀ j, j < t →
          img.mem (blk (read_superblock img.mem 0).data_region_start + 64 * s + 5 + j) ≠ 0) ∧
        (∀ j, t ≤ j → j < 58 →
          img.mem (blk (read_superblock img.mem 0).data_region_start + 64 * s + 5 + j) = 0)) ∧
    (∀ s s2 name, s < 64 → s2 < 64 →
      (read_dirent img.mem
        (blk (read_superblock img.mem 0).data_region_start + 64 * s)).inode_no ≠ 0 →
      (read_dirent img.mem
        (blk (read_superblock img.mem 0).data_region_start + 64 * s2)).inode_no ≠ 0 →
      (∀ c, c ∈ name → 0 < c) →
      strcmp_eq img.mem (blk (read_superblock img.mem 0).data_region_start + 64 * s + 5) name
        = true →
      strcmp_eq img.mem (blk (read_superblock img.mem 0).data_region_start + 64 * s2 + 5) name
        = true →
      s = s2) ∧
    (∀ s s2, s < 64 → s2 < 64 →
      (read_dirent img.mem
        (blk (read_superblock img.mem 0).data_region_start + 64 * s)).inode_no ≠ 0 →
      (read_dirent img.mem
        (blk (read_superblock img.mem 0).data_region_start + 64 * s2)).inode_no ≠ 0 →
      (read_dirent img.mem
        (blk (read_superblock img.mem 0).data_region_start + 64 * s)).name =
      (read_dirent img.mem
        (blk (read_superblock img.mem 0).data_region_start + 64 * s2)).name →
      s = s2) := by
  obtain ⟨tb, ic, itb, drs, drb, n, d, nm, e, h⟩ := hr.inv
  have hb := h.drs_bounds
  rw [h.sb_drs, blk_small drs (by omega)]
  have hstr : ∀ s s2 name, s < 64 → s2 < 64 →
      (read_dirent img.mem (drs * 4096 + 64 * s)).inode_no ≠ 0 →
      (read_dirent img.mem (drs * 4096 + 64 * s2)).inode_no ≠ 0 →
      (∀ c, c ∈ name → 0 < c) →
      strcmp_eq img.mem (drs * 4096 + 64 * s + 5) name = true →
      strcmp_eq img.mem (drs * 4096 + 64 * s2 + 5) name = true → s = s2 := by
    intro s s2 name hs hs2 hl hl2 hpos h1 h2
    have hs' := (h.live_iff s hs).mp hl
    have hs2' := (h.live_iff s2 hs2).mp hl2
    have e1 := strcmp_eq_name_field_imp img.mem _ (nm s) name (fun t ht => h.ent_name s t hs' ht)
      (h.nm_len s hs') (fun c hc => h.nm_pos s c hs' hc) hpos h1
    have e2 := strcmp_eq_name_field_imp img.mem _ (nm s2) name
      (fun t ht => h.ent_name s2 t hs2' ht) (h.nm_len s2 hs2') (fun c hc => h.nm_pos s2 c hs2' hc)
      hpos h2
    exact h.nm_inj s s2 hs' hs2' (e1.trans e2.symm)
  refine ⟨?_, hstr, ?_⟩
  · intro s hs hl
    have hs' := (h.live_iff s hs).mp hl
    have hlen := h.nm_len s hs'
    refine ⟨(nm s).length, by omega, fun j hj => ?_, fun j hj1 hj2 => ?_⟩
    · rw [h.ent_name s j hs' (by omega)]
      have := getD_pos_of_lt (nm s) (fun c hc => h.nm_pos s c hs' hc) j hj
      omega
    · rw [h.ent_name s j hs' hj2]
      exact List.getD_eq_default _ _ hj1
  · intro s s2 hs hs2 hl hl2 heq
    have hs' := (h.live_iff s hs).mp hl
    have hs2' := (h.live_iff s2 hs2).mp hl2
    have hlen := h.nm_len s hs'
    rw [read_dirent_name, read_dirent_name] at heq
    have hbyte : ∀ t, t < 58 →
        img.mem (drs * 4096 + 64 * s + 5 + t) = img.mem (drs * 4096 + 64 * s2 + 5 + t) := by
      intro t ht
      have := congrArg (fun l => l.getD t 0) heq
      dsimp only at this
      rw [list_map_range_getD _ _ _ ht, list_map_range_getD _ _ _ ht] at this
      exact this
    apply hstr s s2 (nm s) hs hs2 hl hl2 (fun c hc => h.nm_pos s c hs' hc)
    · exact (strcmp_eq_name_field img.mem _ (nm s) (nm s) (fun t ht => h.ent_name s t hs' ht)
        hlen (fun c hc => h.nm_pos s c hs' hc) hlen (fun c hc => h.nm_pos s c hs' hc)).mpr rfl
    · rw [strcmp_eq_iff]
      refine ⟨fun j hj => ?_, ?_⟩
      · rw [← hbyte j (by omega)]
        exact h.ent_name s j hs' (by omega)
      · rw [← hbyte _ (by omega), h.ent_name s _ hs' (by omega)]
        exact List.getD_eq_default _ _ (le_refl _)

theorem live_names_distinct_witness :
    ∃ img img2, mkfs_builder_main 180 128 0 = .ok img ∧
      mkfs_adder_main ⟨[97, 46, 116, 120, 116], true, true, 5000, List.replicate 5000 65⟩ img 0
        = .ok img2 ∧
      ∀ s s2, s < 64 → s2 < 64 →
        (read_dirent img2.mem
          (blk (read_superblock img2.mem 0).data_region_start + 64 * s)).inode_no ≠ 0 →
        (read_dirent img2.mem
          (blk (read_superblock img2.mem 0).data_region_start + 64 * s2)).inode_no ≠ 0 →
        (read_dirent img2.mem
          (blk (read_superblock img2.mem 0).data_region_start + 64 * s)).name =
        (read_dirent img2.mem
          (blk (read_superblock img2.mem 0).data_region_start + 64 * s2)).name →
        s = s2 := by
  have hf : AddFile.WF ⟨[97, 46, 116, 120, 116], true, true, 5000, List.replicate 5000 65⟩ :=
    ⟨by decide, replicate_bytes 5000 65 (by decide), (List.length_replicate _ _).symm⟩
  obtain ⟨img, img2, hmk, hr, hadd⟩ := inject_example
    ⟨[97, 46, 116, 120, 116], true, true, 5000, List.replicate 5000 65⟩ hf rfl rfl (by decide)
    (by decide) (by decide) (by decide) 0
  exact ⟨img, img2, hmk, hadd,
    (live_names_distinct img2 (Reachable.inject _ img img2 0 hr hf (by decide) hadd)).2.2⟩

/-! ## C23: the root directory never grows beyond one block -/

/-- Every successful run from an image of the invariant shape adds one file,
so a sequence of runs that all succeed is no longer than the free slots. -/
theorem Inv.inject_runs_length {tb ic itb drs drb : Nat} :
    ∀ (runs : List (AddFile × Nat)) (n d : Nat) (nm : Nat → List Nat) (e : Nat → Nat)
      (img img2 : Image),
      Inv tb ic itb drs drb n d nm e img → (∀ p, p ∈ runs → p.1.WF) →
      inject_runs runs img = .ok img2 → n + runs.length ≤ 62 := by
  intro runs
  induction runs with
  | nil =>
    intro n d nm e img img2 h _ _
    exact h.n_hi
  | cons p rest ih =>
    intro n d nm e img img2 h hwf hok
    obtain ⟨f, now⟩ := p
    unfold inject_runs at hok
    split at hok
    · cases hok
    · rename_i img1 hadd
      have hf := hwf (f, now) (List.mem_cons_self _ _)
      obtain ⟨_, _, hlen, hsz, hfit, hno, hn, m2, hm2, hm2b, _, hwf2, himg⟩ :=
        h.adder_ok f hf now img1 hadd
      have h' := h.after_inject f hf hlen hsz now hfit hno hn m2 hm2 hm2b hwf2
      rw [← himg] at h'
      have := ih (n + 1) _ _ _ img1 img2 h' (fun q hq => hwf q (List.mem_cons_of_mem _ hq)) hok
      rw [List.length_cons]
      omega

theorem inject_runs_reachable :
    ∀ (runs : List (AddFile × Nat)) (img img2 : Image), Reachable img →
      (∀ p, p ∈ runs → p.1.WF ∧ p.2 < 2 ^ 64) →
      inject_runs runs img = .ok img2 → Reachable img2 := by
  intro runs
  induction runs with
  | nil =>
    intro img img2 hr _ hok
    rw [← Except.ok.inj hok]
    exact hr
  | cons p runs ih =>
    intro img img2 hr hwf hok
    obtain ⟨f, now⟩ := p
    unfold inject_runs at hok
    split at hok
    · cases hok
    · rename_i img1 hadd
      have hp := hwf (f, now) (List.mem_cons_self _ _)
      exact ih img1 img2 (Reachable.inject f img img1 now hr hp.1 hp.2 hadd)
        (fun q hq => hwf q (List.mem_cons_of_mem _ hq)) hok

/-- The image of `format(180, 128)` after 62 empty files "f0", "f1", ...: it
is reachable, all 64 directory slots are live and no entry is named "g". -/
theorem full_directory_example :
    ∃ img0 img62, mkfs_builder_main 180 128 0 = .ok img0 ∧
      inject_runs
        ((List.range 62).map (fun i => ((⟨[102, 48 + i], true, true, 0, []⟩ : AddFile), i)))
        img0 = .ok img62 ∧
      Reachable img62 ∧
      (∀ s, s < 64 →
        (read_dirent img62.mem
          (blk (read_superblock img62.mem 0).data_region_start + 64 * s)).inode_no ≠ 0) ∧
      (∀ s, s < 64 →
        strcmp_eq img62.mem
          (blk (read_superblock img62.mem 0).data_region_start + 64 * s + 5) [103] = false) := by
  obtain ⟨img0, hmk⟩ := mkfs_builder_main_example
  have h0 := mkfs_builder_main_Inv 180 128 0 img0 (by decide) hmk
  obtain ⟨hlen, hfs, hnd⟩ := numbered_runs 62 (by decide)
  have hsum := sum_blocks_empty _ (fun p hp => (hfs p hp).2.2.2.2.1)
  obtain ⟨img62, nm2, e2, hseq, hinv, hnames⟩ := Inv.inject_runs_ok _ 0 1 _ _ img0 h0
    (by rw [hlen]) (fun p hp => ⟨(hfs p hp).1, (hfs p hp).2.1, (hfs p hp).2.2.1,
      (hfs p hp).2.2.2.1, by rw [(hfs p hp).2.2.2.2.1]; decide⟩) (by rw [hsum]; decide) hnd
    (fun p hp s hs => by
      by_cases hs0 : s = 0
      · rw [if_pos hs0]
        exact fun heq => (hfs p hp).2.2.2.2.2.1 heq.symm
      · rw [if_neg hs0]
        exact fun heq => (hfs p hp).2.2.2.2.2.2.1 heq.symm)
  rw [hlen, hsum] at hinv
  rw [hlen] at hnames
  have hnew := hnames [103] (fun s hs => by split <;> decide) (fun hmem => by
    obtain ⟨p, hp, heq⟩ := List.mem_map.mp hmem
    exact (hfs p hp).2.2.2.2.2.2.2.1 heq)
  have hb := hinv.drs_bounds
  refine ⟨img0, img62, hmk, hseq,
    inject_runs_reachable _ img0 img62
      (Reachable.format 180 128 0 img0 (by decide) hmk)
      (fun p hp => ⟨(hfs p hp).1, (hfs p hp).2.2.2.2.2.2.2.2⟩) hseq, ?_, ?_⟩
  · intro s hs
    rw [hinv.sb_drs, blk_small _ (by omega)]
    exact (hinv.live_iff s hs).mpr (by omega)
  · intro s hs
    rw [hinv.sb_drs, blk_small _ (by omega)]
    cases hq : strcmp_eq img62.mem
      ((3 + (128 * 128 + 4095) / 4096) * 4096 + 64 * s + 5) [103]
    · rfl
    · exact absurd (strcmp_eq_name_field_imp img62.mem _ (nm2 s) [103]
        (fun t ht => hinv.ent_name s t (by omega) ht) (hinv.nm_len s (by omega))
        (fun c hc => hinv.nm_pos s c (by omega) hc) (by decide) hq) (hnew s (by omega))

/-- C23 (amended): the scan of the root directory block covers
`4096 / 64 = 64` slots, and when all of them are live and none holds the given
name it ends without a free slot (`free_entry = -1`, `used_entries = 64`), in
every memory.  So for every image reachable from format by successful
injections whose root block has all 64 slots live and no entry with the given
name, an inject of a well-formed file that passes the earlier checks (found,
regular, name of at most 57 characters, at most 49152 bytes, enough clear
data-bitmap bits for its blocks) fails with "root directory full".
Consequently, starting from any freshly formatted image, whatever its size and
inode count, a sequence of injections of well-formed files that all succeed,
each run at a time of its own, has at most 62 runs.  The restriction of the
second part to reachable images is needed: on an image whose data bitmap
marks the directory block free, the copy loop overwrites the directory before
the scan. -/
theorem root_directory_full :
    (∀ (m : Mem) (entries : Nat) (name : List Nat),
      (∀ s, s < 64 → load_le m (entries + 64 * s + 0) 4 ≠ 0) →
      (∀ s, s < 64 → strcmp_eq m (entries + 64 * s + 5) name = false) →
      inject_scan_loop m entries name 64 0 (-1) 0 = .ok (-1, 64)) ∧
    (∀ (img : Image) (f : AddFile) (now : Nat), Reachable img → f.WF → f.found = true →
      f.regular = true → f.name.length ≤ 57 → f.st_size ≤ 49152 →
      blocks_needed_of f.st_size ≤
        free_count img.mem (blk (read_superblock img.mem 0).data_bitmap_start)
          (read_superblock img.mem 0).data_region_blocks →
      (∀ s, s < 64 →
        (read_dirent img.mem
          (blk (read_superblock img.mem 0).data_region_start + 64 * s)).inode_no ≠ 0) →
      (∀ s, s < 64 →
        strcmp_eq img.mem
          (blk (read_superblock img.mem 0).data_region_start + 64 * s + 5) f.name = false) →
      mkfs_adder_main f img now = .error .root_full) ∧
    (∀ (size_kib inode_count now : Nat) (img img2 : Image) (runs : List (AddFile × Nat)),
      now < 2 ^ 64 → mkfs_builder_main size_kib inode_count now = .ok img →
      (∀ p, p ∈ runs → p.1.WF) → inject_runs runs img = .ok img2 → runs.length ≤ 62) := by
  refine ⟨?_, ?_, ?_⟩
  · intro m entries name hlive hcmp
    have := inject_scan_loop_ok m entries name 64 (le_refl _) hlive
      (fun s h1 h2 => absurd h2 (by omega)) hcmp 64 0 (by omega) (by omega)
    rw [if_neg (by omega)] at this
    exact this
  · intro img f now hr hf h1 h2 hlen hsz hfit hlive hcmp
    obtain ⟨tb, ic, itb, drs, drb, n, d, nm, e, h⟩ := hr.inv
    have hb := h.drs_bounds
    have hnhi := h.n_hi
    have hdhi := h.d_hi
    rw [h.sb_dbs, h.sb_drb, blk_two, free_count_below img.mem 8192 d h.dbm drb (by omega)]
      at hfit
    rw [h.sb_drs, blk_small drs (by omega)] at hlive hcmp
    have hn : n = 62 := by
      by_contra hne
      exact absurd ((h.live_iff (n + 2) (by omega)).mp (hlive (n + 2) (by omega))) (by omega)
    have hsz2 : f.st_size ≤ 12 * BS := by unfold BS; omega
    refine (h.adder_fails f hf now h1 h2 hlen hsz2).2.2 (by omega) (fun s hs heq => ?_) hn
    have htrue := (strcmp_eq_name_field img.mem (drs * 4096 + 64 * s + 5) (nm s) f.name
      (fun t ht => h.ent_name s t hs ht) (h.nm_len s hs) (fun c hc => h.nm_pos s c hs hc) hlen
      (fun c hc => (hf.1 c hc).1)).mpr heq
    rw [hcmp s (by omega)] at htrue
    cases htrue
  · intro size_kib inode_count now img img2 runs hnow hmk hwf hok
    have h0 := mkfs_builder_main_Inv size_kib inode_count now img hnow hmk
    have := Inv.inject_runs_length runs 0 1 _ _ img img2 h0 hwf hok
    omega

theorem root_directory_full_witness :
    ∃ img0 img1 img62, mkfs_builder_main 180 128 0 = .ok img0 ∧
      inject_runs
        ((List.range 62).map (fun i => ((⟨[102, 48 + i], true, true, 0, []⟩ : AddFile), i)))
        img0 = .ok img62 ∧
      mkfs_adder_main ⟨[103], true, true, 0, []⟩ img62 7 = .error .root_full ∧
      inject_runs [(⟨[103], true, true, 1, [9]⟩, 7)] img0 = .ok img1 ∧
      [((⟨[103], true, true, 1, [9]⟩ : AddFile), 7)].length ≤ 62 := by
  obtain ⟨img0, img62, hmk, hseq, hr, hlive, hcmp⟩ := full_directory_example
  have h0 := mkfs_builder_main_Inv 180 128 0 img0 (by decide) hmk
  obtain ⟨img1, _, hadd, _⟩ := h0.inject_step ⟨[103], true, true, 1, [9]⟩
    ⟨by decide, by decide, rfl⟩ 7 rfl rfl (by decide) (by decide) 1 (by decide) (by decide)
    (by decide) (by decide)
  have hruns : inject_runs [(⟨[103], true, true, 1, [9]⟩, 7)] img0 = .ok img1 := by
    unfold inject_runs
    rw [hadd]
    rfl
  exact ⟨img0, img1, img62, hmk, hseq,
    root_directory_full.2.1 img62 ⟨[103], true, true, 0, []⟩ 7 hr
      ⟨by decide, fun b hb => absurd hb (List.not_mem_nil b), rfl⟩ rfl rfl (by decide)
      (by decide) (le_of_eq_of_le (by decide) (Nat.zero_le _)) hlive hcmp,
    hruns,
    root_directory_full.2.2 180 128 0 img0 img1 _ (by decide) hmk
      (fun p hp => by
        rw [List.mem_singleton.mp hp]
        exact ⟨by decide, by decide, rfl⟩) hruns⟩

/-! ## Runs of the injector on images that no run of the tools writes -/

theorem load_le_eq_zero (m : Mem) :
    ∀ n addr, load_le m addr n = 0 → ∀ j, j < n → m (addr + j) = 0 := by
  intro n
  induction n with
  | zero =>
    intro addr _ j hj
    omega
  | succ n ih =>
    intro addr h j hj
    unfold load_le at h
    have h1 : m addr = 0 := by omega
    have h2 : load_le m (addr + 1) n = 0 := by omega
    rcases Nat.eq_zero_or_pos j with hj0 | hj0
    · rw [hj0]
      exact h1
    · have := ih (addr + 1) h2 (j - 1) (by omega)
      rw [show addr + 1 + (j - 1) = addr + j from by omega] at this
      exact this

/-- The string at `p` differs from a name whose first character is not the
byte at `p`. -/
theorem strcmp_eq_first (m : Mem) (p c : Nat) (cs : List Nat) (h : m p ≠ c) :
    strcmp_eq m p (c :: cs) = false := by
  unfold strcmp_eq
  rw [decide_eq_false h]
  rfl

/-- The run of `inject_image` step by step, for an image whose superblock
names the blocks 1, 2 and 3 for the bitmaps and the inode table. -/
theorem inject_image_steps (f : AddFile) (img : Image) (now ic fi k : Nat)
    (h1 : (read_superblock img.mem 0).inode_bitmap_start = 1)
    (h2 : (read_superblock img.mem 0).data_bitmap_start = 2)
    (h3 : (read_superblock img.mem 0).inode_table_start = 3)
    (h4 : (read_superblock img.mem 0).inode_count = ic)
    (hfi : find_free_bit img.mem 4096 ic = (fi : Int))
    (hk : blocks_needed_of f.st_size = k) (hk12 : k ≤ 12)
    (m1 : Mem) (db : Nat → Nat)
    (halloc : inject_alloc_loop 8192 k 0 img.mem (fun _ => 0) = .ok (m1, db))
    (m2 : Mem) (hcopy : inject_copy_loop f.content f.st_size k db k 0 0 m1 = .ok m2)
    (rd : Nat)
    (hrd : load_le (set_bit (inject_new_inode m2 (12288 + 128 * fi) f.st_size now db k) 4096
      (fi : Int)) (12288 + 44) 4 * BS % 2 ^ 32 = rd)
    (fe : Nat) (ue : Int)
    (hscan : inject_scan_loop (set_bit (inject_new_inode m2 (12288 + 128 * fi) f.st_size now
      db k) 4096 (fi : Int)) rd f.name 64 0 (-1) 0 = .ok ((fe : Int), ue)) :
    inject_image f img now = .ok ⟨img.size,
      inject_write_entry (set_bit (inject_new_inode m2 (12288 + 128 * fi) f.st_size now db k)
        4096 (fi : Int)) 12288 (12288 + 128 * fi) (rd + 64 * fe) (fi : Int) ue f.name now⟩ := by
  have hne : ¬ ((fi : Int) = -1) := by omega
  have hfe : ¬ ((fe : Int) = -1) := by omega
  unfold inject_image
  dsimp only
  rw [h1, h2, h3, h4, blk_one, blk_two, blk_three, hfi, if_neg hne, hk,
    if_neg (show ¬ k > 12 by omega), halloc]
  dsimp only
  rw [hcopy]
  dsimp only
  rw [Int.toNat_ofNat, hrd, hscan]
  dsimp only
  rw [if_neg hfe, Int.toNat_ofNat]

theorem read_inode_mode (m : Mem) (ino : Nat) :
    (read_inode m ino).mode = load_le m (ino + 0) 2 := rfl

theorem read_inode_uid (m : Mem) (ino : Nat) :
    (read_inode m ino).uid = load_le m (ino + 4) 4 := rfl

/-- Bytes of a freshly built image that the invariant shape does not record:
everything outside the superblock fields, the first bitmap bytes, the root
inode and the two root entries is zero; the first word of the root inode is
not zero and byte 5 of the root inode (in `uid`) is zero. -/
theorem format_image_fresh (tb ic itb drs drb now : Nat) (h4 : 4 ≤ drs) (h5 : drs < 2 ^ 32)
    (hnow : now < 2 ^ 64) :
    (∀ a, 116 ≤ a → a ≠ 4096 → a ≠ 8192 → (a < 12288 ∨ 12288 + 128 ≤ a) →
      (a < drs * 4096 ∨ drs * 4096 + 128 ≤ a) →
      (format_image ⟨tb, ic, 1, 2, 3, itb, drs, drb⟩ now).mem a = 0) ∧
    load_le (format_image ⟨tb, ic, 1, 2, 3, itb, drs, drb⟩ now).mem 12288 4 ≠ 0 ∧
    (format_image ⟨tb, ic, 1, 2, 3, itb, drs, drb⟩ now).mem (12288 + 5) = 0 := by
  have hino := read_inode_format_image tb ic itb drs drb now h4 h5 hnow
  have hmode : load_le (format_image ⟨tb, ic, 1, 2, 3, itb, drs, drb⟩ now).mem (12288 + 0) 2
      = 0o040000 := by
    rw [← read_inode_mode, hino]
  have huid : load_le (format_image ⟨tb, ic, 1, 2, 3, itb, drs, drb⟩ now).mem (12288 + 4) 4
      = 0 := by
    rw [← read_inode_uid, hino]
  refine ⟨fun a ha h1 h2 h3 h6 => format_image_zero tb ic itb drs drb now a h4 h5 ha h1 h2 h3 h6,
    ?_, ?_⟩
  · intro h0
    have hb := load_le_eq_zero _ 4 12288 h0
    rw [load_le_zero _ 2 (12288 + 0) (fun a h1 h2 => by
      have := hb (a - 12288) (by omega)
      rw [show 12288 + (a - 12288) = a from by omega] at this
      exact this)] at hmode
    exact absurd hmode (by decide)
  · exact load_le_eq_zero _ 4 (12288 + 4) huid 1 (by omega)

theorem mkfs_builder_main_fresh (size_kib inode_count now : Nat) (img : Image)
    (hnow : now < 2 ^ 64) (h : mkfs_builder_main size_kib inode_count now = .ok img) :
    (∀ a, 116 ≤ a → a ≠ 4096 → a ≠ 8192 → (a < 12288 ∨ 12288 + 128 ≤ a) →
      (a < (3 + (inode_count * 128 + 4095) / 4096) * 4096 ∨
        (3 + (inode_count * 128 + 4095) / 4096) * 4096 + 128 ≤ a) → img.mem a = 0) ∧
    load_le img.mem 12288 4 ≠ 0 ∧ img.mem (12288 + 5) = 0 := by
  obtain ⟨h1, h2, h3, h4, h5⟩ := mkfs_builder_main_valid size_kib inode_count now img h
  rw [mkfs_builder_main_ok size_kib inode_count now h1 h2 h3 h4 h5] at h
  rw [← Except.ok.inj h]
  exact format_image_fresh _ _ _ _ _ now (by omega) (by omega) hnow

/-- The directory scan over a block that holds a one-byte file (the byte `b`,
then zero padding): slot 0 looks live and has the empty name, all other slots
are free, so the scan ends with `free_entry = 1` and `used_entries = 1`. -/
theorem inject_scan_file_block (m : Mem) (ent b c : Nat) (cs : List Nat) (hb : b ≠ 0)
    (hc : c ≠ 0) (hblock : ∀ t, t < 4096 → m (ent + t) = [b].getD t 0) :
    inject_scan_loop m ent (c :: cs) 64 0 (-1) 0 = .ok (((1 : Nat) : Int), ((1 : Nat) : Int)) := by
  have hzero : ∀ t, 1 ≤ t → t < 4096 → m (ent + t) = 0 := by
    intro t h1 h2
    rw [hblock t h2]
    exact List.getD_eq_default _ _ (by simpa using h1)
  have hscan := inject_scan_loop_ok m ent (c :: cs) 1 (by omega)
    (fun s hs h0 => by
      have hs0 : s = 0 := by omega
      subst hs0
      have := load_le_eq_zero _ _ _ h0 0 (by omega)
      rw [show ent + 64 * 0 + 0 + 0 = ent + 0 from rfl, hblock 0 (by omega)] at this
      exact hb this)
    (fun s hs1 hs2 => load_le_zero _ _ _ (fun a h1 h2 => by
      have := hzero (a - ent) (by omega) (by omega)
      rw [show ent + (a - ent) = a from by omega] at this
      exact this))
    (fun s hs => by
      have hs0 : s = 0 := by omega
      subst hs0
      apply strcmp_eq_first
      rw [show ent + 64 * 0 + 5 = ent + 5 from rfl, hzero 5 (by omega) (by omega)]
      exact fun hh => hc hh.symm) 64 0 rfl (by omega)
  rw [Nat.cast_zero, if_pos (by omega)] at hscan
  exact hscan

/-- A run on a formatted image in which every slot of the root directory
block was made live (first byte 1) and the data bitmap was cleared (bit 0,
the directory block itself, reads as free): no entry has the name of the
file, all 64 slots are live, and yet the injection of a one-byte file
succeeds, because the allocation loop hands out the directory block, the copy
loop overwrites it with the file, and the scan then finds slot 1 free. -/
theorem inject_corrupt_data_bitmap {tb ic itb drs drb : Nat} {nm : Nat → List Nat}
    {e : Nat → Nat} {img0 : Image} (h : Inv tb ic itb drs drb 0 1 nm e img0)
    (hz : ∀ a, 116 ≤ a → a ≠ 4096 → a ≠ 8192 → (a < 12288 ∨ 12288 + 128 ≤ a) →
      (a < drs * 4096 ∨ drs * 4096 + 128 ≤ a) → img0.mem a = 0)
    (img : Image)
    (hmem : img.mem = fun a =>
      if a = 8192 then 0
      else if drs * 4096 ≤ a ∧ a < drs * 4096 + 4096 ∧ a % 64 = 0 then 1 else img0.mem a)
    (f : AddFile) (h1 : f.found = true) (h2 : f.regular = true) (hlen : f.name.length ≤ 57)
    (b : Nat) (hcont : f.content = [b]) (hsz : f.st_size = 1) (hb0 : b ≠ 0) (hb : b < 256)
    (c : Nat) (cs : List Nat) (hname : f.name = c :: cs) (hc : c ≠ 0) (hc46 : c ≠ 46)
    (now : Nat) :
    (read_superblock img.mem 0).data_region_start = drs ∧
    (read_superblock img.mem 0).data_region_blocks = drb ∧
    (read_superblock img.mem 0).data_bitmap_start = 2 ∧
    (∀ s, s < 64 → load_le img.mem (drs * 4096 + 64 * s + 0) 4 ≠ 0) ∧
    (∀ s, s < 64 → strcmp_eq img.mem (drs * 4096 + 64 * s + 5) f.name = false) ∧
    (∀ x, x < 32768 → bit_clear img.mem 8192 x) ∧
    ∃ img2, mkfs_adder_main f img now = .ok img2 := by
  have hbd := h.drs_bounds
  have hic1 := h.ic_lo
  have hic2 := h.ic_hi
  have hdrb := h.drb_lo
  have hout : ∀ a, a ≠ 8192 → (a < drs * 4096 ∨ drs * 4096 + 4096 ≤ a ∨ a % 64 ≠ 0) →
      img.mem a = img0.mem a := by
    intro a ha1 ha2
    rw [hmem]
    show (if a = 8192 then 0
      else if drs * 4096 ≤ a ∧ a < drs * 4096 + 4096 ∧ a % 64 = 0 then 1 else img0.mem a) = _
    rw [if_neg ha1, if_neg (by omega)]
  have h8192 : img.mem 8192 = 0 := by
    rw [hmem]
    show (if 8192 = 8192 then 0
      else if drs * 4096 ≤ 8192 ∧ 8192 < drs * 4096 + 4096 ∧ 8192 % 64 = 0 then 1
        else img0.mem 8192) = 0
    rw [if_pos rfl]
  have hslot : ∀ s, s < 64 → img.mem (drs * 4096 + 64 * s) = 1 := by
    intro s hs
    rw [hmem]
    show (if drs * 4096 + 64 * s = 8192 then 0
      else if drs * 4096 ≤ drs * 4096 + 64 * s ∧ drs * 4096 + 64 * s < drs * 4096 + 4096 ∧
        (drs * 4096 + 64 * s) % 64 = 0 then 1 else img0.mem (drs * 4096 + 64 * s)) = 1
    rw [if_neg (by omega), if_pos (by omega)]
  have hsb : read_superblock img.mem 0 = read_superblock img0.mem 0 :=
    read_superblock_frame _ _ (fun a ha => hout a (by omega) (by omega))
  have hlive : ∀ s, s < 64 → load_le img.mem (drs * 4096 + 64 * s + 0) 4 ≠ 0 := by
    intro s hs h0
    have := load_le_eq_zero _ _ _ h0 0 (by omega)
    rw [show drs * 4096 + 64 * s + 0 + 0 = drs * 4096 + 64 * s from by omega, hslot s hs] at this
    exact absurd this (by decide)
  have hcmp : ∀ s, s < 64 → strcmp_eq img.mem (drs * 4096 + 64 * s + 5) f.name = false := by
    intro s hs
    rw [hname]
    apply strcmp_eq_first
    rw [hout _ (by omega) (by omega)]
    rcases Nat.lt_or_ge s 2 with hs2 | hs2
    · have := h.ent_name s 0 (by omega) (by omega)
      rw [show drs * 4096 + 64 * s + 5 + 0 = drs * 4096 + 64 * s + 5 from by omega] at this
      rw [this]
      rcases Nat.eq_zero_or_pos s with hs0 | hs0
      · rw [hs0, h.nm_dot]
        exact fun hh => hc46 hh.symm
      · rw [show s = 1 from by omega, h.nm_dotdot]
        exact fun hh => hc46 hh.symm
    · rw [hz _ (by omega) (by omega) (by omega) (by omega) (by omega)]
      exact fun hh => hc hh.symm
  have hclr : ∀ x, x < 32768 → bit_clear img.mem 8192 x := by
    intro x hx
    by_cases hx8 : x < 8
    · unfold bit_clear
      rw [show x / 8 = 0 from by omega, h8192]
      exact Nat.zero_and _
    · exact (bit_clear_congr img.mem img0.mem 8192 x (hout _ (by omega) (by omega))).mpr
        ((h.dbm x hx).mpr (by omega))
  have hfi : find_free_bit img.mem 4096 ic = ((1 : Nat) : Int) :=
    find_free_bit_below img.mem 4096 1 ic (fun i hi =>
      (bit_clear_congr img.mem img0.mem 4096 i (hout _ (by omega) (by omega))).trans
        ((h.ibm i hi).trans (by omega))) (by omega) (by omega)
  have hk : blocks_needed_of f.st_size = 1 := by
    rw [hsz]
    decide
  have hst : f.st_size = f.content.length := by
    rw [hsz, hcont]
    rfl
  obtain ⟨m1, db1, ha1, ha2, _, ha4, _⟩ := inject_alloc_loop_ok 8192 drs drb (by omega)
    (by omega) (by omega) 1 0 img.mem (fun _ => 0) 0 (by rw [hsb]; exact h.sb_drs)
    (by rw [hsb]; exact h.sb_drb)
    (fun x hx => ⟨fun _ => Nat.zero_le _, fun _ => hclr x hx⟩) (by omega)
  have hdb0 : db1 0 = drs + 0 := by
    rw [ha4 0, if_pos (by omega)]
  obtain ⟨m2, hc1, hc2, hc3, _⟩ := inject_copy_loop_ok f.content
    (by rw [hcont]; intro x hx; rw [List.mem_singleton.mp hx]; exact hb) 1 drs db1
    (by rw [← hst]; exact hk.symm) (by rw [← hst, hsz]; decide)
    (fun j hj => by rw [show j = 0 from by omega]; exact hdb0) (by omega)
    1 0 0 m1 (by omega) (fun _ => by omega)
  rw [← hst] at hc1
  have hM4 : ∀ a, a ≠ 4096 → (a < 12288 + 128 ∨ 12288 + 256 ≤ a) →
      set_bit (inject_new_inode m2 (12288 + 128 * 1) f.st_size now db1 1) 4096
        ((1 : Nat) : Int) a = m2 a := by
    intro a ha1 ha2
    rw [set_bit_out _ _ _ _ (by omega), inject_new_inode_out _ _ _ _ _ _ _ (by omega) (by omega)]
  have hrd : load_le (set_bit (inject_new_inode m2 (12288 + 128 * 1) f.st_size now db1 1) 4096
      ((1 : Nat) : Int)) (12288 + 44) 4 * BS % 2 ^ 32 = drs * 4096 := by
    rw [load_le_frame _ img0.mem _ _ (fun a hx1 hx2 => by
      rw [hM4 a (by omega) (by omega), hc2 a (by omega), ha2 a (by omega)]
      exact hout a (by omega) (by omega))]
    have := h.direct 0 0 (by omega) (by omega)
    rw [h.e_zero, h.e_one, if_pos (by omega)] at this
    rw [show 12288 + 44 = 12288 + 128 * 0 + 44 + 4 * 0 from rfl, this]
    unfold BS
    omega
  have hscan := inject_scan_file_block
    (set_bit (inject_new_inode m2 (12288 + 128 * 1) f.st_size now db1 1) 4096 ((1 : Nat) : Int))
    (drs * 4096) b c cs hb0 hc (fun t ht => by
      rw [hM4 _ (by omega) (by omega)]
      have := hc3 0 t (by omega) (by omega) ht
      rw [hcont, show 0 * 4096 + t = t from by omega] at this
      rw [show drs * 4096 + t = (drs + 0) * 4096 + t from by omega, this])
  rw [← hname] at hscan
  have hrun := inject_image_steps f img now ic 1 1
    (by rw [hsb]; exact h.sb_ibs) (by rw [hsb]; exact h.sb_dbs) (by rw [hsb]; exact h.sb_its)
    (by rw [hsb]; exact h.sb_ic)
    hfi hk (by omega) m1 db1 ha1 m2 hc1 (drs * 4096) hrd 1 _ hscan
  exact ⟨by rw [hsb]; exact h.sb_drs, by rw [hsb]; exact h.sb_drb, by rw [hsb]; exact h.sb_dbs,
    hlive, hcmp, hclr,
    _, (mkfs_adder_main_of_checks f img now h1 h2 hlen (by rw [hsz]; decide)
      (by rw [hsb]; exact h.sb_magic)).trans hrun⟩

/-! ## Counterexamples to C11, C12, C14 and C23 as stated -/

/-- Counterexample to C11 as stated: a regular file of 49153 bytes whose name
has 58 characters is rejected with the "filename too long" error and not with
the oversize error, although its size exceeds 49152: `main` checks the length
of the name before the size. -/
theorem inject_oversize_file_long_name :
    ∃ img, mkfs_builder_main 180 128 0 = .ok img ∧
      mkfs_adder_main ⟨List.replicate 58 97, true, true, 49153, List.replicate 49153 0⟩ img 0
        = .error .name_too_long ∧
      ¬ (mkfs_adder_main ⟨List.replicate 58 97, true, true, 49153, List.replicate 49153 0⟩ img 0
          = .error .file_too_large ↔
        49152 <
          (⟨List.replicate 58 97, true, true, 49153, List.replicate 49153 0⟩ :
            AddFile).st_size) := by
  obtain ⟨img, hmk⟩ := mkfs_builder_main_example
  have hrun : mkfs_adder_main
      ⟨List.replicate 58 97, true, true, 49153, List.replicate 49153 0⟩ img 0
      = .error .name_too_long := by
    unfold mkfs_adder_main
    rw [if_neg (by decide), if_neg (by decide), if_pos (by decide)]
  refine ⟨img, hmk, hrun, fun hiff => ?_⟩
  have := hiff.mpr (by decide)
  rw [hrun] at this
  exact absurd (Except.error.inj this) (by decide)

/-- Counterexample to C23 as stated: take the image of `format(180, 128)`,
make every slot of the root directory block live (first byte of each of the
64 slots of block 7 set to 1) and clear the first byte of the data bitmap, so
that bit 0 (the directory block) reads as free.  All 64 slots are live, no
entry is named "x", and the one-byte regular file "x" passes every earlier
check (a free inode and a free data block exist); still the run succeeds
instead of failing with "root directory full": the allocation loop hands out
the directory block, the copy loop overwrites it with the file, and the scan
that follows finds slot 1 free. -/
theorem inject_live_root_block_overwritten :
    ∃ img0 img img2, mkfs_builder_main 180 128 0 = .ok img0 ∧
      img = ⟨img0.size, fun a =>
        if a = 8192 then 0
        else if 7 * 4096 ≤ a ∧ a < 7 * 4096 + 4096 ∧ a % 64 = 0 then 1 else img0.mem a⟩ ∧
      AddFile.WF ⟨[120], true, true, 1, [65]⟩ ∧
      blocks_needed_of 1 ≤
        free_count img.mem (blk (read_superblock img.mem 0).data_bitmap_start)
          (read_superblock img.mem 0).data_region_blocks ∧
      (∀ s, s < 64 →
        (read_dirent img.mem
          (blk (read_superblock img.mem 0).data_region_start + 64 * s)).inode_no ≠ 0) ∧
      (∀ s, s < 64 →
        strcmp_eq img.mem
          (blk (read_superblock img.mem 0).data_region_start + 64 * s + 5) [120] = false) ∧
      mkfs_adder_main ⟨[120], true, true, 1, [65]⟩ img 0 = .ok img2 ∧
      mkfs_adder_main ⟨[120], true, true, 1, [65]⟩ img 0 ≠ .error .root_full := by
  obtain ⟨img0, hmk⟩ := mkfs_builder_main_example
  have h0 : Inv 45 128 4 7 38 0 1 (fun s => if s = 0 then [46] else [46, 46]) (fun j => j)
      img0 :=
    mkfs_builder_main_Inv 180 128 0 img0 (by decide) hmk
  have hfresh := mkfs_builder_main_fresh 180 128 0 img0 (by decide) hmk
  have hz : ∀ a, 116 ≤ a → a ≠ 4096 → a ≠ 8192 → (a < 12288 ∨ 12288 + 128 ≤ a) →
      (a < 7 * 4096 ∨ 7 * 4096 + 128 ≤ a) → img0.mem a = 0 := hfresh.1
  obtain ⟨hdrs, hdrb, hdbs, hlive, hcmp, hclr, img2, hrun⟩ := inject_corrupt_data_bitmap h0 hz
    ⟨img0.size, fun a =>
      if a = 8192 then 0
      else if 7 * 4096 ≤ a ∧ a < 7 * 4096 + 4096 ∧ a % 64 = 0 then 1 else img0.mem a⟩ rfl
    ⟨[120], true, true, 1, [65]⟩ rfl rfl (by decide) 65 rfl rfl (by decide) (by decide) 120 []
    rfl (by decide) (by decide) 0
  refine ⟨img0, _, img2, hmk, rfl, ⟨by decide, by decide, rfl⟩, ?_, ?_, ?_, hrun, ?_⟩
  · rw [hdbs, hdrb, blk_two,
      free_count_below _ 8192 0 (fun i hi => ⟨fun _ => Nat.zero_le _, fun _ => hclr i hi⟩) 38
        (by decide)]
    decide
  · intro s hs
    rw [hdrs, blk_small 7 (by decide), read_dirent_inode_no]
    exact hlive s hs
  · intro s hs
    rw [hdrs, blk_small 7 (by decide)]
    exact hcmp s hs
  · rw [hrun]
    exact fun hh => by cases hh

/-! ## C11: a file at the size limit and one byte above it -/

theorem inject_file_size_check_witness :
    ∃ img, mkfs_builder_main 180 128 0 = .ok img ∧
      (mkfs_adder_main ⟨[97], true, true, 49153, List.replicate 49153 0⟩ img 0
        = .error .file_too_large ↔ 49152 < 49153) ∧
      (mkfs_adder_main ⟨[97], true, true, 49152, List.replicate 49152 0⟩ img 0
        = .error .file_too_large ↔ 49152 < 49152) ∧
      blocks_needed_of 49152 = 12 ∧ blocks_needed_of 5000 = 2 := by
  obtain ⟨img, hmk⟩ := mkfs_builder_main_example
  exact ⟨img, hmk,
    (inject_file_size_check ⟨[97], true, true, 49153, List.replicate 49153 0⟩ img 0).1 rfl rfl
      (by decide),
    (inject_file_size_check ⟨[97], true, true, 49152, List.replicate 49152 0⟩ img 0).1 rfl rfl
      (by decide),
    by decide, by decide⟩

end MiniVSFS
